import Mathlib

/-!
# Byte-pair encoding codec (`bpenc.cpp`, `bpdec.cpp`)

A shallow embedding of the encoder and decoder.  Bytes (`uint8_t`) are natural
numbers below 256, byte vectors are `List Nat`.  Code that can leave the
defined behaviour of the source (a read outside a buffer, an `exit` call)
returns `Except Fault _`.
-/

namespace BPCode

/-- Ways in which a run of the source does not return normally. -/
inductive Fault where
  /-- Call of `exit(-1)` in `Block::Block` (`rawSize == 0`). -/
  | emptyBlock
  /-- Call of `exit(EXIT_FAILURE)` after "Block had %d substitutions, %d expected". -/
  | subsMismatch
  /-- Call of `exit(EXIT_FAILURE)` after "Bad input, expected init block". -/
  | badHeader
  /-- Undefined behaviour in the source, which has no check for it: a read
  outside the bounds of a buffer or of a variable that was never assigned, an
  overflow of an `int` counter, or a shift by the width of the type or more. -/
  | undefined
  /-- The iteration budget of a loop of the model is used up (never the case
  for the budgets the model passes; the source has no such notion). -/
  | fuel
  deriving DecidableEq

/-- The constant `NUMPASSES` (`#define NUMPASSES (32)`). -/
def NUMPASSES : Nat := 32

/-- All elements of a byte vector are `uint8_t` values. -/
def IsBytes (xs : List Nat) : Prop := ∀ b ∈ xs, b < 256

instance (xs : List Nat) : Decidable (IsBytes xs) := by
  unfold IsBytes; infer_instance

/-- Dereference of `buf + i`. -/
def read (buf : List Nat) (i : Nat) : Except Fault Nat :=
  match buf[i]? with
  | some b => .ok b
  | none => .error .undefined

/-- The `struct Block`: the three vectors `data`, `unused`, `subs`. -/
structure Block where
  data : List Nat
  unused : List Nat
  subs : List Nat
  deriving DecidableEq

/-- Assignment `tbl[b] = true` on a `bool[256]` table. -/
def markUsed (tbl : Nat → Bool) (b : Nat) : Nat → Bool :=
  fun j => if j = b then true else tbl j

/-- The `while` loop of `Block::Block`: `rest` is the input from `b` to
`dataEnd`; the result is the final `usedTbl` and `rawSize`. -/
def growBlock : List Nat → (Nat → Bool) → Nat → Nat → (Nat → Bool) × Nat
  | [], usedTbl, _, rawSize => (usedTbl, rawSize)
  | b :: rest, usedTbl, usedCount, rawSize =>
    if rawSize < 65535 ∧ 256 - usedCount ≠ NUMPASSES then
      if !usedTbl b then
        growBlock rest (markUsed usedTbl b) (usedCount + 1) (rawSize + 1)
      else
        growBlock rest usedTbl usedCount (rawSize + 1)
    else (usedTbl, rawSize)

/-- The loop `for j in [0,256): if(!usedTbl[j]) unused.push_back(j)`. -/
def collectUnused (usedTbl : Nat → Bool) : List Nat :=
  (List.range 256).filter (fun j => !usedTbl j)

/-- The constructor `Block::Block(_data, dataEnd)`: `input` is the bytes from `_data` to
`dataEnd`; returns the block and the bytes from the advanced `_data` on. -/
def mkBlock (input : List Nat) : Except Fault (Block × List Nat) :=
  let r := growBlock input (fun _ => false) 0 0
  if r.2 = 0 then .error .emptyBlock
  else .ok (⟨input.take r.2, collectUnused r.1, []⟩, input.drop r.2)

/-- The partition loop of `main`: `while(data < dataEnd) blocks.push_back(new
Block(data, dataEnd))`, with an iteration budget. -/
def partitionLoop : Nat → List Nat → Except Fault (List Block)
  | _, [] => .ok []
  | 0, _ :: _ => .error .fuel
  | n + 1, b :: rest =>
    match mkBlock (b :: rest) with
    | .error e => .error e
    | .ok (blk, rest') =>
      match partitionLoop n rest' with
      | .error e => .error e
      | .ok blks => .ok (blk :: blks)

/-- The blocks `main` builds from the file contents. -/
def partition (fileData : List Nat) : Except Fault (List Block) :=
  partitionLoop fileData.length fileData

/-! ## Substitution (`Block::DoSubs`) -/

/-- The rewrite loop of `Block::DoSubs`, in place on the buffer `buf` of
`size` bytes: `i` is `dataIn`, `o` is `dataOut`, both as offsets from
`&data[0]`.  Returns the buffer and the final `dataOut`. -/
def rewriteLoop (subs : List Nat) (sub first second size : Nat) :
    Nat → List Nat → Nat → Nat → Except Fault (List Nat × Nat)
  | 0, buf, i, o => if i = size then .ok (buf, o) else .error .fuel
  | n + 1, buf, i, o =>
    if i = size then .ok (buf, o)
    else
      match read buf i with
      | .error e => .error e
      | .ok x =>
        if i + 1 ≠ size ∧ x = first then
          match read buf (i + 1) with
          | .error e => .error e
          | .ok y =>
            if y = second then
              match read subs sub with
              | .error e => .error e
              | .ok key => rewriteLoop subs sub first second size n (buf.set o key) (i + 2) (o + 1)
            else rewriteLoop subs sub first second size n (buf.set o x) (i + 1) (o + 1)
        else rewriteLoop subs sub first second size n (buf.set o x) (i + 1) (o + 1)

/-- The method `Block::DoSubs(sub, first, second)`. -/
def DoSubs (blk : Block) (sub first second : Nat) : Except Fault Block :=
  match blk.unused.getLast? with
  | none => .ok blk
  | some back =>
    let subs := blk.subs ++ [back]
    let unused := blk.unused.dropLast
    match rewriteLoop subs sub first second blk.data.length blk.data.length blk.data 0 0 with
    | .error e => .error e
    | .ok (buf, o) => .ok ⟨buf.take o, unused, subs⟩

/-! ## Pair scanner (`GetBestPair`) -/

/-- Increment `++(pairCounts[idx])`. -/
def bump (pairCounts : Nat → Nat) (idx : Nat) : Nat → Nat :=
  fun j => if j = idx then pairCounts j + 1 else pairCounts j

/-- The counting loop `for(int j = 0; j < data.size() - 1; ++j)`: `n`
iterations are left and `j` is the counter, which is also the offset of the
pointer `data`. -/
def countLoop (data : List Nat) : Nat → Nat → (Nat → Nat) → Except Fault (Nat → Nat)
  | 0, _, pairCounts => .ok pairCounts
  | n + 1, j, pairCounts =>
    match read data j with
    | .error e => .error e
    | .ok first =>
      match read data (j + 1) with
      | .error e => .error e
      | .ok second =>
        if j + 1 < 2 ^ 31 then
          countLoop data n (j + 1) (bump pairCounts ((first <<< 8) ||| second))
        else .error .undefined

/-- The loop bound `data.size() - 1`, computed in `size_t` (64 bits): for an
empty vector the subtraction wraps around to `2^64 - 1`. -/
def loopBound (size : Nat) : Nat := if size = 0 then 2 ^ 64 - 1 else size - 1

/-- The selection loop `for(j = 1; j < 1 + n; ++j)` over the table, started
from `bestPairIdx = 0`, `bestPairCount = pairCounts[0]`: the result is
`(bestPairIdx, bestPairCount)`. -/
def selectLoop (pairCounts : Nat → Nat) (n : Nat) : Nat × Nat :=
  (List.range' 1 n).foldl
    (fun best j => if pairCounts j > best.2 then (j, pairCounts j) else best)
    (0, pairCounts 0)

/-- The selection loop `for(j = 1; j < 65536; ++j)` of `GetBestPair`. -/
@[irreducible]
def selectBest (pairCounts : Nat → Nat) : Nat × Nat :=
  selectLoop pairCounts 65535

/-- The pair `(bestPair.first, bestPair.second)` stored from `bestPairIdx`;
the field `count` of `PairCount` is never assigned by the source. -/
def pairOfIdx (bestPairIdx : Nat) : Nat × Nat :=
  ((bestPairIdx >>> 8) % 256, bestPairIdx &&& 0xFF)

/-- The function `GetBestPair(const Block * block, PairCount & bestPair)`, on
`block->data`. -/
def GetBestPair (data : List Nat) : Except Fault (Nat × Nat) :=
  match countLoop data (loopBound data.length) 0 (fun _ => 0) with
  | .error e => .error e
  | .ok pairCounts => .ok (pairOfIdx (selectBest pairCounts).1)

/-- The loop over `blocks` in `GetBestPair(std::vector<Block *> & blocks,
PairCount & bestPair)`, which counts the pairs of every block whose `unused`
is not empty into one table. -/
def countBlocks : List Block → (Nat → Nat) → Except Fault (Nat → Nat)
  | [], pairCounts => .ok pairCounts
  | blk :: blks, pairCounts =>
    if blk.unused ≠ [] then
      match countLoop blk.data (loopBound blk.data.length) 0 pairCounts with
      | .error e => .error e
      | .ok pairCounts' => countBlocks blks pairCounts'
    else countBlocks blks pairCounts

/-- The function `GetBestPair(std::vector<Block *> & blocks, PairCount &
bestPair)`. -/
def GetBestPairAll (blocks : List Block) : Except Fault (Nat × Nat) :=
  match countBlocks blocks (fun _ => 0) with
  | .error e => .error e
  | .ok pairCounts => .ok (pairOfIdx (selectBest pairCounts).1)

/-! ## Encoders (`BP_Encode1`, `BP_Encode2`) -/

/-- The bytes written for the pair table: `0x00 0x00`, `NUMPASSES`, then
`pairs[sub].first`, `pairs[sub].second` for `sub` in `[0, NUMPASSES)`. -/
def writePairTable (pairs : List (Nat × Nat)) : List Nat :=
  [0x00, 0x00, NUMPASSES % 256] ++ (pairs.take NUMPASSES).flatMap (fun p => [p.1, p.2])

/-- The "Write block" part of both encoders: the `numSubs` check, the two
bytes of `blockSize`, the keys `subs[0..numSubs)` and `blockSize` bytes of
`data`.  The conversions of `data.size()` and `subs.size()` to `int` are taken
as exact (a block holds at most 65,535 bytes of data and 256 keys). -/
def writeBlock (blk : Block) : Except Fault (List Nat) :=
  let blockSize := blk.data.length
  let numSubs := blk.subs.length
  if numSubs ≠ NUMPASSES then .error .subsMismatch
  else .ok ([(blockSize >>> 8) &&& 0xFF, blockSize &&& 0xFF] ++ blk.subs.take numSubs
    ++ blk.data.take blockSize)

/-- The pass loop `for(sub = 0; sub < NUMPASSES; ++sub)` of `BP_Encode1` on one
block: `n` iterations are left. -/
def passLoop1 : Nat → Nat → Block → List (Nat × Nat) → Except Fault (Block × List (Nat × Nat))
  | 0, _, blk, pairs => .ok (blk, pairs)
  | n + 1, sub, blk, pairs =>
    match GetBestPair blk.data with
    | .error e => .error e
    | .ok bestPair =>
      match DoSubs blk sub bestPair.1 bestPair.2 with
      | .error e => .error e
      | .ok blk' => passLoop1 n (sub + 1) blk' (pairs ++ [bestPair])

/-- The body of the loop over `blocks` in `BP_Encode1`: the bytes written
for one block. -/
def encodeBlock1 (blk : Block) : Except Fault (List Nat) :=
  match passLoop1 NUMPASSES 0 blk [] with
  | .error e => .error e
  | .ok (blk', pairs) =>
    match writeBlock blk' with
    | .error e => .error e
    | .ok bytes => .ok (writePairTable pairs ++ bytes)

/-- The function `BP_Encode1`: the bytes written to `fout`. -/
def BP_Encode1 : List Block → Except Fault (List Nat)
  | [] => .ok []
  | blk :: blks =>
    match encodeBlock1 blk with
    | .error e => .error e
    | .ok bytes =>
      match BP_Encode1 blks with
      | .error e => .error e
      | .ok rest => .ok (bytes ++ rest)

/-- The loop `for(auto & blk : blocks) blk->DoSubs(sub, first, second)`. -/
def doSubsAll (sub first second : Nat) : List Block → Except Fault (List Block)
  | [] => .ok []
  | blk :: blks =>
    match DoSubs blk sub first second with
    | .error e => .error e
    | .ok blk' =>
      match doSubsAll sub first second blks with
      | .error e => .error e
      | .ok blks' => .ok (blk' :: blks')

/-- The pass loop of `BP_Encode2` over all blocks: `n` iterations are left. -/
def passLoop2 : Nat → Nat → List Block → List (Nat × Nat) →
    Except Fault (List Block × List (Nat × Nat))
  | 0, _, blocks, pairs => .ok (blocks, pairs)
  | n + 1, sub, blocks, pairs =>
    match GetBestPairAll blocks with
    | .error e => .error e
    | .ok bestPair =>
      match doSubsAll sub bestPair.1 bestPair.2 blocks with
      | .error e => .error e
      | .ok blocks' => passLoop2 n (sub + 1) blocks' (pairs ++ [bestPair])

/-- The "Write blocks" loop of `BP_Encode2`. -/
def writeBlocks : List Block → Except Fault (List Nat)
  | [] => .ok []
  | blk :: blks =>
    match writeBlock blk with
    | .error e => .error e
    | .ok bytes =>
      match writeBlocks blks with
      | .error e => .error e
      | .ok rest => .ok (bytes ++ rest)

/-- The function `BP_Encode2`: the bytes written to `fout`. -/
def BP_Encode2 (blocks : List Block) : Except Fault (List Nat) :=
  match passLoop2 NUMPASSES 0 blocks [] with
  | .error e => .error e
  | .ok (blocks', pairs) =>
    match writeBlocks blocks' with
    | .error e => .error e
    | .ok bytes => .ok (writePairTable pairs ++ bytes)

/-- The encoder `main` as shipped: partition the file, then `BP_Encode1`. -/
def encodeFile1 (fileData : List Nat) : Except Fault (List Nat) :=
  match partition fileData with
  | .error e => .error e
  | .ok blocks => BP_Encode1 blocks

/-- The encoder `main` with the call of `BP_Encode2` (commented out in the
source) in place of `BP_Encode1`. -/
def encodeFile2 (fileData : List Nat) : Except Fault (List Nat) :=
  match partition fileData with
  | .error e => .error e
  | .ok blocks => BP_Encode2 blocks

/-! ## Decoder (`BP_Decode`) -/

/-- The inner loop `for(auto b : *srcbuf)` of one expansion pass: `subs` and
`pairs` are the offsets of the two pointers into the input `data`; the result
is `*dstbuf` (started from `dst`). -/
def expandPass (data : List Nat) (subs pairs sub : Nat) :
    List Nat → List Nat → Except Fault (List Nat)
  | [], dst => .ok dst
  | b :: src, dst =>
    match read data (subs + sub) with
    | .error e => .error e
    | .ok key =>
      if b = key then
        match read data (pairs + sub * 2) with
        | .error e => .error e
        | .ok p0 =>
          match read data (pairs + (sub * 2 + 1)) with
          | .error e => .error e
          | .ok p1 => expandPass data subs pairs sub src (dst ++ [p0, p1])
      else expandPass data subs pairs sub src (dst ++ [b])

/-- The loop `for(sub = numSubs - 1; sub >= 0; --sub)`: `n` is `sub + 1`. -/
def expandLoop (data : List Nat) (subs pairs : Nat) : Nat → List Nat → Except Fault (List Nat)
  | 0, srcbuf => .ok srcbuf
  | n + 1, srcbuf =>
    match expandPass data subs pairs n srcbuf [] with
    | .error e => .error e
    | .ok dstbuf => expandLoop data subs pairs n dstbuf

/-- The bytes `srcbuf->assign(data, data + blockSize)` copies. -/
def readN (data : List Nat) (pos n : Nat) : Except Fault (List Nat) :=
  if pos + n ≤ data.length then .ok ((data.drop pos).take n) else .error .undefined

/-- The `while(data < dataEnd)` loop of `BP_Decode`: `pos` is the offset of
the pointer `data`, `tbl` is `(numSubs, pairs)` once assigned, `out` the bytes
written to `fout` so far. -/
def decodeLoop (data : List Nat) :
    Nat → Nat → Option (Nat × Nat) → List Nat → Except Fault (List Nat)
  | 0, pos, _, out => if pos < data.length then .error .fuel else .ok out
  | n + 1, pos, tbl, out =>
    if pos < data.length then
      match read data pos with
      | .error e => .error e
      | .ok hi =>
        match read data (pos + 1) with
        | .error e => .error e
        | .ok lo =>
          let blockSize := (hi <<< 8) ||| lo
          if blockSize = 0 then
            match read data (pos + 2) with
            | .error e => .error e
            | .ok numSubs =>
              decodeLoop data n (pos + 2 + 1 + 2 * numSubs) (some (numSubs, pos + 2 + 1)) out
          else
            match tbl with
            | none => .error .undefined
            | some (numSubs, pairs) =>
              match readN data (pos + 2 + numSubs) blockSize with
              | .error e => .error e
              | .ok srcbuf =>
                match expandLoop data (pos + 2) pairs numSubs srcbuf with
                | .error e => .error e
                | .ok buf => decodeLoop data n (pos + 2 + numSubs + blockSize) tbl (out ++ buf)
    else .ok out

/-- The function `BP_Decode(fout, data, size)`: the bytes written to `fout`. -/
def BP_Decode (data : List Nat) : Except Fault (List Nat) :=
  match read data 0 with
  | .error e => .error e
  | .ok b0 =>
    if b0 ≠ 0x00 then .error .badHeader
    else
      match read data 1 with
      | .error e => .error e
      | .ok b1 =>
        if b1 ≠ 0x00 then .error .badHeader
        else decodeLoop data data.length 0 none []

/-! ## Definitions that word the specification, and invariants -/

/-- The rewrite as the specification words it: a single left-to-right pass
which, at each position, emits `key` and advances by 2 when the byte there is
`first` and a next byte exists and is `second`, and otherwise emits the byte
and advances by 1. -/
def greedyRewrite (first second key : Nat) : List Nat → List Nat
  | [] => []
  | [a] => [a]
  | a :: b :: rest =>
    if a = first ∧ b = second then key :: greedyRewrite first second key rest
    else a :: greedyRewrite first second key (b :: rest)

/-- The number of occurrences of the ordered adjacency `(a, b)` in `s` as the
specification counts them: the positions `i` with `0 ≤ i < |s| - 1`,
`s[i] = a` and `s[i+1] = b`, overlapping occurrences counted independently. -/
def pairOccurrences (a b : Nat) (s : List Nat) : Nat :=
  ((List.range (s.length - 1)).filter
    (fun i => decide (s[i]? = some a ∧ s[i + 1]? = some b))).length

/-- The table index `(first << 8) | second` of the pair at position `p`. -/
def pairIdxAt (data : List Nat) (p : Nat) : Nat :=
  (data.getD p 0 <<< 8) ||| data.getD (p + 1) 0

/-- The number of positions of `data` whose pair has table index `idx`. -/
def pairCountAt (data : List Nat) (idx : Nat) : Nat :=
  (List.range (data.length - 1)).countP (fun p => decide (pairIdxAt data p = idx))

/-- One expansion pass: every occurrence of `key` is replaced by the two
bytes `first`, `second`; other bytes are left unchanged. -/
def expandKey (key first second : Nat) (buf : List Nat) : List Nat :=
  buf.flatMap (fun b => if b = key then [first, second] else [b])

/-- The expansion of a block with `n` passes: for `k` from `n - 1` down to
`0`, expand `keys[k]` to `pairs[k].first`, `pairs[k].second`. -/
def expandAll (keys : List Nat) (pairs : List (Nat × Nat)) : Nat → List Nat → List Nat
  | 0, buf => buf
  | k + 1, buf =>
    expandAll keys pairs k
      (expandKey (keys.getD k 0) (pairs.getD k (0, 0)).1 (pairs.getD k (0, 0)).2 buf)

/-- What holds of a block when `Block::Block` returns it. -/
structure BlockInit (blk : Block) : Prop where
  subs_nil : blk.subs = []
  data_pos : 1 ≤ blk.data.length
  data_le : blk.data.length ≤ 65535
  unused_eq : blk.unused = (List.range 256).filter (fun j => decide (j ∉ blk.data))
  unused_len : NUMPASSES ≤ blk.unused.length

/-- The state of a block after `k` passes, relative to the block `blk0` the
constructor built; `pairs` are the pairs passed to the `k` calls of `DoSubs`. -/
structure PassInv (blk0 : Block) (k : Nat) (blk : Block) (pairs : List (Nat × Nat)) :
    Prop where
  unused_eq : blk.unused ++ blk.subs.reverse = blk0.unused
  subs_len : blk.subs.length = k
  pairs_len : pairs.length = k
  data_mem : ∀ x ∈ blk.data, x ∈ blk0.data ∨ x ∈ blk.subs
  data_pos : 1 ≤ blk.data.length
  data_le : blk.data.length ≤ blk0.data.length
  decode : expandAll blk.subs pairs k blk.data = blk0.data

/-- A record of the container: a pair table or a block. -/
inductive Record where
  | table (pairs : List (Nat × Nat))
  | block (keys : List Nat) (data : List Nat)

/-- The bytes of a record: a pair table is `0x00 0x00`, the count `N` and `N`
pairs of bytes; a block is its size as two big-endian bytes, the keys and the
data. -/
def Record.bytes : Record → List Nat
  | .table pairs => [0, 0, pairs.length] ++ pairs.flatMap (fun p => [p.1, p.2])
  | .block keys data => [data.length / 256, data.length % 256] ++ keys ++ data

/-- The stream of a list of records. -/
def streamOf (recs : List Record) : List Nat := recs.flatMap Record.bytes

/-- Well-formed records after a pair table of `n` pairs: the count of a pair
table fits its byte, a block has `n` keys (`n` the count of the latest table)
and a size in `[1, 65535]`. -/
def WellFormed : Nat → List Record → Prop
  | _, [] => True
  | _, .table pairs :: recs => pairs.length < 256 ∧ WellFormed pairs.length recs
  | n, .block keys data :: recs =>
    keys.length = n ∧ 1 ≤ data.length ∧ data.length ≤ 65535 ∧ WellFormed n recs

/-- The decoded output: every block expanded with the most recent pair
table, `tbl` being the table in force at the start. -/
def decodeRecords : List (Nat × Nat) → List Record → List Nat
  | _, [] => []
  | _, .table pairs :: recs => decodeRecords pairs recs
  | tbl, .block keys data :: recs =>
    expandAll keys tbl tbl.length data ++ decodeRecords tbl recs

/-- Successive calls `DoSubs(sub, first, second)`, `sub` counting up from the
given value, one call for each pair of the list. -/
def doSubsCalls : List (Nat × Nat) → Nat → Block → Except Fault Block
  | [], _, blk => .ok blk
  | p :: ps, sub, blk =>
    match DoSubs blk sub p.1 p.2 with
    | .error e => .error e
    | .ok blk' => doSubsCalls ps (sub + 1) blk'

/-- The pair table `tbl` is stored in `data` from offset `off` on. -/
def TableAt (data : List Nat) (off : Nat) (tbl : List (Nat × Nat)) : Prop :=
  ∀ i, i < tbl.length → read data (off + i * 2) = .ok (tbl.getD i (0, 0)).1 ∧
    read data (off + (i * 2 + 1)) = .ok (tbl.getD i (0, 0)).2

/-- Every block of `blocks` is the state after `k` passes of the block at the
same place in `blocks0`, for the shared pair list `pairs`. -/
def AllInv (blocks0 : List Block) (k : Nat) (blocks : List Block)
    (pairs : List (Nat × Nat)) : Prop :=
  List.Forall₂ (fun blk0 blk => BlockInit blk0 ∧ PassInv blk0 k blk pairs) blocks0 blocks

/-- The `while(data < dataEnd)` loop of `BP_Decode` once more, this time
returning the bytes written to `fout` up to the point where the run ends,
together with the fault that ended it, if any (`decodeLoop` drops the bytes
written when the run ends in a fault). -/
def decodeLoopOut (data : List Nat) :
    Nat → Nat → Option (Nat × Nat) → List Nat → List Nat × Option Fault
  | 0, pos, _, out => if pos < data.length then (out, some .fuel) else (out, none)
  | n + 1, pos, tbl, out =>
    if pos < data.length then
      match read data pos with
      | .error e => (out, some e)
      | .ok hi =>
        match read data (pos + 1) with
        | .error e => (out, some e)
        | .ok lo =>
          let blockSize := (hi <<< 8) ||| lo
          if blockSize = 0 then
            match read data (pos + 2) with
            | .error e => (out, some e)
            | .ok numSubs =>
              decodeLoopOut data n (pos + 2 + 1 + 2 * numSubs) (some (numSubs, pos + 2 + 1)) out
          else
            match tbl with
            | none => (out, some .undefined)
            | some (numSubs, pairs) =>
              match readN data (pos + 2 + numSubs) blockSize with
              | .error e => (out, some e)
              | .ok srcbuf =>
                match expandLoop data (pos + 2) pairs numSubs srcbuf with
                | .error e => (out, some e)
                | .ok buf =>
                  decodeLoopOut data n (pos + 2 + numSubs + blockSize) tbl (out ++ buf)
    else (out, none)

/-- The function `BP_Decode(fout, data, size)` once more: the bytes written
to `fout` when the run ends, and the fault that ended it, if any. -/
def BP_DecodeOut (data : List Nat) : List Nat × Option Fault :=
  match read data 0 with
  | .error e => ([], some e)
  | .ok b0 =>
    if b0 ≠ 0x00 then ([], some .badHeader)
    else
      match read data 1 with
      | .error e => ([], some e)
      | .ok b1 =>
        if b1 ≠ 0x00 then ([], some .badHeader)
        else decodeLoopOut data data.length 0 none []

/-- The result of a run as `BP_Decode` reports it. -/
def outcome : List Nat × Option Fault → Except Fault (List Nat)
  | (out, none) => .ok out
  | (_, some e) => .error e

/-- The pair table in force after the records `recs`, `tbl` being the one in
force before them. -/
def lastTable : List (Nat × Nat) → List Record → List (Nat × Nat)
  | tbl, [] => tbl
  | _, .table pairs :: recs => lastTable pairs recs
  | tbl, .block _ _ :: recs => lastTable tbl recs

/-- The stop condition of the partitioner for the prefix of length `m` of the
remaining input `R`: the prefix is all of `R`, or it has 65,535 bytes, or it
contains exactly `256 - NUMPASSES` distinct byte values. -/
def StopAt (R : List Nat) (m : Nat) : Prop :=
  m = R.length ∨ m = 65535 ∨ (R.take m).toFinset.card = 256 - NUMPASSES

/-- The pair-table record of the encoders, as the specification words it:
`0x00 0x00`, the count `0x20`, then the pairs as `first`, `second`. -/
def tableBytes (pairs : List (Nat × Nat)) : List Nat :=
  [0x00, 0x00, 0x20] ++ pairs.flatMap (fun p => [p.1, p.2])

/-- The block record, as the specification words it: the length of the
compressed data as two big-endian bytes, the keys, the compressed data. -/
def blockBytes (keys data : List Nat) : List Nat :=
  [data.length / 256, data.length % 256] ++ keys ++ data

/-- The number of adjacent positions of `s` that hold `a` then `b`, computed
along the list. -/
def occ (a b : Nat) : List Nat → Nat
  | [] => 0
  | [_] => 0
  | x :: y :: rest => (if x = a ∧ y = b then 1 else 0) + occ a b (y :: rest)

/-- The expansion of a block with the passes taken in ascending order: for
`k` from `k0` up, `n` passes, expand `keys[k]` to `pairs[k].first`,
`pairs[k].second`. -/
def expandAscFrom (keys : List Nat) (pairs : List (Nat × Nat)) : Nat → Nat → List Nat → List Nat
  | 0, _, buf => buf
  | n + 1, k, buf =>
    expandAscFrom keys pairs n (k + 1)
      (expandKey (keys.getD k 0) (pairs.getD k (0, 0)).1 (pairs.getD k (0, 0)).2 buf)

/-- The expansion of a block with `n` passes in ascending order, `k = 0` up
to `n - 1`. -/
def expandAscending (keys : List Nat) (pairs : List (Nat × Nat)) (n : Nat) (buf : List Nat) :
    List Nat :=
  expandAscFrom keys pairs n 0 buf

/-- The total number of occurrences of the pair `(a, b)` across all blocks. -/
def totalOccurrences (a b : Nat) (blocks : List Block) : Nat :=
  (blocks.map (fun blk => pairOccurrences a b blk.data)).sum

/-- The total of `occ` across the blocks, which computes `totalOccurrences`. -/
def occAll (a b : Nat) (blocks : List Block) : Nat :=
  (blocks.map (fun blk => occ a b blk.data)).sum

/-- The loop `while(val >> size*7) ++size;` of `BP_EncodeFlexInt`, with
`size_t` of 64 bits: the shift `val >> size*7` is undefined once `size*7`
reaches 64.  `n` is the iteration budget. -/
def encodeSizeLoop (val : Nat) : Nat → Nat → Except Fault Nat
  | 0, _ => .error .fuel
  | n + 1, size =>
    if 64 ≤ size * 7 then .error .undefined
    else if val >>> (size * 7) ≠ 0 then encodeSizeLoop val n (size + 1)
    else .ok size

/-- The loop `while(c)` of `BP_EncodeFlexInt`: `cur` is the byte at `*bfr`,
`out` the bytes written before it. -/
def encodeBytesLoop (val : Nat) : Nat → Nat → List Nat → List Nat
  | 0, cur, out => out ++ [cur]
  | c + 1, cur, out =>
    encodeBytesLoop val c ((val >>> (c * 7)) &&& 0x7F) (out ++ [cur ||| 0x80])

/-- The function `BP_EncodeFlexInt(val, bfr)`: the size it returns and the
bytes it has written at `bfr[0..size)`. -/
def BP_EncodeFlexInt (val : Nat) : Except Fault (Nat × List Nat) :=
  match encodeSizeLoop val 10 1 with
  | .error e => .error e
  | .ok size =>
    let c := size - 1
    .ok (size, encodeBytesLoop val c ((val >>> (c * 7)) &&& 0x7F) [])

/-- The loop `while(*bfr & 0x80)` of `BP_DecodeFlexInt`: `pos` is the offset
of `bfr`, and `*val << 7` is taken in the 64 bits of `size_t`.  `n` is the
iteration budget. -/
def decodeFlexLoop (bfr : List Nat) : Nat → Nat → Nat → Nat → Except Fault (Nat × Nat)
  | 0, _, _, _ => .error .fuel
  | n + 1, pos, val, size =>
    match read bfr pos with
    | .error e => .error e
    | .ok b =>
      if b &&& 0x80 ≠ 0 then
        match read bfr (pos + 1) with
        | .error e => .error e
        | .ok b' =>
          decodeFlexLoop bfr n (pos + 1) (((val <<< 7) % 2 ^ 64) ||| (b' &&& 0x7F)) (size + 1)
      else .ok (val, size)

/-- The function `BP_DecodeFlexInt(val, bfr)`: the value stored to `*val` and
the size returned. -/
def BP_DecodeFlexInt (bfr : List Nat) : Except Fault (Nat × Nat) :=
  match read bfr 0 with
  | .error e => .error e
  | .ok b => decodeFlexLoop bfr (bfr.length + 1) 0 (b &&& 0x7F) 1

/-- The globals of `misc/bpencode.c`: the buffer `bp_bfr`, the sizes
`bp_csize` and `bp_dsize`, the count `bp_numSubs` and the bitmap `freeVals` of
32 bytes. -/
structure EncState where
  bp_bfr : List Nat
  bp_csize : Nat
  bp_dsize : Nat
  bp_numSubs : Nat
  freeVals : List Nat

/-- The default of the global `bp_maxPasses`, which is `BP_MAX_PASSES`. -/
def bp_maxPasses : Nat := 16

/-- The function `LowestBit`. -/
def LowestBit (b : Nat) : Nat :=
  if b &&& 0x0F ≠ 0 then
    if b &&& 0x03 ≠ 0 then (if b &&& 0x01 ≠ 0 then 0 else 1)
    else (if b &&& 0x04 ≠ 0 then 2 else 3)
  else
    if b &&& 0x30 ≠ 0 then (if b &&& 0x10 ≠ 0 then 4 else 5)
    else (if b &&& 0x40 ≠ 0 then 6 else 7)

/-- The update `x &= ~(1 << k)` of a `uint8_t`. -/
def clearBit (x k : Nat) : Nat := x &&& (0xFF ^^^ (1 <<< k))

/-- The store `buf[i] = v`. -/
def store (buf : List Nat) (i v : Nat) : Except Fault (List Nat) :=
  if i < buf.length then .ok (buf.set i v) else .error .undefined

/-- The loop of `GetUsed`: `n` bytes are left, `j` is the offset of `bfr`. -/
def GetUsedLoop (bfr : List Nat) : Nat → Nat → List Nat → Except Fault (List Nat)
  | 0, _, fv => .ok fv
  | n + 1, j, fv =>
    match read bfr j with
    | .error e => .error e
    | .ok b =>
      GetUsedLoop bfr n (j + 1)
        (fv.set (b &&& 0x1F) (clearBit (fv.getD (b &&& 0x1F) 0) (b >>> 5)))

/-- The function `GetUsed(bfr, size)`: the bitmap `freeVals` it leaves. -/
def GetUsed (bfr : List Nat) (size : Nat) : Except Fault (List Nat) :=
  GetUsedLoop bfr size 0 (List.replicate 32 0xFF)

/-- The loop of `PickUnused`: `n` buckets are left, `j` is the bucket. -/
def PickUnusedLoop (fv : List Nat) : Nat → Nat → Option (Nat × List Nat)
  | 0, _ => none
  | n + 1, j =>
    let bkt := fv.getD j 0
    if bkt ≠ 0 then
      let bit := LowestBit bkt
      some (j ||| (bit <<< 5), fv.set j (clearBit bkt bit))
    else PickUnusedLoop fv n (j + 1)

/-- The function `PickUnused`: `none` when it returns false, else the value
stored to `*val` and the bitmap it leaves. -/
def PickUnused (fv : List Nat) : Option (Nat × List Nat) :=
  PickUnusedLoop fv 32 0

/-- The loop `while(j < size)` of `CountPairs`: `data` is the offset of the
pointer `data` in the buffer, `n` the iteration budget. -/
def CountPairsLoop (bfr : List Nat) (pair0 pair1 data size : Nat) :
    Nat → Nat → Nat → Except Fault Nat
  | 0, j, occurrences => if j < size then .error .fuel else .ok occurrences
  | n + 1, j, occurrences =>
    if j < size then
      match read bfr (data + j) with
      | .error e => .error e
      | .ok d0 =>
        if d0 = pair0 then
          match read bfr (data + j + 1) with
          | .error e => .error e
          | .ok d1 =>
            if d1 = pair1 then
              CountPairsLoop bfr pair0 pair1 data size n (j + 2) (occurrences + 1)
            else CountPairsLoop bfr pair0 pair1 data size n (j + 1) occurrences
        else CountPairsLoop bfr pair0 pair1 data size n (j + 1) occurrences
    else .ok occurrences

/-- The function `CountPairs(pair, data, size)`, with `pair` and `data` as
offsets in the buffer: `occurrences` starts at 1 and `j` at 2. -/
def CountPairs (bfr : List Nat) (pair data size : Nat) : Except Fault Nat :=
  match read bfr pair with
  | .error e => .error e
  | .ok pair0 =>
    match read bfr (pair + 1) with
    | .error e => .error e
    | .ok pair1 => CountPairsLoop bfr pair0 pair1 data size size 2 1

/-- The loop `for(j = 1; (j + 8 + 2) < size; ++j)` of `DoSubstitution`:
`best` is the offset of `bfr`, `n` the iteration budget. -/
def selectPairLoop (bfr : List Nat) (size : Nat) :
    Nat → Nat → Nat → Nat → Except Fault (Nat × Nat)
  | 0, j, best, pairCount => if j + 8 + 2 < size then .error .fuel else .ok (best, pairCount)
  | n + 1, j, best, pairCount =>
    if j + 8 + 2 < size then
      match CountPairs bfr j (j + 2) (size - 2 - j) with
      | .error e => .error e
      | .ok newPairCount =>
        if newPairCount > pairCount then selectPairLoop bfr size n (j + 1) j newPairCount
        else selectPairLoop bfr size n (j + 1) best pairCount
    else .ok (best, pairCount)

/-- The loop `while(bfr < bfrEnd)` of `DoSubstitution`, in place on the
buffer: `i` is the offset of `bfr`, `o` that of `bfrOut`, `n` the iteration
budget.  Returns the buffer and both offsets. -/
def substLoop (key pair0 pair1 bfrEnd : Nat) :
    Nat → List Nat → Nat → Nat → Except Fault (List Nat × Nat × Nat)
  | 0, buf, i, o => if i < bfrEnd then .error .fuel else .ok (buf, i, o)
  | n + 1, buf, i, o =>
    if i < bfrEnd then
      match read buf i with
      | .error e => .error e
      | .ok a =>
        if a = pair0 then
          match read buf (i + 1) with
          | .error e => .error e
          | .ok b =>
            if b = pair1 then
              match store buf o key with
              | .error e => .error e
              | .ok buf' => substLoop key pair0 pair1 bfrEnd n buf' (i + 2) (o + 1)
            else
              match store buf o a with
              | .error e => .error e
              | .ok buf' => substLoop key pair0 pair1 bfrEnd n buf' (i + 1) (o + 1)
        else
          match store buf o a with
          | .error e => .error e
          | .ok buf' => substLoop key pair0 pair1 bfrEnd n buf' (i + 1) (o + 1)
    else .ok (buf, i, o)

/-- The end of `DoSubstitution`: the copy of the last byte, the assignment of
`bp_csize` and the record of the substitution at `bp_dsize - bp_numSubs*3`. -/
def recordSubstitution (st : EncState) (fv : List Nat) (key pair0 pair1 bfrEnd : Nat)
    (buf : List Nat) (i o : Nat) : Except Fault (Bool × EncState) :=
  let last : Except Fault (List Nat × Nat) :=
    if i < bfrEnd + 1 then
      match read buf i with
      | .error e => .error e
      | .ok a =>
        match store buf o a with
        | .error e => .error e
        | .ok buf' => .ok (buf', o + 1)
    else .ok (buf, o)
  match last with
  | .error e => .error e
  | .ok (buf1, bfrOut) =>
    let numSubs := (st.bp_numSubs + 1) % 256
    if st.bp_dsize < numSubs * 3 then .error .undefined
    else
      let subIdx := st.bp_dsize - numSubs * 3
      match store buf1 subIdx key with
      | .error e => .error e
      | .ok buf2 =>
        match store buf2 (subIdx + 1) pair0 with
        | .error e => .error e
        | .ok buf3 =>
          match store buf3 (subIdx + 2) pair1 with
          | .error e => .error e
          | .ok buf4 => .ok (true, ⟨buf4, bfrOut, st.bp_dsize, numSubs, fv⟩)

/-- The function `DoSubstitution`: its result and the globals it leaves. -/
def DoSubstitution (st : EncState) : Except Fault (Bool × EncState) :=
  let size := st.bp_csize
  if size ≤ 8 then .ok (false, st)
  else
    match PickUnused st.freeVals with
    | none => .ok (false, st)
    | some (key, fv) =>
      match CountPairs st.bp_bfr 0 2 (size - 2) with
      | .error e => .error e
      | .ok pairCount0 =>
        match selectPairLoop st.bp_bfr size size 1 0 pairCount0 with
        | .error e => .error e
        | .ok (bfr, pairCount) =>
          if pairCount = 0 then
            .ok (false, ⟨st.bp_bfr, st.bp_csize, st.bp_dsize, st.bp_numSubs, fv⟩)
          else
            match read st.bp_bfr bfr with
            | .error e => .error e
            | .ok pair0 =>
              match read st.bp_bfr (bfr + 1) with
              | .error e => .error e
              | .ok pair1 =>
                match substLoop key pair0 pair1 (size - 1) size st.bp_bfr bfr bfr with
                | .error e => .error e
                | .ok (buf, i, o) =>
                  recordSubstitution st fv key pair0 pair1 (size - 1) buf i o

/-- The loop `for(j = 0; j < BP_MAX_PASSES; ++j)` of `BP_Encode`: `n` passes
are left. -/
def encodePasses : Nat → EncState → Except Fault EncState
  | 0, st => .ok st
  | n + 1, st =>
    match DoSubstitution st with
    | .error e => .error e
    | .ok (false, st') => .ok st'
    | .ok (true, st') => encodePasses n st'

/-- The function `BP_Encode` on the buffer `bp_bfr` with `bp_dsize` bytes of
input: the globals it leaves. -/
def BP_Encode (bp_bfr : List Nat) (bp_dsize : Nat) : Except Fault EncState :=
  match GetUsed bp_bfr bp_dsize with
  | .error e => .error e
  | .ok fv => encodePasses bp_maxPasses ⟨bp_bfr, bp_dsize, bp_dsize, 0, fv⟩

/-- The alphabet invariant of a block `blk` after `k` passes, relative to the
block `blk0` the constructor built: `k` keys are recorded, every byte of the
data occurs in the original data or is a recorded key, the keys are pairwise
distinct, and while a pass is left the key it will pop is not in the data. -/
def AlphabetInv (blk0 blk : Block) (k : Nat) : Prop :=
  blk.subs.length = k ∧ (∀ x ∈ blk.data, x ∈ blk0.data ∨ x ∈ blk.subs) ∧ blk.subs.Nodup ∧
    (k < NUMPASSES → ∃ key, blk.unused.getLast? = some key ∧ key ∉ blk.data)

/-- The encoding of `v` in `n` bytes as the comments of `flexints.h` and
`bpencfile.c` describe it: the `n` groups of 7 bits of `v`, most significant
group first, with bit `0x80` set on every byte except the last. -/
def flexGroups (v n : Nat) : List Nat :=
  (List.range n).map (fun i => v / 128 ^ (n - 1 - i) % 128 + if i + 1 < n then 128 else 0)

/-- The function `BP_Encode` with the global `bp_maxPasses` set to
`maxPasses`, as `main` of `bpencfile.c` sets it before its calls. -/
def BP_EncodeWith (maxPasses : Nat) (bp_bfr : List Nat) (bp_dsize : Nat) :
    Except Fault EncState :=
  match GetUsed bp_bfr bp_dsize with
  | .error e => .error e
  | .ok fv => encodePasses maxPasses ⟨bp_bfr, bp_dsize, bp_dsize, 0, fv⟩

/-- The backward sweep of `BP_Decode` in `misc/bpdecode.c`, `while(src !=
stop)` with `stop = bfr - 1`: the first argument is `src - stop`, the number
of bytes left to read, and `d` is the offset of `dst + 1`. -/
def sweepBack (key pair0 pair1 : Nat) : Nat → List Nat → Nat → Except Fault (List Nat × Nat)
  | 0, buf, d => .ok (buf, d)
  | n + 1, buf, d =>
    match read buf n with
    | .error e => .error e
    | .ok b =>
      if b = key then
        if d < 2 then .error .undefined
        else
          match store buf (d - 1) pair1 with
          | .error e => .error e
          | .ok buf1 =>
            match store buf1 (d - 2) pair0 with
            | .error e => .error e
            | .ok buf2 => sweepBack key pair0 pair1 n buf2 (d - 2)
      else
        if d < 1 then .error .undefined
        else
          match store buf (d - 1) b with
          | .error e => .error e
          | .ok buf1 => sweepBack key pair0 pair1 n buf1 (d - 1)

/-- The forward sweep of `BP_Decode` in `misc/bpdecode.c`, `while(src !=
stop)`: `src`, `dst` and `stop` are offsets in the buffer, `n` is the
iteration budget. -/
def sweepFwd (key pair0 pair1 stop : Nat) :
    Nat → List Nat → Nat → Nat → Except Fault (List Nat × Nat)
  | 0, buf, src, dst => if src = stop then .ok (buf, dst) else .error .fuel
  | n + 1, buf, src, dst =>
    if src = stop then .ok (buf, dst)
    else
      match read buf src with
      | .error e => .error e
      | .ok b =>
        if b = key then
          match store buf dst pair0 with
          | .error e => .error e
          | .ok buf1 =>
            match store buf1 (dst + 1) pair1 with
            | .error e => .error e
            | .ok buf2 => sweepFwd key pair0 pair1 stop n buf2 (src + 1) (dst + 2)
        else
          match store buf dst b with
          | .error e => .error e
          | .ok buf1 => sweepFwd key pair0 pair1 stop n buf1 (src + 1) (dst + 1)

/-- The six reads `*(subs++)` at the top of the loop of `BP_Decode` in
`misc/bpdecode.c`: the two records `(keyA, pair0A, pair1A)` and `(keyB,
pair0B, pair1B)`. -/
def readRecords (buf : List Nat) (subs : Nat) :
    Except Fault ((Nat × Nat × Nat) × (Nat × Nat × Nat)) :=
  match read buf subs, read buf (subs + 1), read buf (subs + 2), read buf (subs + 3),
      read buf (subs + 4), read buf (subs + 5) with
  | .ok keyA, .ok pair0A, .ok pair1A, .ok keyB, .ok pair0B, .ok pair1B =>
    .ok ((keyA, pair0A, pair1A), (keyB, pair0B, pair1B))
  | _, _, _, _, _, _ => .error .undefined

/-- The loop `while(s < numSubs)` of `BP_Decode` in `misc/bpdecode.c`:
`subs` is the offset of the pointer `subs`, `s` the `uint8_t` counter, `n` the
iteration budget. -/
def Misc.decodeLoop (numSubs : Nat) : Nat → List Nat → Nat → Nat → Nat → Except Fault (List Nat)
  | 0, buf, _, _, s => if s < numSubs then .error .fuel else .ok buf
  | n + 1, buf, csize, subs, s =>
    if s < numSubs then
      match readRecords buf subs with
      | .error e => .error e
      | .ok ((keyA, pair0A, pair1A), (keyB, pair0B, pair1B)) =>
        match sweepBack keyA pair0A pair1A csize buf (subs + 6) with
        | .error e => .error e
        | .ok (buf1, d) =>
          if (s + 1) % 256 = numSubs then .ok buf1
          else
            match sweepFwd keyB pair0B pair1B (subs + 6) (buf1.length + 1) buf1 d 0 with
            | .error e => .error e
            | .ok (buf2, dst) => Misc.decodeLoop numSubs n buf2 dst (subs + 6) ((s + 2) % 256)
    else .ok buf

/-- The function `BP_Decode(bfr, csize, dsize, numSubs)` of
`misc/bpdecode.c` on the buffer `bfr`: the buffer it leaves. -/
def Misc.BP_Decode (bfr : List Nat) (csize dsize numSubs : Nat) : Except Fault (List Nat) :=
  if dsize < numSubs * 3 then .error .undefined
  else Misc.decodeLoop numSubs (numSubs + 1) bfr csize (dsize - numSubs * 3) 0

/-- The value `MAXPASSES` of `bpencfile.c`. -/
def MAXPASSES : Nat := 128

/-- The five `fwrite` calls of the loop of `main` in `bpencfile.c`, with the
globals `st` that `BP_Encode` left: DEC_SIZE, COMP_SIZE, NUM_SUBS, the
substitution records, the compressed data. -/
def writeRecord (st : EncState) : Except Fault (List Nat) :=
  match BP_EncodeFlexInt st.bp_dsize with
  | .error e => .error e
  | .ok (n1, b1) =>
    match BP_EncodeFlexInt st.bp_csize with
    | .error e => .error e
    | .ok (n2, b2) =>
      if st.bp_dsize < st.bp_numSubs * 3 then .error .undefined
      else
        match readN st.bp_bfr (st.bp_dsize - st.bp_numSubs * 3) (st.bp_numSubs * 3) with
        | .error e => .error e
        | .ok subs =>
          match readN st.bp_bfr 0 st.bp_csize with
          | .error e => .error e
          | .ok data => .ok (b1.take n1 ++ b2.take n2 ++ [st.bp_numSubs] ++ subs ++ data)

/-- One iteration of the loop of `main` in `bpencfile.c`, after the `memcpy`
of the block to the front of the buffer `bp_bfr`: the bytes written. -/
def bpencfile_block (bp_bfr : List Nat) (bp_dsize : Nat) : Except Fault (List Nat) :=
  match BP_EncodeWith MAXPASSES bp_bfr bp_dsize with
  | .error e => .error e
  | .ok st => writeRecord st

/-- What one iteration of the loop of `main` in `bpdecfile.c` takes from the
file: the three header fields, the bytes of the first `memcpy` (to the front
of the block, as compressed data), the bytes of the second (to `block + dsize
- numSubs*3`, as substitution records) and the offset of `fileData` after
them. -/
structure ParsedRecord where
  dsize : Nat
  csize : Nat
  numSubs : Nat
  data : List Nat
  subs : List Nat
  next : Nat

/-- The reads of one iteration of the loop of `main` in `bpdecfile.c`, with
`fileData` at offset `pos` of the file `file`: `none` when it bails out with
"Ran past end of file". -/
def bpdecfile_record (file : List Nat) (pos : Nat) : Except Fault (Option ParsedRecord) :=
  match BP_DecodeFlexInt (file.drop pos) with
  | .error e => .error e
  | .ok (dsize, n1) =>
    if pos + n1 ≥ file.length then .ok none
    else
      match BP_DecodeFlexInt (file.drop (pos + n1)) with
      | .error e => .error e
      | .ok (csize, n2) =>
        match read file (pos + n1 + n2) with
        | .error e => .error e
        | .ok numSubs =>
          if pos + n1 + n2 + 1 ≥ file.length then .ok none
          else
            match readN file (pos + n1 + n2 + 1) csize with
            | .error e => .error e
            | .ok data =>
              match readN file (pos + n1 + n2 + 1 + csize) (numSubs * 3) with
              | .error e => .error e
              | .ok subs =>
                .ok (some ⟨dsize, csize, numSubs, data, subs,
                  pos + n1 + n2 + 1 + csize + numSubs * 3⟩)

/-! ## Lemmas -/

/-! ## The partitioner -/

theorem growBlock_ge (rest : List Nat) (tbl : Nat → Bool) (uc rs : Nat) :
    rs ≤ (growBlock rest tbl uc rs).2 := by
  induction rest generalizing tbl uc rs with
  | nil => simp [growBlock]
  | cons b rest ih =>
    simp only [growBlock]
    split
    · split
      · exact Nat.le_trans (Nat.le_succ rs) (ih _ _ _)
      · exact Nat.le_trans (Nat.le_succ rs) (ih _ _ _)
    · exact Nat.le_refl rs

theorem growBlock_le (rest : List Nat) (tbl : Nat → Bool) (uc rs : Nat) :
    (growBlock rest tbl uc rs).2 ≤ rs + rest.length := by
  induction rest generalizing tbl uc rs with
  | nil => simp [growBlock]
  | cons b rest ih =>
    simp only [growBlock, List.length_cons]
    split
    · split
      · have := ih (markUsed tbl b) (uc + 1) (rs + 1); omega
      · have := ih tbl uc (rs + 1); omega
    · omega

theorem growBlock_le_max (rest : List Nat) (tbl : Nat → Bool) (uc rs : Nat) (h : rs ≤ 65535) :
    (growBlock rest tbl uc rs).2 ≤ 65535 := by
  induction rest generalizing tbl uc rs with
  | nil => simpa [growBlock] using h
  | cons b rest ih =>
    simp only [growBlock]
    split
    · rename_i hc
      split
      · exact ih _ _ _ (by omega)
      · exact ih _ _ _ (by omega)
    · exact h

theorem growBlock_pos (b : Nat) (rest : List Nat) :
    1 ≤ (growBlock (b :: rest) (fun _ => false) 0 0).2 := by
  simp only [growBlock, NUMPASSES]
  simp only [Nat.lt_irrefl, Bool.not_false, if_true]
  rw [if_pos (by decide)]
  exact growBlock_ge _ _ _ _

/-- The table returned marks the bytes of the prefix taken, on top of those
marked before. -/
theorem growBlock_tbl (rest : List Nat) (tbl : Nat → Bool) (uc rs : Nat) (j : Nat) :
    (growBlock rest tbl uc rs).1 j = true ↔
      tbl j = true ∨ j ∈ rest.take ((growBlock rest tbl uc rs).2 - rs) := by
  induction rest generalizing tbl uc rs with
  | nil => simp [growBlock]
  | cons b rest ih =>
    simp only [growBlock]
    split
    · split
      · rename_i hb
        have hge := growBlock_ge rest (markUsed tbl b) (uc + 1) (rs + 1)
        rw [ih]
        have e : (growBlock rest (markUsed tbl b) (uc + 1) (rs + 1)).2 - rs
            = ((growBlock rest (markUsed tbl b) (uc + 1) (rs + 1)).2 - (rs + 1)) + 1 := by omega
        rw [e, List.take_succ_cons, List.mem_cons]
        simp only [markUsed]
        by_cases hj : j = b
        · simp [hj]
        · simp [hj]
      · rename_i hb
        have hge := growBlock_ge rest tbl uc (rs + 1)
        rw [ih]
        have e : (growBlock rest tbl uc (rs + 1)).2 - rs
            = ((growBlock rest tbl uc (rs + 1)).2 - (rs + 1)) + 1 := by omega
        rw [e, List.take_succ_cons, List.mem_cons]
        simp only [Bool.not_eq_true', Bool.not_eq_false] at hb
        by_cases hj : j = b
        · simp [hj, hb]
        · simp [hj]
    · simp

theorem countP_markUsed (tbl : Nat → Bool) (b : Nat) (l : List Nat) (hn : l.Nodup)
    (hb : tbl b = false) :
    l.countP (markUsed tbl b) = l.countP tbl + (if b ∈ l then 1 else 0) := by
  induction l with
  | nil => simp
  | cons a l ih =>
    rw [List.nodup_cons] at hn
    rw [List.countP_cons, List.countP_cons, ih hn.2]
    by_cases hab : a = b
    · subst hab
      simp [markUsed, hb, hn.1]
    · have hba : ¬ b = a := fun h => hab h.symm
      simp [markUsed, hab, hba, List.mem_cons]
      omega

theorem growBlock_count (rest : List Nat) (tbl : Nat → Bool) (uc rs : Nat)
    (hrest : IsBytes rest) (huc : (List.range 256).countP tbl = uc) (hle : uc ≤ 224) :
    (List.range 256).countP (growBlock rest tbl uc rs).1 ≤ 224 := by
  induction rest generalizing tbl uc rs with
  | nil => simpa [growBlock, huc] using hle
  | cons b rest ih =>
    have hb256 : b < 256 := hrest b (List.mem_cons_self _ _)
    have hrest' : IsBytes rest := fun x hx => hrest x (List.mem_cons_of_mem _ hx)
    simp only [growBlock, NUMPASSES]
    split
    · rename_i hc
      split
      · rename_i hb
        simp only [Bool.not_eq_true', ] at hb
        apply ih _ _ _ hrest'
        · rw [countP_markUsed tbl b _ (List.nodup_range 256) hb, huc]
          simp [List.mem_range, hb256]
        · omega
      · exact ih _ _ _ hrest' huc hle
    · simpa [huc] using hle

theorem collectUnused_length (tbl : Nat → Bool) :
    (collectUnused tbl).length + (List.range 256).countP tbl = 256 := by
  unfold collectUnused
  rw [← List.countP_eq_length_filter]
  have := List.length_eq_countP_add_countP tbl (List.range 256)
  simp only [List.length_range] at this
  have e : List.countP (fun j => !tbl j) (List.range 256)
      = List.countP (fun a => decide ¬tbl a = true) (List.range 256) := by
    congr 1; funext a; cases tbl a <;> simp
  omega

theorem collectUnused_sorted (tbl : Nat → Bool) : (collectUnused tbl).Sorted (· < ·) := by
  unfold collectUnused
  exact List.Sorted.filter _ (List.sorted_lt_range 256)

theorem mem_collectUnused (tbl : Nat → Bool) (j : Nat) :
    j ∈ collectUnused tbl ↔ j < 256 ∧ tbl j = false := by
  simp [collectUnused, List.mem_filter, List.mem_range]

/-- What the constructor returns on a non-empty input. -/
theorem mkBlock_cons (b : Nat) (rest : List Nat) :
    ∃ n tbl, 1 ≤ n ∧ n ≤ 65535 ∧ n ≤ (b :: rest).length ∧
      growBlock (b :: rest) (fun _ => false) 0 0 = (tbl, n) ∧
      mkBlock (b :: rest) =
        .ok (⟨(b :: rest).take n, collectUnused tbl, []⟩, (b :: rest).drop n) := by
  refine ⟨(growBlock (b :: rest) (fun _ => false) 0 0).2,
    (growBlock (b :: rest) (fun _ => false) 0 0).1, growBlock_pos b rest,
    growBlock_le_max _ _ _ _ (by omega), ?_, rfl, ?_⟩
  · simpa using growBlock_le (b :: rest) (fun _ => false) 0 0
  · have := growBlock_pos b rest
    simp only [mkBlock]
    rw [if_neg (by omega)]

theorem partitionLoop_ok (n : Nat) (input : List Nat) (h : input.length ≤ n) :
    ∃ blocks, partitionLoop n input = .ok blocks ∧
      (blocks.map (·.data)).flatten = input := by
  induction n generalizing input with
  | zero =>
    have : input = [] := List.length_eq_zero.mp (by omega)
    subst this
    exact ⟨[], by simp [partitionLoop], rfl⟩
  | succ n ih =>
    cases input with
    | nil => exact ⟨[], by simp [partitionLoop], rfl⟩
    | cons b rest =>
      obtain ⟨k, tbl, hk1, _, hk2, _, hmk⟩ := mkBlock_cons b rest
      have hlen : ((b :: rest).drop k).length ≤ n := by
        rw [List.length_drop]; simp only [List.length_cons] at h hk2 ⊢; omega
      obtain ⟨blks, hblks, hcat⟩ := ih _ hlen
      refine ⟨⟨(b :: rest).take k, collectUnused tbl, []⟩ :: blks, ?_, ?_⟩
      · simp only [partitionLoop, hmk, hblks]
      · simp only [List.map_cons, List.flatten_cons, hcat, List.take_append_drop]

theorem read_eq_ok {buf : List Nat} {i : Nat} (h : i < buf.length) :
    read buf i = .ok buf[i] := by
  simp [read, List.getElem?_eq_getElem h]

theorem take_succ_set (l : List Nat) (o v : Nat) (h : o < l.length) :
    (l.set o v).take (o + 1) = l.take o ++ [v] := by
  induction l generalizing o with
  | nil => simp at h
  | cons a l ih =>
    cases o with
    | zero => simp
    | succ o =>
      simp only [List.length_cons, Nat.add_lt_add_iff_right] at h
      simp [List.set_cons_succ, List.take_succ_cons, ih o h]

theorem rewriteLoop_spec (subs : List Nat) (sub first second size key : Nat)
    (hkey : read subs sub = .ok key) (n : Nat) (buf : List Nat) (i o : Nat)
    (hlen : buf.length = size) (hoi : o ≤ i) (his : i ≤ size) (hfuel : size - i ≤ n) :
    ∃ buf' o', rewriteLoop subs sub first second size n buf i o = .ok (buf', o') ∧
      buf'.take o' = buf.take o ++ greedyRewrite first second key (buf.drop i) := by
  induction n generalizing buf i o with
  | zero =>
    have e : i = size := by omega
    refine ⟨buf, o, by simp [rewriteLoop, e], ?_⟩
    rw [List.drop_of_length_le (by omega)]
    simp [greedyRewrite]
  | succ n ih =>
    by_cases e : i = size
    · refine ⟨buf, o, by simp [rewriteLoop, e], ?_⟩
      rw [List.drop_of_length_le (by omega)]
      simp [greedyRewrite]
    · have hi : i < buf.length := by omega
      have ho : o < buf.length := by omega
      -- one unmatched byte is copied
      have hcopy : ∃ buf' o',
          rewriteLoop subs sub first second size n (buf.set o buf[i]) (i + 1) (o + 1)
            = .ok (buf', o') ∧
          buf'.take o' = buf.take o ++ buf[i] :: greedyRewrite first second key
            (buf.drop (i + 1)) := by
        obtain ⟨buf', o', h1, h2⟩ := ih (buf.set o buf[i]) (i + 1) (o + 1)
          (by simp [hlen]) (by omega) (by omega) (by omega)
        refine ⟨buf', o', h1, ?_⟩
        rw [h2, take_succ_set _ _ _ ho, List.drop_set_of_lt _ _ (by omega)]
        simp
      rw [rewriteLoop, if_neg e, read_eq_ok hi]
      simp only
      by_cases e1 : i + 1 = size
      · rw [if_neg (by simp [e1])]
        obtain ⟨buf', o', h1, h2⟩ := hcopy
        refine ⟨buf', o', h1, ?_⟩
        rw [h2, List.drop_eq_getElem_cons hi, List.drop_of_length_le (by omega)]
        simp [greedyRewrite]
      · have hi1 : i + 1 < buf.length := by omega
        have hdrop : buf.drop i = buf[i] :: buf[i + 1] :: buf.drop (i + 2) := by
          rw [List.drop_eq_getElem_cons hi, List.drop_eq_getElem_cons hi1]
        by_cases hx : buf[i] = first
        · rw [if_pos ⟨e1, hx⟩, read_eq_ok hi1]
          simp only
          by_cases hy : buf[i + 1] = second
          · rw [if_pos hy, hkey]
            simp only
            obtain ⟨buf', o', h1, h2⟩ := ih (buf.set o key) (i + 2) (o + 1)
              (by simp [hlen]) (by omega) (by omega) (by omega)
            refine ⟨buf', o', h1, ?_⟩
            rw [h2, take_succ_set _ _ _ ho, List.drop_set_of_lt _ _ (by omega), hdrop]
            simp [greedyRewrite, hx, hy]
          · rw [if_neg hy]
            obtain ⟨buf', o', h1, h2⟩ := hcopy
            refine ⟨buf', o', h1, ?_⟩
            rw [h2, hdrop, List.drop_eq_getElem_cons hi1]
            simp [greedyRewrite, hy]
        · rw [if_neg (by simp [hx])]
          obtain ⟨buf', o', h1, h2⟩ := hcopy
          refine ⟨buf', o', h1, ?_⟩
          rw [h2, hdrop, List.drop_eq_getElem_cons hi1]
          simp [greedyRewrite, hx]

/-- The method `DoSubs` on a block with a non-empty `unused`: the in-place
loop computes the greedy rewrite with the key `subs[sub]`. -/
theorem DoSubs_of_getLast (blk : Block) (sub first second back key : Nat)
    (hback : blk.unused.getLast? = some back)
    (hkey : (blk.subs ++ [back])[sub]? = some key) :
    DoSubs blk sub first second =
      .ok ⟨greedyRewrite first second key blk.data, blk.unused.dropLast, blk.subs ++ [back]⟩ := by
  have hk : read (blk.subs ++ [back]) sub = .ok key := by simp [read, hkey]
  obtain ⟨buf', o', h1, h2⟩ := rewriteLoop_spec (blk.subs ++ [back]) sub first second
    blk.data.length key hk blk.data.length blk.data 0 0 rfl (Nat.le_refl 0) (Nat.zero_le _)
    (by omega)
  simp only [DoSubs, hback, h1]
  simp at h2
  rw [h2]

theorem DoSubs_of_nil (blk : Block) (sub first second : Nat) (h : blk.unused = []) :
    DoSubs blk sub first second = .ok blk := by
  simp [DoSubs, h]

/-! ## The pair scanner -/

theorem shiftLeft_or_eq (a b : Nat) (h : b < 256) : a <<< 8 ||| b = a * 256 + b := by
  rw [Nat.shiftLeft_eq, Nat.mul_comm, ← Nat.mul_add_lt_is_or (i := 8) (by simpa using h)]

theorem countLoop_ok (data : List Nat) (n j : Nat) (t : Nat → Nat)
    (h : n = 0 ∨ j + n + 1 ≤ data.length) (hj : j + n < 2 ^ 31) :
    countLoop data n j t = .ok (fun idx => t idx +
      (List.range' j n).countP (fun p => decide (pairIdxAt data p = idx))) := by
  induction n generalizing j t with
  | zero => simp [countLoop]
  | succ n ih =>
    have hlen : j + n + 2 ≤ data.length := by omega
    have h0 : j < data.length := by omega
    have h1 : j + 1 < data.length := by omega
    rw [countLoop, read_eq_ok h0, read_eq_ok h1]
    simp only
    rw [if_pos (by omega), ih (j + 1) _ (Or.inr (by omega)) (by omega)]
    congr 1
    funext idx
    rw [List.range'_succ, List.countP_cons]
    have e : pairIdxAt data j = (data[j] <<< 8) ||| data[j + 1] := by
      simp [pairIdxAt, List.getD_eq_getElem?_getD, List.getElem?_eq_getElem h0,
        List.getElem?_eq_getElem h1]
    simp only [bump, e, decide_eq_true_eq]
    by_cases hidx : idx = data[j] <<< 8 ||| data[j + 1]
    · simp [hidx]; omega
    · have hidx' : ¬ (data[j] <<< 8 ||| data[j + 1] = idx) := fun h => hidx h.symm
      simp [hidx, hidx']

theorem loopBound_eq (size : Nat) (h1 : 1 ≤ size) : loopBound size = size - 1 := by
  unfold loopBound
  rw [if_neg (by omega)]

theorem countLoop_data (data : List Nat) (t : Nat → Nat)
    (h1 : 1 ≤ data.length) (h2 : data.length ≤ 2 ^ 31) :
    countLoop data (loopBound data.length) 0 t =
      .ok (fun idx => t idx + pairCountAt data idx) := by
  rw [loopBound_eq _ h1, countLoop_ok data _ 0 t (Or.inr (by omega)) (by omega)]
  simp [pairCountAt, List.range_eq_range']

/-- The selection loop returns the least index of a maximal counter. -/
theorem selectLoop_spec (c : Nat → Nat) (n : Nat) :
    (selectLoop c n).2 = c (selectLoop c n).1 ∧ (selectLoop c n).1 ≤ n ∧
    (∀ j, j ≤ n → c j ≤ c (selectLoop c n).1) ∧
    (∀ j, j < (selectLoop c n).1 → c j < c (selectLoop c n).1) := by
  induction n with
  | zero => simp [selectLoop]
  | succ n ih =>
    have e : selectLoop c (n + 1) =
        if c (1 + n) > (selectLoop c n).2 then (1 + n, c (1 + n)) else selectLoop c n := by
      simp only [selectLoop, List.range'_concat, List.foldl_append, List.foldl_cons,
        List.foldl_nil, Nat.one_mul]
    rw [e]
    generalize selectLoop c n = r at ih ⊢
    obtain ⟨h1, h2, h3, h4⟩ := ih
    by_cases hc : c (1 + n) > r.2
    · rw [if_pos hc]
      refine ⟨rfl, by simp; omega, ?_, ?_⟩
      · intro j hj
        simp only
        rcases Nat.lt_or_ge j (n + 1) with hlt | hge
        · have := h3 j (by omega); omega
        · have : j = 1 + n := by omega
          subst this; exact Nat.le_refl _
      · intro j hj
        simp only at hj ⊢
        have := h3 j (by omega); omega
    · rw [if_neg hc]
      refine ⟨h1, by omega, ?_, h4⟩
      intro j hj
      rcases Nat.lt_or_ge j (n + 1) with hlt | hge
      · exact h3 j (by omega)
      · have : j = 1 + n := by omega
        subst this; omega

theorem selectBest_spec (c : Nat → Nat) :
    (selectBest c).1 ≤ 65535 ∧ (∀ j, j ≤ 65535 → c j ≤ c (selectBest c).1) ∧
      (∀ j, j < (selectBest c).1 → c j < c (selectBest c).1) := by
  have h := selectLoop_spec c 65535
  unfold selectBest
  exact ⟨h.2.1, h.2.2.1, h.2.2.2⟩

theorem pairOfIdx_eq (idx : Nat) (h : idx ≤ 65535) : pairOfIdx idx = (idx / 256, idx % 256) := by
  unfold pairOfIdx
  have e1 : idx >>> 8 = idx / 256 := by rw [Nat.shiftRight_eq_div_pow]
  have e2 : idx &&& 0xFF = idx % 256 := Nat.and_pow_two_sub_one_eq_mod idx 8
  rw [e1, e2, Nat.mod_eq_of_lt (by omega)]

theorem pairCountAt_eq (s : List Nat) (hs : IsBytes s) (a b : Nat) (ha : a < 256)
    (hb : b < 256) :
    pairCountAt s (a <<< 8 ||| b) = pairOccurrences a b s := by
  unfold pairCountAt pairOccurrences
  rw [← List.countP_eq_length_filter]
  apply List.countP_congr
  intro p hp
  rw [List.mem_range] at hp
  have h0 : p < s.length := by omega
  have h1 : p + 1 < s.length := by omega
  have hx : s[p] < 256 := hs _ (List.getElem_mem h0)
  have hy : s[p + 1] < 256 := hs _ (List.getElem_mem h1)
  have e : pairIdxAt s p = s[p] * 256 + s[p + 1] := by
    simp [pairIdxAt, List.getD_eq_getElem?_getD, List.getElem?_eq_getElem h0,
      List.getElem?_eq_getElem h1, shiftLeft_or_eq _ _ hy]
  simp only [e, shiftLeft_or_eq _ _ hb, List.getElem?_eq_getElem h0,
    List.getElem?_eq_getElem h1, Option.some.injEq, decide_eq_true_eq]
  constructor
  · intro h; constructor <;> omega
  · rintro ⟨rfl, rfl⟩; rfl

/-- The single-block scanner on block data: it returns, and the pair is the
one whose table index is least among those of maximal count. -/
theorem GetBestPair_ok (s : List Nat) (h1 : 1 ≤ s.length) (h2 : s.length ≤ 65535) :
    GetBestPair s = .ok (pairOfIdx (selectBest (fun idx => 0 + pairCountAt s idx)).1) := by
  unfold GetBestPair
  rw [countLoop_data s _ h1 (by omega)]

theorem GetBestPair_spec (s : List Nat) (hs : IsBytes s) (h1 : 1 ≤ s.length)
    (h2 : s.length ≤ 65535) :
    ∃ a b, GetBestPair s = .ok (a, b) ∧ a < 256 ∧ b < 256 ∧
      (∀ a' b', a' < 256 → b' < 256 → pairOccurrences a' b' s ≤ pairOccurrences a b s) ∧
      (∀ a' b', a' < 256 → b' < 256 → pairOccurrences a' b' s = pairOccurrences a b s →
        (a <<< 8 ||| b) ≤ (a' <<< 8 ||| b')) := by
  obtain ⟨hi, hmax, hmin⟩ := selectBest_spec (fun idx => 0 + pairCountAt s idx)
  obtain ⟨i, hi_eq⟩ : ∃ i, (selectBest (fun idx => 0 + pairCountAt s idx)).1 = i := ⟨_, rfl⟩
  rw [hi_eq] at hi hmax hmin
  have hb : i % 256 < 256 := Nat.mod_lt _ (by omega)
  have ha : i / 256 < 256 := by omega
  have hidx : (i / 256) <<< 8 ||| (i % 256) = i := by
    rw [shiftLeft_or_eq _ _ hb]; omega
  refine ⟨i / 256, i % 256, ?_, ha, hb, ?_, ?_⟩
  · rw [GetBestPair_ok s h1 h2, hi_eq, pairOfIdx_eq i hi]
  · intro a' b' ha' hb'
    have := hmax (a' <<< 8 ||| b') (by rw [shiftLeft_or_eq _ _ hb']; omega)
    simp only [Nat.zero_add] at this
    rwa [pairCountAt_eq s hs _ _ ha' hb', ← hidx, pairCountAt_eq s hs _ _ ha hb] at this
  · intro a' b' ha' hb' heq
    rw [hidx]
    by_contra hlt
    have := hmin (a' <<< 8 ||| b') (by omega)
    simp only [Nat.zero_add] at this
    rw [pairCountAt_eq s hs _ _ ha' hb'] at this
    conv at this => rhs; rw [← hidx, pairCountAt_eq s hs _ _ ha hb]
    omega

/-! ## Expansion, as the specification words it -/

/-! ## Facts about the rewrite -/

theorem expandKey_nil (key first second : Nat) : expandKey key first second [] = [] := rfl

theorem expandKey_cons (key first second b : Nat) (buf : List Nat) :
    expandKey key first second (b :: buf) =
      (if b = key then [first, second] else [b]) ++ expandKey key first second buf := by
  simp [expandKey]

theorem expandKey_of_not_mem (key first second : Nat) (buf : List Nat) (h : key ∉ buf) :
    expandKey key first second buf = buf := by
  induction buf with
  | nil => rfl
  | cons b buf ih =>
    rw [List.mem_cons, not_or] at h
    rw [expandKey_cons, ih h.2, if_neg (fun e => h.1 e.symm)]
    rfl

/-- One pass is undone by one expansion when the key is fresh. -/
theorem expandKey_greedyRewrite (first second key : Nat) (data : List Nat)
    (h : key ∉ data) :
    expandKey key first second (greedyRewrite first second key data) = data := by
  induction data using greedyRewrite.induct first second key with
  | case1 => rfl
  | case2 a =>
    simp only [List.mem_singleton] at h
    have h' : ¬ a = key := fun e => h e.symm
    simp [greedyRewrite, expandKey, h']
  | case3 a b rest hab ih =>
    simp only [List.mem_cons, not_or] at h
    rw [greedyRewrite, if_pos hab, expandKey_cons, if_pos rfl, ih h.2.2, hab.1, hab.2]
    rfl
  | case4 a b rest hab ih =>
    have ha : ¬ a = key := fun e => h (by simp [e])
    have h' : key ∉ b :: rest := fun hm => h (List.mem_cons_of_mem _ hm)
    rw [greedyRewrite, if_neg hab, expandKey_cons, if_neg ha, ih h']
    rfl

theorem greedyRewrite_length_le (first second key : Nat) (data : List Nat) :
    (greedyRewrite first second key data).length ≤ data.length := by
  induction data using greedyRewrite.induct first second key with
  | case1 => simp [greedyRewrite]
  | case2 a => simp [greedyRewrite]
  | case3 a b rest hab ih =>
    rw [greedyRewrite, if_pos hab]; simp only [List.length_cons]; omega
  | case4 a b rest hab ih =>
    rw [greedyRewrite, if_neg hab]; simp only [List.length_cons] at ih ⊢; omega

theorem greedyRewrite_length_ge (first second key : Nat) (data : List Nat) :
    (data.length + 1) / 2 ≤ (greedyRewrite first second key data).length := by
  induction data using greedyRewrite.induct first second key with
  | case1 => simp [greedyRewrite]
  | case2 a => simp [greedyRewrite]
  | case3 a b rest hab ih =>
    rw [greedyRewrite, if_pos hab]; simp only [List.length_cons]; omega
  | case4 a b rest hab ih =>
    rw [greedyRewrite, if_neg hab]; simp only [List.length_cons] at ih ⊢; omega

theorem greedyRewrite_ne_nil (first second key : Nat) (data : List Nat) (h : data ≠ []) :
    greedyRewrite first second key data ≠ [] := by
  have h1 := greedyRewrite_length_ge first second key data
  have h2 : 0 < data.length := List.length_pos.mpr h
  intro e
  rw [e] at h1
  simp only [List.length_nil] at h1
  omega

theorem mem_greedyRewrite (first second key : Nat) (data : List Nat) (x : Nat)
    (hx : x ∈ greedyRewrite first second key data) : x ∈ data ∨ x = key := by
  induction data using greedyRewrite.induct first second key with
  | case1 => simp [greedyRewrite] at hx
  | case2 a => left; simpa [greedyRewrite] using hx
  | case3 a b rest hab ih =>
    rw [greedyRewrite, if_pos hab, List.mem_cons] at hx
    rcases hx with rfl | hx
    · right; rfl
    · rcases ih hx with h | h
      · left; exact List.mem_cons_of_mem _ (List.mem_cons_of_mem _ h)
      · right; exact h
  | case4 a b rest hab ih =>
    rw [greedyRewrite, if_neg hab, List.mem_cons] at hx
    rcases hx with rfl | hx
    · left; exact List.mem_cons_self _ _
    · rcases ih hx with h | h
      · left; exact List.mem_cons_of_mem _ h
      · right; exact h

theorem expandAll_append (keys ks : List Nat) (pairs ps : List (Nat × Nat)) (k : Nat)
    (buf : List Nat) (h1 : k ≤ keys.length) (h2 : k ≤ pairs.length) :
    expandAll (keys ++ ks) (pairs ++ ps) k buf = expandAll keys pairs k buf := by
  induction k generalizing buf with
  | zero => rfl
  | succ k ih =>
    simp only [expandAll]
    rw [ih _ (by omega) (by omega)]
    simp only [List.getD_eq_getElem?_getD]
    rw [List.getElem?_append_left (by omega), List.getElem?_append_left (by omega)]

/-! ## Blocks as the constructor builds them -/

theorem BlockInit.nodup {blk : Block} (h : BlockInit blk) : blk.unused.Nodup := by
  rw [h.unused_eq]
  exact (List.nodup_range 256).filter _

theorem BlockInit.not_mem {blk : Block} (h : BlockInit blk) :
    ∀ x ∈ blk.unused, x ∉ blk.data := by
  intro x hx
  rw [h.unused_eq, List.mem_filter] at hx
  simpa using hx.2

theorem mkBlock_init (b : Nat) (rest : List Nat) (hb : IsBytes (b :: rest)) :
    ∃ blk rest', mkBlock (b :: rest) = .ok (blk, rest') ∧ BlockInit blk ∧
      blk.data ++ rest' = b :: rest := by
  obtain ⟨n, tbl, hn1, hn2, hn3, hg, hmk⟩ := mkBlock_cons b rest
  refine ⟨_, _, hmk, ?_, List.take_append_drop _ _⟩
  have htbl : ∀ j, tbl j = true ↔ j ∈ (b :: rest).take n := by
    intro j
    have := growBlock_tbl (b :: rest) (fun _ => false) 0 0 j
    rw [hg] at this
    simpa using this
  have hcount := growBlock_count (b :: rest) (fun _ => false) 0 0 hb (by simp) (by omega)
  rw [hg] at hcount
  simp only at hcount
  have hlen := collectUnused_length tbl
  refine ⟨rfl, ?_, ?_, ?_, ?_⟩
  · simp only [List.length_take]; omega
  · simp only [List.length_take]; omega
  · simp only [collectUnused]
    apply List.filter_congr
    intro j _
    by_cases hj : tbl j = true
    · have := (htbl j).mp hj
      simp [hj, this]
    · have hm : j ∉ (b :: rest).take n := fun hm => hj ((htbl j).mpr hm)
      simp only [Bool.not_eq_true] at hj
      simp [hj, hm]
  · simp only [NUMPASSES]
    show 32 ≤ (collectUnused tbl).length
    omega

theorem partitionLoop_mem (n : Nat) (input : List Nat) (hb : IsBytes input)
    (blocks : List Block) (h : partitionLoop n input = .ok blocks) :
    ∀ blk ∈ blocks, BlockInit blk := by
  induction n generalizing input blocks with
  | zero =>
    cases input with
    | nil =>
      simp only [partitionLoop, Except.ok.injEq] at h
      subst h; simp
    | cons b rest => simp [partitionLoop] at h
  | succ n ih =>
    cases input with
    | nil =>
      simp only [partitionLoop, Except.ok.injEq] at h
      subst h; simp
    | cons b rest =>
      obtain ⟨blk, rest', hmk, hinit, hcat⟩ := mkBlock_init b rest hb
      have hb' : IsBytes rest' := by
        intro x hx
        apply hb x
        rw [← hcat]
        exact List.mem_append_right _ hx
      simp only [partitionLoop, hmk] at h
      cases hp : partitionLoop n rest' with
      | error e => simp [hp] at h
      | ok blks =>
        simp only [hp, Except.ok.injEq] at h
        subst h
        intro x hx
        rw [List.mem_cons] at hx
        rcases hx with rfl | hx
        · exact hinit
        · exact ih rest' hb' blks hp x hx

theorem partition_mem (input : List Nat) (hb : IsBytes input) (blocks : List Block)
    (h : partition input = .ok blocks) : ∀ blk ∈ blocks, BlockInit blk :=
  partitionLoop_mem _ input hb blocks h

theorem partition_ok (input : List Nat) :
    ∃ blocks, partition input = .ok blocks ∧ (blocks.map (·.data)).flatten = input :=
  partitionLoop_ok _ input (Nat.le_refl _)

theorem partition_ne_nil (input : List Nat) (hne : input ≠ []) (blocks : List Block)
    (h : partition input = .ok blocks) : blocks ≠ [] := by
  obtain ⟨blocks', h1, h2⟩ := partition_ok input
  rw [h] at h1
  cases h1
  intro e
  rw [e] at h2
  exact hne h2.symm

/-! ## The pass invariant -/

theorem passInv_init {blk : Block} (h : BlockInit blk) : PassInv blk 0 blk [] where
  unused_eq := by simp [h.subs_nil]
  subs_len := by simp [h.subs_nil]
  pairs_len := rfl
  data_mem := fun x hx => Or.inl hx
  data_pos := h.data_pos
  data_le := Nat.le_refl _
  decode := rfl

/-- One call of `DoSubs` in pass `k` on a block in the state after `k`
passes. -/
theorem DoSubs_step {blk0 blk : Block} {k : Nat} {pairs : List (Nat × Nat)}
    (h0 : BlockInit blk0) (hinv : PassInv blk0 k blk pairs) (hk : k < blk0.unused.length)
    (first second : Nat) :
    ∃ key, blk.unused.getLast? = some key ∧ key ∉ blk.data ∧
      DoSubs blk k first second =
        .ok ⟨greedyRewrite first second key blk.data, blk.unused.dropLast, blk.subs ++ [key]⟩ ∧
      PassInv blk0 (k + 1)
        ⟨greedyRewrite first second key blk.data, blk.unused.dropLast, blk.subs ++ [key]⟩
        (pairs ++ [(first, second)]) := by
  have hlen : blk.unused.length + k = blk0.unused.length := by
    have := congrArg List.length hinv.unused_eq
    simpa [hinv.subs_len] using this
  have hne : blk.unused ≠ [] := by
    intro e; rw [e] at hlen; simp at hlen; omega
  obtain ⟨key, hkey⟩ : ∃ key, blk.unused.getLast? = some key := by
    cases hq : blk.unused.getLast? with
    | none => exact absurd (List.getLast?_eq_none_iff.mp hq) hne
    | some key => exact ⟨key, rfl⟩
  obtain ⟨u, hu⟩ := List.getLast?_eq_some_iff.mp hkey
  have hdrop : blk.unused.dropLast = u := by rw [hu, List.dropLast_concat]
  have hnd : (u ++ [key] ++ blk.subs.reverse).Nodup := by
    rw [← hu, hinv.unused_eq]; exact h0.nodup
  have hkey0 : key ∈ blk0.unused := by
    rw [← hinv.unused_eq, hu]; simp
  have hfresh : key ∉ blk.data := by
    intro hm
    rcases hinv.data_mem key hm with h | h
    · exact h0.not_mem key hkey0 h
    · rw [List.nodup_append] at hnd
      exact hnd.2.2 (by simp) (List.mem_reverse.mpr h) 
  have hget : (blk.subs ++ [key])[k]? = some key := by
    rw [← hinv.subs_len]; simp
  refine ⟨key, hkey, hfresh, DoSubs_of_getLast blk k first second key key hkey hget, ?_⟩
  refine ⟨?_, ?_, ?_, ?_, ?_, ?_, ?_⟩
  · simp only [hdrop, List.reverse_append, List.reverse_cons, List.reverse_nil, List.nil_append,
      List.singleton_append]
    rw [← hinv.unused_eq, hu]; simp
  · simp [hinv.subs_len]
  · simp [hinv.pairs_len]
  · intro x hx
    rcases mem_greedyRewrite _ _ _ _ _ hx with h | h
    · rcases hinv.data_mem x h with h' | h'
      · exact Or.inl h'
      · exact Or.inr (List.mem_append_left _ h')
    · right; simp [h]
  · have := greedyRewrite_length_ge first second key blk.data
    have := hinv.data_pos
    show 1 ≤ (greedyRewrite first second key blk.data).length
    omega
  · exact Nat.le_trans (greedyRewrite_length_le _ _ _ _) hinv.data_le
  · show expandAll (blk.subs ++ [key]) (pairs ++ [(first, second)]) (k + 1)
      (greedyRewrite first second key blk.data) = blk0.data
    simp only [expandAll]
    have e1 : (blk.subs ++ [key]).getD k 0 = key := by
      simp [List.getD_eq_getElem?_getD, hget]
    have e2 : (pairs ++ [(first, second)]).getD k (0, 0) = (first, second) := by
      rw [← hinv.pairs_len]; simp [List.getD_eq_getElem?_getD]
    rw [e1, e2, expandKey_greedyRewrite _ _ _ _ hfresh,
      expandAll_append _ _ _ _ _ _ (by rw [hinv.subs_len]) (by rw [hinv.pairs_len])]
    exact hinv.decode

/-! ## The container format, as the specification words it -/

/-! ## The pass loops -/

theorem doSubsCalls_ok {blk0 : Block} (h0 : BlockInit blk0) (args : List (Nat × Nat))
    (k : Nat) (blk : Block) (pairs : List (Nat × Nat)) (hinv : PassInv blk0 k blk pairs)
    (hk : k + args.length ≤ blk0.unused.length) :
    ∃ blk', doSubsCalls args k blk = .ok blk' ∧
      PassInv blk0 (k + args.length) blk' (pairs ++ args) := by
  induction args generalizing k blk pairs with
  | nil => exact ⟨blk, rfl, by simpa using hinv⟩
  | cons p ps ih =>
    simp only [List.length_cons] at hk
    obtain ⟨key, _, _, hdo, hinv'⟩ := DoSubs_step h0 hinv (by omega) p.1 p.2
    obtain ⟨blk', h1, h2⟩ := ih (k + 1) _ _ hinv' (by omega)
    refine ⟨blk', ?_, ?_⟩
    · simp only [doSubsCalls, hdo, h1]
    · have e : k + (p :: ps).length = k + 1 + ps.length := by simp; omega
      rw [e]
      simpa using h2

theorem passLoop1_ok {blk0 : Block} (h0 : BlockInit blk0) (n k : Nat) (blk : Block)
    (pairs : List (Nat × Nat)) (hinv : PassInv blk0 k blk pairs)
    (hk : k + n ≤ blk0.unused.length) :
    ∃ blk' pairs', passLoop1 n k blk pairs = .ok (blk', pairs') ∧
      PassInv blk0 (k + n) blk' pairs' := by
  induction n generalizing k blk pairs with
  | zero => exact ⟨blk, pairs, rfl, hinv⟩
  | succ n ih =>
    have hgb := GetBestPair_ok blk.data hinv.data_pos (Nat.le_trans hinv.data_le h0.data_le)
    obtain ⟨p, hp⟩ : ∃ p, GetBestPair blk.data = .ok p := ⟨_, hgb⟩
    obtain ⟨key, _, _, hdo, hinv'⟩ := DoSubs_step h0 hinv (by omega) p.1 p.2
    obtain ⟨blk', pairs', h1, h2⟩ := ih (k + 1) _ _ hinv' (by omega)
    refine ⟨blk', pairs', ?_, ?_⟩
    · simp only [passLoop1, hp, hdo, h1]
    · have e : k + (n + 1) = k + 1 + n := by omega
      rw [e]; exact h2

theorem size_hi (len : Nat) (h : len ≤ 65535) : (len >>> 8) &&& 0xFF = len / 256 := by
  have e2 : (len >>> 8) &&& 0xFF = (len >>> 8) % 256 :=
    Nat.and_pow_two_sub_one_eq_mod (len >>> 8) 8
  rw [e2, Nat.shiftRight_eq_div_pow]
  exact Nat.mod_eq_of_lt (by omega)

theorem size_lo (len : Nat) : len &&& 0xFF = len % 256 :=
  Nat.and_pow_two_sub_one_eq_mod len 8

theorem writePairTable_eq (pairs : List (Nat × Nat)) (h : pairs.length = NUMPASSES) :
    writePairTable pairs = (Record.table pairs).bytes := by
  have e : NUMPASSES % 256 = pairs.length := by rw [h]; rfl
  simp only [writePairTable, Record.bytes, e]
  rw [← h, List.take_length]

theorem writeBlock_eq (blk : Block) (h : blk.subs.length = NUMPASSES)
    (hle : blk.data.length ≤ 65535) :
    writeBlock blk = .ok (Record.block blk.subs blk.data).bytes := by
  simp only [writeBlock, Record.bytes, h, ne_eq, not_true_eq_false, if_false]
  rw [size_hi _ hle, size_lo, ← h, List.take_length, List.take_length]

/-- The bytes `BP_Encode1` writes for one block built by the constructor. -/
theorem encodeBlock1_ok {blk0 : Block} (h0 : BlockInit blk0) :
    ∃ blk' pairs, passLoop1 NUMPASSES 0 blk0 [] = .ok (blk', pairs) ∧
      PassInv blk0 NUMPASSES blk' pairs ∧
      encodeBlock1 blk0 =
        .ok (streamOf [Record.table pairs, Record.block blk'.subs blk'.data]) := by
  obtain ⟨blk', pairs, h1, h2⟩ := passLoop1_ok h0 NUMPASSES 0 blk0 [] (passInv_init h0)
    (by simpa using h0.unused_len)
  rw [Nat.zero_add] at h2
  refine ⟨blk', pairs, h1, h2, ?_⟩
  simp only [encodeBlock1, h1, writeBlock_eq blk' h2.subs_len
    (Nat.le_trans h2.data_le h0.data_le), writePairTable_eq pairs h2.pairs_len, streamOf,
    List.flatMap_cons, List.flatMap_nil, List.append_nil]

theorem BP_Encode1_ok (blocks : List Block) (h : ∀ blk ∈ blocks, BlockInit blk) :
    ∃ recs, BP_Encode1 blocks = .ok (streamOf recs) ∧
      (∀ n, WellFormed n recs) ∧
      (∀ tbl, decodeRecords tbl recs = (blocks.map (·.data)).flatten) ∧
      (blocks ≠ [] → ∃ pairs recs', recs = Record.table pairs :: recs' ∧ pairs.length < 256) := by
  induction blocks with
  | nil => exact ⟨[], rfl, fun _ => trivial, fun _ => rfl, fun h => absurd rfl h⟩
  | cons blk0 blks ih =>
    obtain ⟨recs, hrecs, hwf, hdec, _⟩ := ih (fun b hb => h b (List.mem_cons_of_mem _ hb))
    have h0 := h blk0 (List.mem_cons_self _ _)
    obtain ⟨blk', pairs, _, hinv, henc⟩ := encodeBlock1_ok h0
    have hp : pairs.length < 256 := by rw [hinv.pairs_len]; decide
    refine ⟨Record.table pairs :: Record.block blk'.subs blk'.data :: recs, ?_, ?_, ?_, ?_⟩
    · simp only [BP_Encode1, henc, hrecs, streamOf, List.flatMap_cons, List.flatMap_nil,
        List.append_nil, List.append_assoc]
    · intro n
      refine ⟨hp, ?_, hinv.data_pos, Nat.le_trans hinv.data_le h0.data_le, hwf _⟩
      rw [hinv.subs_len, hinv.pairs_len]
    · intro tbl
      simp only [decodeRecords, hdec, List.map_cons, List.flatten_cons]
      rw [hinv.pairs_len, hinv.decode]
    · intro _
      exact ⟨pairs, _, rfl, hp⟩

/-! ## The decoder -/

theorem read_append (pre xs : List Nat) (i v : Nat) (h : xs[i]? = some v) :
    read (pre ++ xs) (pre.length + i) = .ok v := by
  unfold read
  rw [List.getElem?_append_right (by omega)]
  simp [h]

theorem readN_append (pre a rest : List Nat) :
    readN (pre ++ (a ++ rest)) pre.length a.length = .ok a := by
  unfold readN
  rw [if_pos (by simp)]
  simp

theorem expandPass_ok (data : List Nat) (subs pairs sub key p0 p1 : Nat)
    (hk : read data (subs + sub) = .ok key) (h0 : read data (pairs + sub * 2) = .ok p0)
    (h1 : read data (pairs + (sub * 2 + 1)) = .ok p1) (src dst : List Nat) :
    expandPass data subs pairs sub src dst = .ok (dst ++ expandKey key p0 p1 src) := by
  induction src generalizing dst with
  | nil => simp [expandPass, expandKey_nil]
  | cons b src ih =>
    simp only [expandPass, hk, h0, h1]
    by_cases hb : b = key
    · rw [if_pos hb, ih, expandKey_cons, if_pos hb, List.append_assoc]
    · rw [if_neg hb, ih, expandKey_cons, if_neg hb, List.append_assoc]

theorem expandLoop_ok (data : List Nat) (subs pairs : Nat) (keys : List Nat)
    (tbl : List (Nat × Nat)) (n : Nat)
    (hkeys : ∀ i, i < n → read data (subs + i) = .ok (keys.getD i 0))
    (hpairs : ∀ i, i < n → read data (pairs + i * 2) = .ok (tbl.getD i (0, 0)).1 ∧
      read data (pairs + (i * 2 + 1)) = .ok (tbl.getD i (0, 0)).2)
    (src : List Nat) :
    expandLoop data subs pairs n src = .ok (expandAll keys tbl n src) := by
  induction n generalizing src with
  | zero => rfl
  | succ n ih =>
    simp only [expandLoop, expandAll]
    rw [expandPass_ok data subs pairs n _ _ _ (hkeys n (by omega)) (hpairs n (by omega)).1
      (hpairs n (by omega)).2]
    simp only [List.nil_append]
    exact ih (fun i hi => hkeys i (by omega)) (fun i hi => hpairs i (by omega)) _

theorem flatMap_pairs_length (ps : List (Nat × Nat)) :
    (ps.flatMap (fun p => [p.1, p.2])).length = 2 * ps.length := by
  induction ps with
  | nil => rfl
  | cons p ps ih => simp only [List.flatMap_cons, List.length_append, ih, List.length_cons,
      List.length_nil]; omega

theorem flatMap_pairs_get (ps : List (Nat × Nat)) (rest : List Nat) (i : Nat)
    (hi : i < ps.length) :
    (ps.flatMap (fun p => [p.1, p.2]) ++ rest)[i * 2]? = some (ps.getD i (0, 0)).1 ∧
    (ps.flatMap (fun p => [p.1, p.2]) ++ rest)[i * 2 + 1]? = some (ps.getD i (0, 0)).2 := by
  induction ps generalizing i with
  | nil => simp at hi
  | cons p ps ih =>
    cases i with
    | zero => simp
    | succ i =>
      simp only [List.length_cons, Nat.add_lt_add_iff_right] at hi
      have := ih i hi
      have e1 : (i + 1) * 2 = i * 2 + 1 + 1 := by omega
      have e2 : (i + 1) * 2 + 1 = i * 2 + 1 + 1 + 1 := by omega
      simp only [List.flatMap_cons, List.cons_append, List.nil_append, e1, e2,
        List.getElem?_cons_succ, List.getD_cons_succ]
      exact this

theorem Record.bytes_length_pos (r : Record) : 1 ≤ r.bytes.length := by
  cases r <;> simp [Record.bytes]

theorem streamOf_length (recs : List Record) : recs.length ≤ (streamOf recs).length := by
  induction recs with
  | nil => simp [streamOf]
  | cons r recs ih =>
    have := Record.bytes_length_pos r
    simp only [streamOf, List.flatMap_cons, List.length_append, List.length_cons] at ih ⊢
    omega

theorem streamOf_cons (r : Record) (recs : List Record) :
    streamOf (r :: recs) = r.bytes ++ streamOf recs := by
  simp [streamOf]

theorem decodeLoop_done (data : List Nat) (n pos : Nat) (cur : Option (Nat × Nat))
    (out : List Nat) (h : data.length ≤ pos) : decodeLoop data n pos cur out = .ok out := by
  cases n with
  | zero => simp only [decodeLoop]; rw [if_neg (by omega)]
  | succ n => simp only [decodeLoop]; rw [if_neg (by omega)]

theorem decodeLoop_records (data : List Nat) (recs : List Record) (pre : List Nat)
    (n : Nat) (cur : Option (Nat × Nat)) (tbl : List (Nat × Nat)) (out : List Nat)
    (hdata : data = pre ++ streamOf recs) (hfuel : recs.length ≤ n)
    (htbl : (∃ ps rs, recs = Record.table ps :: rs) ∨
      (∃ off, cur = some (tbl.length, off) ∧ TableAt data off tbl))
    (hwf : WellFormed tbl.length recs) :
    decodeLoop data n pre.length cur out = .ok (out ++ decodeRecords tbl recs) := by
  induction recs generalizing pre n cur tbl out with
  | nil =>
    rw [decodeLoop_done data n pre.length cur out (by simp [hdata, streamOf])]
    simp [decodeRecords]
  | cons r recs ih =>
    cases n with
    | zero => simp at hfuel
    | succ n =>
      simp only [List.length_cons, Nat.add_le_add_iff_right] at hfuel
      rw [streamOf_cons] at hdata
      have hpos : 1 ≤ r.bytes.length := Record.bytes_length_pos r
      have hlt : pre.length < data.length := by
        rw [hdata]; simp only [List.length_append]; omega
      cases r with
      | table ps =>
        simp only [Record.bytes] at hdata
        have r0 : read data pre.length = .ok 0 := by
          rw [hdata]; exact read_append pre _ 0 0 (by simp)
        have r1 : read data (pre.length + 1) = .ok 0 := by
          rw [hdata]; exact read_append pre _ 1 0 (by simp)
        have r2 : read data (pre.length + 2) = .ok ps.length := by
          rw [hdata]; exact read_append pre _ 2 ps.length (by simp)
        have hz : (0 <<< 8 ||| 0) = 0 := by decide
        simp only [decodeLoop, if_pos hlt, r0, r1, hz, if_true, r2]
        have hpre : (pre ++ ([0, 0, ps.length] ++ ps.flatMap (fun p => [p.1, p.2]))).length
            = pre.length + 2 + 1 + 2 * ps.length := by
          simp only [List.length_append, List.length_cons, List.length_nil,
            flatMap_pairs_length]; omega
        have htab : TableAt data (pre.length + 2 + 1) ps := by
          intro i hi
          have hd : data = (pre ++ [0, 0, ps.length]) ++
              (ps.flatMap (fun p => [p.1, p.2]) ++ streamOf recs) := by
            rw [hdata]; simp
          have hl : (pre ++ [0, 0, ps.length]).length = pre.length + 2 + 1 := by simp
          have hg := flatMap_pairs_get ps (streamOf recs) i hi
          constructor
          · rw [hd, ← hl]; exact read_append _ _ _ _ hg.1
          · rw [hd, ← hl]; exact read_append _ _ _ _ hg.2
        rw [← hpre]
        have := ih (pre ++ ([0, 0, ps.length] ++ ps.flatMap (fun p => [p.1, p.2]))) n
          (some (ps.length, pre.length + 2 + 1)) ps out (by rw [hdata]; simp) hfuel
          (Or.inr ⟨_, rfl, htab⟩) hwf.2
        rw [this]
        simp [decodeRecords]
      | block keys dat =>
        obtain ⟨off, hcur, htab⟩ : ∃ off, cur = some (tbl.length, off) ∧ TableAt data off tbl := by
          rcases htbl with ⟨ps, rs, h⟩ | h
          · cases h
          · exact h
        obtain ⟨hk, hd1, hd2, hwf'⟩ := hwf
        simp only [Record.bytes] at hdata
        have hd : data = pre ++ (dat.length / 256 :: dat.length % 256 ::
            (keys ++ (dat ++ streamOf recs))) := by
          rw [hdata]; simp
        have r0 : read data pre.length = .ok (dat.length / 256) := by
          rw [hd]; exact read_append pre _ 0 _ (by simp)
        have r1 : read data (pre.length + 1) = .ok (dat.length % 256) := by
          rw [hd]; exact read_append pre _ 1 _ (by simp)
        have hsz : ((dat.length / 256) <<< 8 ||| (dat.length % 256)) = dat.length := by
          rw [shiftLeft_or_eq _ _ (Nat.mod_lt _ (by omega))]; omega
        have hnz : ¬ dat.length = 0 := by omega
        have hkeys : ∀ i, i < tbl.length →
            read data (pre.length + 2 + i) = .ok (keys.getD i 0) := by
          intro i hi
          have hd' : data = (pre ++ [dat.length / 256, dat.length % 256]) ++
              (keys ++ (dat ++ streamOf recs)) := by rw [hd]; simp
          have hl : (pre ++ [dat.length / 256, dat.length % 256]).length = pre.length + 2 := by
            simp
          rw [hd', ← hl]
          apply read_append
          rw [List.getElem?_append_left (by omega), List.getD_eq_getElem?_getD,
            List.getElem?_eq_getElem (by omega)]
          rfl
        have hrd : readN data (pre.length + 2 + tbl.length) dat.length = .ok dat := by
          have hd' : data = (pre ++ [dat.length / 256, dat.length % 256] ++ keys) ++
              (dat ++ streamOf recs) := by rw [hd]; simp
          have hl : (pre ++ [dat.length / 256, dat.length % 256] ++ keys).length
              = pre.length + 2 + tbl.length := by simp [hk]; omega
          rw [hd', ← hl]
          exact readN_append _ _ _
        have hex := expandLoop_ok data (pre.length + 2) off keys tbl tbl.length hkeys htab dat
        simp only [decodeLoop, if_pos hlt, r0, r1, hsz, if_neg hnz, hcur, hrd, hex]
        have hpre : (pre ++ ([dat.length / 256, dat.length % 256] ++ keys ++ dat)).length
            = pre.length + 2 + tbl.length + dat.length := by
          simp only [List.length_append, List.length_cons, List.length_nil, hk]; omega
        rw [← hpre, ← hcur]
        have := ih (pre ++ ([dat.length / 256, dat.length % 256] ++ keys ++ dat)) n
          cur tbl (out ++ expandAll keys tbl tbl.length dat) (by rw [hdata]; simp) hfuel
          (Or.inr ⟨off, hcur, htab⟩) hwf'
        rw [this]
        simp [decodeRecords]

/-- The decoder on a well-formed stream that starts with a pair table. -/
theorem BP_Decode_records (pairs : List (Nat × Nat)) (recs : List Record)
    (hN : pairs.length < 256) (hwf : WellFormed pairs.length recs) :
    BP_Decode (streamOf (Record.table pairs :: recs)) = .ok (decodeRecords pairs recs) := by
  have h0 : read (streamOf (Record.table pairs :: recs)) 0 = .ok 0 := by
    simp [streamOf, Record.bytes, read]
  have h1 : read (streamOf (Record.table pairs :: recs)) 1 = .ok 0 := by
    simp [streamOf, Record.bytes, read]
  have := decodeLoop_records (streamOf (Record.table pairs :: recs))
    (Record.table pairs :: recs) [] (streamOf (Record.table pairs :: recs)).length none pairs []
    (by simp) (streamOf_length _) (Or.inl ⟨_, _, rfl⟩) ⟨hN, hwf⟩
  simp only [BP_Decode, h0, h1]
  simpa [decodeRecords] using this

/-! ## Shared-table mode -/

theorem countBlocks_ok (blocks : List Block) (t : Nat → Nat)
    (h : ∀ blk ∈ blocks, 1 ≤ blk.data.length ∧ blk.data.length ≤ 65535) :
    ∃ t', countBlocks blocks t = .ok t' := by
  induction blocks generalizing t with
  | nil => exact ⟨t, rfl⟩
  | cons blk blks ih =>
    have hb := h blk (List.mem_cons_self _ _)
    have ht := fun t => ih t (fun b hb => h b (List.mem_cons_of_mem _ hb))
    simp only [countBlocks]
    split
    · rw [countLoop_data blk.data t hb.1 (by omega)]
      exact ht _
    · exact ht _

theorem GetBestPairAll_ok (blocks : List Block)
    (h : ∀ blk ∈ blocks, 1 ≤ blk.data.length ∧ blk.data.length ≤ 65535) :
    ∃ p, GetBestPairAll blocks = .ok p := by
  obtain ⟨t, ht⟩ := countBlocks_ok blocks (fun _ => 0) h
  exact ⟨_, by unfold GetBestPairAll; rw [ht]⟩

theorem allInv_init (blocks : List Block) (h : ∀ blk ∈ blocks, BlockInit blk) :
    AllInv blocks 0 blocks [] := by
  induction blocks with
  | nil => exact List.Forall₂.nil
  | cons blk blks ih =>
    exact List.Forall₂.cons ⟨h blk (List.mem_cons_self _ _),
      passInv_init (h blk (List.mem_cons_self _ _))⟩
      (ih (fun b hb => h b (List.mem_cons_of_mem _ hb)))

theorem AllInv.sizes {blocks0 blocks : List Block} {k : Nat} {pairs : List (Nat × Nat)}
    (h : AllInv blocks0 k blocks pairs) :
    ∀ blk ∈ blocks, 1 ≤ blk.data.length ∧ blk.data.length ≤ 65535 := by
  induction h with
  | nil => simp
  | cons hr _ ih =>
    intro blk hblk
    rw [List.mem_cons] at hblk
    rcases hblk with rfl | hblk
    · exact ⟨hr.2.data_pos, Nat.le_trans hr.2.data_le hr.1.data_le⟩
    · exact ih blk hblk

theorem doSubsAll_ok {blocks0 blocks : List Block} {k : Nat} {pairs : List (Nat × Nat)}
    (h : AllInv blocks0 k blocks pairs) (hk : k < NUMPASSES) (first second : Nat) :
    ∃ blocks', doSubsAll k first second blocks = .ok blocks' ∧
      AllInv blocks0 (k + 1) blocks' (pairs ++ [(first, second)]) := by
  induction h with
  | nil => exact ⟨[], rfl, List.Forall₂.nil⟩
  | cons hr _ ih =>
    obtain ⟨blocks', h1, h2⟩ := ih
    obtain ⟨key, _, _, hdo, hinv'⟩ := DoSubs_step hr.1 hr.2
      (Nat.lt_of_lt_of_le hk hr.1.unused_len) first second
    exact ⟨_ :: blocks', by simp only [doSubsAll, hdo, h1], List.Forall₂.cons ⟨hr.1, hinv'⟩ h2⟩

theorem passLoop2_ok {blocks0 : List Block} (n k : Nat) (blocks : List Block)
    (pairs : List (Nat × Nat)) (h : AllInv blocks0 k blocks pairs) (hk : k + n ≤ NUMPASSES)
    (hlen : pairs.length = k) :
    ∃ blocks' pairs', passLoop2 n k blocks pairs = .ok (blocks', pairs') ∧
      AllInv blocks0 (k + n) blocks' pairs' ∧ pairs'.length = k + n := by
  induction n generalizing k blocks pairs with
  | zero => exact ⟨blocks, pairs, rfl, h, hlen⟩
  | succ n ih =>
    obtain ⟨p, hp⟩ := GetBestPairAll_ok blocks h.sizes
    obtain ⟨blocks1, hdo, hinv1⟩ := doSubsAll_ok h (by omega) p.1 p.2
    obtain ⟨blocks', pairs', h1, h2, h3⟩ := ih (k + 1) blocks1 _ hinv1 (by omega)
      (by simp [hlen])
    have e : k + (n + 1) = k + 1 + n := by omega
    refine ⟨blocks', pairs', ?_, ?_, ?_⟩
    · simp only [passLoop2, hp, hdo, h1]
    · rw [e]; exact h2
    · rw [e]; exact h3

theorem writeBlocks_ok {blocks0 blocks : List Block} {pairs : List (Nat × Nat)}
    (h : AllInv blocks0 NUMPASSES blocks pairs) (hlen : pairs.length = NUMPASSES) :
    writeBlocks blocks = .ok (streamOf (blocks.map (fun b => Record.block b.subs b.data))) ∧
      WellFormed pairs.length (blocks.map (fun b => Record.block b.subs b.data)) ∧
      decodeRecords pairs (blocks.map (fun b => Record.block b.subs b.data))
        = (blocks0.map (·.data)).flatten := by
  induction h with
  | nil => exact ⟨rfl, trivial, rfl⟩
  | @cons blk0 blk blks0 blks hr _ ih =>
    obtain ⟨h1, h2, h3⟩ := ih
    have hle : blk.data.length ≤ 65535 := Nat.le_trans hr.2.data_le hr.1.data_le
    refine ⟨?_, ?_, ?_⟩
    · simp only [writeBlocks, writeBlock_eq blk hr.2.subs_len hle, h1, List.map_cons,
        streamOf_cons]
    · exact ⟨by rw [hr.2.subs_len, hlen], hr.2.data_pos, hle, h2⟩
    · simp only [List.map_cons, decodeRecords, List.flatten_cons, h3]
      rw [hlen, hr.2.decode]

theorem BP_Encode2_ok (blocks : List Block) (h : ∀ blk ∈ blocks, BlockInit blk) :
    ∃ pairs recs, BP_Encode2 blocks = .ok (streamOf (Record.table pairs :: recs)) ∧
      pairs.length = NUMPASSES ∧ WellFormed pairs.length recs ∧
      decodeRecords pairs recs = (blocks.map (·.data)).flatten := by
  obtain ⟨blocks', pairs, h1, h2, h3⟩ := passLoop2_ok NUMPASSES 0 blocks []
    (allInv_init blocks h) (by omega) rfl
  rw [Nat.zero_add] at h2 h3
  obtain ⟨hw, hwf, hdec⟩ := writeBlocks_ok h2 h3
  refine ⟨pairs, _, ?_, h3, hwf, hdec⟩
  simp only [BP_Encode2, h1, hw, writePairTable_eq pairs h3, streamOf_cons]

/-! ## Round trips -/

theorem decode_encode1 (X : List Nat) (hX : IsBytes X) (hne : X ≠ []) :
    ∃ blocks stream, partition X = .ok blocks ∧ BP_Encode1 blocks = .ok stream ∧
      BP_Decode stream = .ok X := by
  obtain ⟨blocks, hp, hcat⟩ := partition_ok X
  have hinit := partition_mem X hX blocks hp
  obtain ⟨recs, henc, hwf, hdec, hhd⟩ := BP_Encode1_ok blocks hinit
  obtain ⟨pairs, recs', rfl, hN⟩ := hhd (partition_ne_nil X hne blocks hp)
  refine ⟨blocks, _, hp, henc, ?_⟩
  rw [BP_Decode_records pairs recs' hN (hwf 0).2]
  have := hdec []
  simp only [decodeRecords] at this
  rw [this, hcat]

theorem decode_encode2 (X : List Nat) (hX : IsBytes X) :
    ∃ blocks stream, partition X = .ok blocks ∧ BP_Encode2 blocks = .ok stream ∧
      BP_Decode stream = .ok X := by
  obtain ⟨blocks, hp, hcat⟩ := partition_ok X
  have hinit := partition_mem X hX blocks hp
  obtain ⟨pairs, recs, henc, hlen, hwf, hdec⟩ := BP_Encode2_ok blocks hinit
  refine ⟨blocks, _, hp, henc, ?_⟩
  rw [BP_Decode_records pairs recs (by rw [hlen]; decide) hwf, hdec, hcat]

/-! ## The iteration budgets are never used up -/

theorem read_error (buf : List Nat) (i : Nat) (e : Fault) (h : read buf i = .error e) :
    e = .undefined := by
  unfold read at h
  split at h
  · cases h
  · cases h; rfl

theorem readN_error (data : List Nat) (pos n : Nat) (e : Fault)
    (h : readN data pos n = .error e) : e = .undefined := by
  unfold readN at h
  split at h
  · cases h
  · cases h; rfl

theorem expandPass_error (data : List Nat) (subs pairs sub : Nat) (src dst : List Nat)
    (e : Fault) (h : expandPass data subs pairs sub src dst = .error e) : e = .undefined := by
  induction src generalizing dst with
  | nil => simp [expandPass] at h
  | cons b src ih =>
    unfold expandPass at h
    split at h
    · cases h; exact read_error _ _ _ (by assumption)
    · split at h
      · split at h
        · cases h; exact read_error _ _ _ (by assumption)
        · split at h
          · cases h; exact read_error _ _ _ (by assumption)
          · exact ih _ h
      · exact ih _ h

theorem expandLoop_error (data : List Nat) (subs pairs n : Nat) (srcbuf : List Nat)
    (e : Fault) (h : expandLoop data subs pairs n srcbuf = .error e) : e = .undefined := by
  induction n generalizing srcbuf with
  | zero => simp [expandLoop] at h
  | succ n ih =>
    unfold expandLoop at h
    split at h
    · cases h; exact expandPass_error _ _ _ _ _ _ _ (by assumption)
    · exact ih _ h

/-- The budget `data.length` that `BP_Decode` passes to its loop is enough:
every iteration moves the pointer by two bytes or more. -/
theorem decodeLoop_ne_fuel (data : List Nat) (n pos : Nat) (cur : Option (Nat × Nat))
    (out : List Nat) (hn : data.length ≤ pos + 2 * n) :
    decodeLoop data n pos cur out ≠ .error .fuel := by
  induction n generalizing pos cur out with
  | zero =>
    simp only [decodeLoop]
    rw [if_neg (by omega)]
    exact fun h => by cases h
  | succ n ih =>
    unfold decodeLoop
    split
    · split
      · intro h; cases h
        have := read_error _ _ _ (by assumption); cases this
      · split
        · intro h; cases h
          have := read_error _ _ _ (by assumption); cases this
        · simp only
          split
          · split
            · intro h; cases h
              have := read_error _ _ _ (by assumption); cases this
            · exact ih _ _ _ (by omega)
          · split
            · exact fun h => by cases h
            · split
              · intro h; cases h
                have := readN_error _ _ _ _ (by assumption); cases this
              · split
                · intro h; cases h
                  have := expandLoop_error _ _ _ _ _ _ (by assumption); cases this
                · exact ih _ _ _ (by omega)
    · exact fun h => by cases h

theorem BP_Decode_ne_fuel (data : List Nat) : BP_Decode data ≠ .error .fuel := by
  unfold BP_Decode
  split
  · intro h; cases h
    have := read_error _ _ _ (by assumption); cases this
  · split
    · exact fun h => by cases h
    · split
      · intro h; cases h
        have := read_error _ _ _ (by assumption); cases this
      · split
        · exact fun h => by cases h
        · exact decodeLoop_ne_fuel _ _ _ _ _ (by omega)

/-- The budget `data.size()` that `DoSubs` passes to its rewrite loop is
enough: every iteration moves `dataIn` by one byte or more. -/
theorem rewriteLoop_ne_fuel (subs : List Nat) (sub first second size n : Nat)
    (buf : List Nat) (i o : Nat) (his : i ≤ size) (hfuel : size - i ≤ n) :
    rewriteLoop subs sub first second size n buf i o ≠ .error .fuel := by
  induction n generalizing buf i o with
  | zero =>
    simp only [rewriteLoop]
    rw [if_pos (by omega)]
    exact fun h => by cases h
  | succ n ih =>
    unfold rewriteLoop
    split
    · exact fun h => by cases h
    · split
      · intro h; cases h
        have := read_error _ _ _ (by assumption); cases this
      · split
        · split
          · intro h; cases h
            have := read_error _ _ _ (by assumption); cases this
          · split
            · split
              · intro h; cases h
                have := read_error _ _ _ (by assumption); cases this
              · rename_i hc _ _ _ _ _ _
                exact ih _ _ _ (by omega) (by omega)
            · exact ih _ _ _ (by omega) (by omega)
        · exact ih _ _ _ (by omega) (by omega)

theorem PassInv.keys {blk0 blk : Block} {k : Nat} {pairs : List (Nat × Nat)}
    (h0 : BlockInit blk0) (hinv : PassInv blk0 k blk pairs) :
    ∀ key ∈ blk.subs, key ∈ blk0.unused ∧ key ∉ blk0.data := by
  intro key hkey
  have hm : key ∈ blk0.unused := by
    rw [← hinv.unused_eq]
    exact List.mem_append_right _ (List.mem_reverse.mpr hkey)
  exact ⟨hm, h0.not_mem key hm⟩

theorem PassInv.unused_nodup {blk0 blk : Block} {k : Nat} {pairs : List (Nat × Nat)}
    (h0 : BlockInit blk0) (hinv : PassInv blk0 k blk pairs) : blk.unused.Nodup := by
  have := h0.nodup
  rw [← hinv.unused_eq, List.nodup_append] at this
  exact this.1

theorem size_bytes (len : Nat) (h1 : 1 ≤ len) (h2 : len ≤ 65535) :
    len / 256 < 256 ∧ len % 256 < 256 ∧ len / 256 * 256 + len % 256 = len ∧
      ¬ (len / 256 = 0 ∧ len % 256 = 0) := by
  refine ⟨by omega, by omega, by omega, by omega⟩

/-! ## The claims -/

/-- C1. Round trip in per-block mode: for every non-empty byte sequence `X`,
the partition loop of `main` returns blocks, `BP_Encode1` returns a stream for
them, and `BP_Decode` on that stream returns exactly `X`. -/
theorem roundtrip_per_block (X : List Nat) (hX : IsBytes X) (hne : X ≠ []) :
    ∃ blocks stream, partition X = .ok blocks ∧ BP_Encode1 blocks = .ok stream ∧
      BP_Decode stream = .ok X :=
  decode_encode1 X hX hne

theorem roundtrip_per_block_witness :
    IsBytes [65, 66, 65, 66] ∧ [65, 66, 65, 66] ≠ [] ∧
      ∃ blocks stream, partition [65, 66, 65, 66] = .ok blocks ∧
        BP_Encode1 blocks = .ok stream ∧ BP_Decode stream = .ok [65, 66, 65, 66] :=
  ⟨by decide, by decide, roundtrip_per_block [65, 66, 65, 66] (by decide) (by decide)⟩

/-- C2. Round trip in shared-table mode: for every byte sequence `X` (the
non-empty ones in particular), the partition loop returns blocks, `BP_Encode2`
returns a stream for them (one pair table, each block with its own keys), and
`BP_Decode` on that stream returns exactly `X`. -/
theorem roundtrip_shared_table (X : List Nat) (hX : IsBytes X) :
    ∃ blocks stream, partition X = .ok blocks ∧ BP_Encode2 blocks = .ok stream ∧
      BP_Decode stream = .ok X :=
  decode_encode2 X hX

theorem roundtrip_shared_table_witness :
    IsBytes [65, 66, 65, 66] ∧
      ∃ blocks stream, partition [65, 66, 65, 66] = .ok blocks ∧
        BP_Encode2 blocks = .ok stream ∧ BP_Decode stream = .ok [65, 66, 65, 66] :=
  ⟨by decide, roundtrip_shared_table [65, 66, 65, 66] (by decide)⟩

/-- C3. For every input `X` the partition loop returns a list of blocks, and
the `data` of these blocks, concatenated in order, is `X`. -/
theorem partition_concat (X : List Nat) :
    ∃ blocks, partition X = .ok blocks ∧ (blocks.map (·.data)).flatten = X :=
  partition_ok X

/-- C4. For every non-empty remaining input of bytes the constructor returns a
block whose `unused` list is the ascending list of all byte values `0..255`
that do not occur in the block's `data`, with at least `NUMPASSES` elements. -/
theorem mkBlock_unused (input : List Nat) (hb : IsBytes input) (hne : input ≠ []) :
    ∃ blk rest, mkBlock input = .ok (blk, rest) ∧
      blk.unused = (List.range 256).filter (fun j => decide (j ∉ blk.data)) ∧
      blk.unused.Sorted (· < ·) ∧
      (∀ j, j ∈ blk.unused ↔ j < 256 ∧ j ∉ blk.data) ∧
      NUMPASSES ≤ blk.unused.length := by
  cases input with
  | nil => exact absurd rfl hne
  | cons b rest =>
    obtain ⟨blk, rest', hmk, hinit, _⟩ := mkBlock_init b rest hb
    refine ⟨blk, rest', hmk, hinit.unused_eq, ?_, ?_, hinit.unused_len⟩
    · rw [hinit.unused_eq]
      exact List.Sorted.filter _ (List.sorted_lt_range 256)
    · intro j
      rw [hinit.unused_eq, List.mem_filter, List.mem_range]
      simp

theorem mkBlock_unused_witness :
    IsBytes [7, 7, 9] ∧ [7, 7, 9] ≠ [] ∧
      ∃ blk rest, mkBlock [7, 7, 9] = .ok (blk, rest) ∧
        blk.unused = (List.range 256).filter (fun j => decide (j ∉ blk.data)) ∧
        blk.unused.Sorted (· < ·) ∧
        (∀ j, j ∈ blk.unused ↔ j < 256 ∧ j ∉ blk.data) ∧
        NUMPASSES ≤ blk.unused.length :=
  ⟨by decide, by decide, mkBlock_unused [7, 7, 9] (by decide) (by decide)⟩

/-- C5. Key disjointness: for every input of bytes and every block of its
partition, the 32 passes of `BP_Encode1` return, the block then has 32 keys in
`subs` (the keys `writeBlock` writes), and every one of them is a member of the
block's `unused` list at construction and does not occur in the block's
original data.  The same holds for every block after the 32 passes of
`BP_Encode2`. -/
theorem keys_disjoint (X : List Nat) (hX : IsBytes X) :
    ∃ blocks, partition X = .ok blocks ∧
      (∀ blk ∈ blocks, ∃ blk' pairs, passLoop1 NUMPASSES 0 blk [] = .ok (blk', pairs) ∧
        blk'.subs.length = NUMPASSES ∧
        ∀ key ∈ blk'.subs, key ∈ blk.unused ∧ key ∉ blk.data) ∧
      (∃ blocks' pairs, passLoop2 NUMPASSES 0 blocks [] = .ok (blocks', pairs) ∧
        List.Forall₂ (fun blk blk' => blk'.subs.length = NUMPASSES ∧
          ∀ key ∈ blk'.subs, key ∈ blk.unused ∧ key ∉ blk.data) blocks blocks') := by
  obtain ⟨blocks, hp, _⟩ := partition_ok X
  have hinit := partition_mem X hX blocks hp
  refine ⟨blocks, hp, ?_, ?_⟩
  · intro blk hblk
    obtain ⟨blk', pairs, h1, hinv, _⟩ := encodeBlock1_ok (hinit blk hblk)
    exact ⟨blk', pairs, h1, hinv.subs_len, PassInv.keys (hinit blk hblk) hinv⟩
  · obtain ⟨blocks', pairs, h1, h2, _⟩ := passLoop2_ok NUMPASSES 0 blocks []
      (allInv_init blocks hinit) (by omega) rfl
    rw [Nat.zero_add] at h2
    exact ⟨blocks', pairs, h1, List.Forall₂.imp
      (fun _ _ h => ⟨h.2.subs_len, PassInv.keys h.1 h.2⟩) h2⟩

theorem keys_disjoint_witness :
    IsBytes [65, 66, 65, 66] ∧
    ∃ blocks, partition [65, 66, 65, 66] = .ok blocks ∧
      (∀ blk ∈ blocks, ∃ blk' pairs, passLoop1 NUMPASSES 0 blk [] = .ok (blk', pairs) ∧
        blk'.subs.length = NUMPASSES ∧
        ∀ key ∈ blk'.subs, key ∈ blk.unused ∧ key ∉ blk.data) ∧
      (∃ blocks' pairs, passLoop2 NUMPASSES 0 blocks [] = .ok (blocks', pairs) ∧
        List.Forall₂ (fun blk blk' => blk'.subs.length = NUMPASSES ∧
          ∀ key ∈ blk'.subs, key ∈ blk.unused ∧ key ∉ blk.data) blocks blocks') :=
  ⟨by decide, keys_disjoint [65, 66, 65, 66] (by decide)⟩

/-- C6. Block-size bound: for every input of bytes and every block of its
partition, the length of the block at construction is in `[1, 65535]`; the 32
passes return, the compressed data length is in `[1, 65535]`, and the two
bytes `writeBlock` writes first are the big-endian bytes of that length, so
they are not both zero. -/
theorem block_size_bound (X : List Nat) (hX : IsBytes X) :
    ∃ blocks, partition X = .ok blocks ∧
      ∀ blk ∈ blocks, 1 ≤ blk.data.length ∧ blk.data.length ≤ 65535 ∧
        ∃ blk' pairs, passLoop1 NUMPASSES 0 blk [] = .ok (blk', pairs) ∧
          1 ≤ blk'.data.length ∧ blk'.data.length ≤ 65535 ∧
          ∃ hi lo tail, writeBlock blk' = .ok (hi :: lo :: tail) ∧ hi < 256 ∧ lo < 256 ∧
            hi * 256 + lo = blk'.data.length ∧ ¬ (hi = 0 ∧ lo = 0) := by
  obtain ⟨blocks, hp, _⟩ := partition_ok X
  have hinit := partition_mem X hX blocks hp
  refine ⟨blocks, hp, ?_⟩
  intro blk hblk
  have h0 := hinit blk hblk
  obtain ⟨blk', pairs, h1, hinv, _⟩ := encodeBlock1_ok h0
  have hle : blk'.data.length ≤ 65535 := Nat.le_trans hinv.data_le h0.data_le
  obtain ⟨s1, s2, s3, s4⟩ := size_bytes blk'.data.length hinv.data_pos hle
  refine ⟨h0.data_pos, h0.data_le, blk', pairs, h1, hinv.data_pos, hle,
    blk'.data.length / 256, blk'.data.length % 256, blk'.subs ++ blk'.data, ?_, s1, s2, s3, s4⟩
  rw [writeBlock_eq blk' hinv.subs_len hle]
  simp [Record.bytes]

theorem block_size_bound_witness :
    IsBytes [65, 66, 65, 66] ∧
    ∃ blocks, partition [65, 66, 65, 66] = .ok blocks ∧
      ∀ blk ∈ blocks, 1 ≤ blk.data.length ∧ blk.data.length ≤ 65535 ∧
        ∃ blk' pairs, passLoop1 NUMPASSES 0 blk [] = .ok (blk', pairs) ∧
          1 ≤ blk'.data.length ∧ blk'.data.length ≤ 65535 ∧
          ∃ hi lo tail, writeBlock blk' = .ok (hi :: lo :: tail) ∧ hi < 256 ∧ lo < 256 ∧
            hi * 256 + lo = blk'.data.length ∧ ¬ (hi = 0 ∧ lo = 0) :=
  ⟨by decide, block_size_bound [65, 66, 65, 66] (by decide)⟩

/-- C7. For every input of bytes the encoder `main` returns a stream (so its
exit "Block had %d substitutions, %d expected" is not reached), and for every
block of the partition: after `k ≤ 32` calls of `DoSubs` (`sub = 0, .., k-1`,
any pair arguments) `subs` has exactly `k` elements; the next call, if
`k < 32`, appends the last element `key` of `unused` to `subs` (as `subs[k]`)
and removes it from `unused`; and after the 32 passes of `BP_Encode1` the block
has `NUMPASSES` elements in `subs`. -/
theorem subs_count (X : List Nat) (hX : IsBytes X) :
    (∃ out, encodeFile1 X = .ok out) ∧
    ∃ blocks, partition X = .ok blocks ∧
      ∀ blk ∈ blocks,
        (∀ args : List (Nat × Nat), args.length ≤ NUMPASSES →
          ∃ blk', doSubsCalls args 0 blk = .ok blk' ∧ blk'.subs.length = args.length ∧
            ∀ first second, args.length < NUMPASSES →
              ∃ key, blk'.unused = blk'.unused.dropLast ++ [key] ∧
                key ∉ blk'.unused.dropLast ∧
                DoSubs blk' args.length first second =
                  .ok ⟨greedyRewrite first second key blk'.data, blk'.unused.dropLast,
                    blk'.subs ++ [key]⟩) ∧
        (∃ blk' pairs, passLoop1 NUMPASSES 0 blk [] = .ok (blk', pairs) ∧
          blk'.subs.length = NUMPASSES) := by
  obtain ⟨blocks, hp, _⟩ := partition_ok X
  have hinit := partition_mem X hX blocks hp
  refine ⟨?_, blocks, hp, ?_⟩
  · obtain ⟨recs, henc, _⟩ := BP_Encode1_ok blocks hinit
    exact ⟨streamOf recs, by simp only [encodeFile1, hp, henc]⟩
  · intro blk hblk
    have h0 := hinit blk hblk
    refine ⟨?_, ?_⟩
    · intro args hargs
      obtain ⟨blk', h1, hinv⟩ := doSubsCalls_ok h0 args 0 blk [] (passInv_init h0)
        (by have := h0.unused_len; omega)
      rw [Nat.zero_add] at hinv
      refine ⟨blk', h1, hinv.subs_len, ?_⟩
      intro first second hlt
      obtain ⟨key, hkey, _, hdo, _⟩ := DoSubs_step h0 hinv
        (by have := h0.unused_len; omega) first second
      obtain ⟨u, hu⟩ := List.getLast?_eq_some_iff.mp hkey
      have hd : blk'.unused.dropLast = u := by rw [hu, List.dropLast_concat]
      have hnd := PassInv.unused_nodup h0 hinv
      refine ⟨key, by rw [hd]; exact hu, ?_, hdo⟩
      rw [hd]
      rw [hu, List.nodup_append] at hnd
      intro hm
      exact hnd.2.2 hm (by simp)
    · obtain ⟨blk', pairs, h1, hinv, _⟩ := encodeBlock1_ok h0
      exact ⟨blk', pairs, h1, hinv.subs_len⟩

theorem subs_count_witness :
    IsBytes [65, 66, 65, 66] ∧
    ((∃ out, encodeFile1 [65, 66, 65, 66] = .ok out) ∧
    ∃ blocks, partition [65, 66, 65, 66] = .ok blocks ∧
      ∀ blk ∈ blocks,
        (∀ args : List (Nat × Nat), args.length ≤ NUMPASSES →
          ∃ blk', doSubsCalls args 0 blk = .ok blk' ∧ blk'.subs.length = args.length ∧
            ∀ first second, args.length < NUMPASSES →
              ∃ key, blk'.unused = blk'.unused.dropLast ++ [key] ∧
                key ∉ blk'.unused.dropLast ∧
                DoSubs blk' args.length first second =
                  .ok ⟨greedyRewrite first second key blk'.data, blk'.unused.dropLast,
                    blk'.subs ++ [key]⟩) ∧
        (∃ blk' pairs, passLoop1 NUMPASSES 0 blk [] = .ok (blk', pairs) ∧
          blk'.subs.length = NUMPASSES)) :=
  ⟨by decide, subs_count [65, 66, 65, 66] (by decide)⟩

/-- C8. For every block data `s` of bytes with `2 ≤ |s|` (and at most 65,535
bytes, as every block has), `GetBestPair` returns a pair `(a, b)` of bytes
whose number of occurrences in `s` is maximal over all pairs of bytes, and
whose index `(a << 8) | b` is the lowest among the pairs with that count. -/
theorem GetBestPair_max (s : List Nat) (hs : IsBytes s) (h2 : 2 ≤ s.length)
    (h3 : s.length ≤ 65535) :
    ∃ a b, GetBestPair s = .ok (a, b) ∧ a < 256 ∧ b < 256 ∧
      (∀ a' b', a' < 256 → b' < 256 → pairOccurrences a' b' s ≤ pairOccurrences a b s) ∧
      (∀ a' b', a' < 256 → b' < 256 → pairOccurrences a' b' s = pairOccurrences a b s →
        (a <<< 8 ||| b) ≤ (a' <<< 8 ||| b')) :=
  GetBestPair_spec s hs (by omega) h3

theorem GetBestPair_max_witness :
    IsBytes [65, 66, 65, 66] ∧ 2 ≤ [65, 66, 65, 66].length ∧
    [65, 66, 65, 66].length ≤ 65535 ∧
    ∃ a b, GetBestPair [65, 66, 65, 66] = .ok (a, b) ∧ a < 256 ∧ b < 256 ∧
      (∀ a' b', a' < 256 → b' < 256 →
        pairOccurrences a' b' [65, 66, 65, 66] ≤ pairOccurrences a b [65, 66, 65, 66]) ∧
      (∀ a' b', a' < 256 → b' < 256 →
        pairOccurrences a' b' [65, 66, 65, 66] = pairOccurrences a b [65, 66, 65, 66] →
        (a <<< 8 ||| b) ≤ (a' <<< 8 ||| b')) :=
  ⟨by decide, by decide, by decide,
    GetBestPair_max [65, 66, 65, 66] (by decide) (by decide) (by decide)⟩

/-- C9. For every block whose `unused` is not empty (`back` its last element)
and every `sub`, `first`, `second`, with `key` the element `subs[sub]` after
the push of `back`: `DoSubs` returns, and the block's new `data` is the output
of the single left-to-right greedy pass over the old `data`; in particular the
data `[first]`, a lone byte, is left unchanged. -/
theorem DoSubs_greedy (blk : Block) (sub first second back key : Nat)
    (hback : blk.unused.getLast? = some back)
    (hkey : (blk.subs ++ [back])[sub]? = some key) :
    ∃ blk', DoSubs blk sub first second = .ok blk' ∧
      blk'.data = greedyRewrite first second key blk.data ∧
      blk'.unused = blk.unused.dropLast ∧ blk'.subs = blk.subs ++ [back] ∧
      (blk.data = [first] → blk'.data = [first]) := by
  refine ⟨_, DoSubs_of_getLast blk sub first second back key hback hkey, rfl, rfl, rfl, ?_⟩
  intro h
  simp only [h, greedyRewrite]

theorem DoSubs_greedy_witness :
    (Block.mk [65, 65, 65] [1, 2] []).unused.getLast? = some 2 ∧
    ((Block.mk [65, 65, 65] [1, 2] []).subs ++ [2])[0]? = some 2 ∧
    ∃ blk', DoSubs (Block.mk [65, 65, 65] [1, 2] []) 0 65 65 = .ok blk' ∧
      blk'.data = greedyRewrite 65 65 2 (Block.mk [65, 65, 65] [1, 2] []).data ∧
      blk'.unused = (Block.mk [65, 65, 65] [1, 2] []).unused.dropLast ∧
      blk'.subs = (Block.mk [65, 65, 65] [1, 2] []).subs ++ [2] ∧
      ((Block.mk [65, 65, 65] [1, 2] []).data = [65] → blk'.data = [65]) :=
  ⟨rfl, rfl, DoSubs_greedy (Block.mk [65, 65, 65] [1, 2] []) 0 65 65 2 2 rfl rfl⟩

/-- C10. For every stream made of a pair-table record with stored count `N`
and pairs `p[0..N)` followed by a block record with a size `S` in
`[1, 65535]`, keys `key[0..N)` and `S` data bytes, `BP_Decode` returns the
block's data expanded with `key[k] -> p[k]` for `k` from `N - 1` down to `0`,
for any `N` that fits the count byte.  More generally, on every well-formed
stream of records that starts with a pair table it returns the concatenation
of the blocks, each expanded with the most recently read pair table. -/
theorem BP_Decode_expand (pairs : List (Nat × Nat)) (keys dat : List Nat)
    (recs : List Record) (hN : pairs.length < 256) (hkeys : keys.length = pairs.length)
    (h1 : 1 ≤ dat.length) (h2 : dat.length ≤ 65535) (hwf : WellFormed pairs.length recs) :
    BP_Decode ([0, 0, pairs.length] ++ pairs.flatMap (fun p => [p.1, p.2]) ++
        ([dat.length / 256, dat.length % 256] ++ keys ++ dat))
      = .ok (expandAll keys pairs pairs.length dat) ∧
    BP_Decode (streamOf (Record.table pairs :: recs)) = .ok (decodeRecords pairs recs) := by
  refine ⟨?_, BP_Decode_records pairs recs hN hwf⟩
  have := BP_Decode_records pairs [Record.block keys dat] hN ⟨hkeys, h1, h2, trivial⟩
  simpa [streamOf, Record.bytes, decodeRecords] using this

theorem BP_Decode_expand_witness :
    [(7, 8), (5, 5)].length < 256 ∧ [5, 9].length = [(7, 8), (5, 5)].length ∧
    1 ≤ [9, 6, 9].length ∧ [9, 6, 9].length ≤ 65535 ∧
    WellFormed [(7, 8), (5, 5)].length [Record.block [5, 9] [9], Record.table [],
      Record.block [] [1, 2]] ∧
    (BP_Decode ([0, 0, [(7, 8), (5, 5)].length] ++
          [(7, 8), (5, 5)].flatMap (fun p => [p.1, p.2]) ++
        ([[9, 6, 9].length / 256, [9, 6, 9].length % 256] ++ [5, 9] ++ [9, 6, 9]))
      = .ok (expandAll [5, 9] [(7, 8), (5, 5)] [(7, 8), (5, 5)].length [9, 6, 9]) ∧
    BP_Decode (streamOf (Record.table [(7, 8), (5, 5)] :: [Record.block [5, 9] [9],
        Record.table [], Record.block [] [1, 2]]))
      = .ok (decodeRecords [(7, 8), (5, 5)] [Record.block [5, 9] [9], Record.table [],
        Record.block [] [1, 2]])) :=
  ⟨by decide, rfl, by decide, by decide,
    ⟨rfl, by decide, by decide, by decide, rfl, by decide, by decide, trivial⟩,
    BP_Decode_expand [(7, 8), (5, 5)] [5, 9] [9, 6, 9]
      [Record.block [5, 9] [9], Record.table [], Record.block [] [1, 2]]
      (by decide) rfl (by decide) (by decide)
      ⟨rfl, by decide, by decide, by decide, rfl, by decide, by decide, trivial⟩⟩

/-! ## The decoder with the output of a run that ends in a fault -/

theorem decodeLoop_eq_outcome (data : List Nat) (n pos : Nat) (tbl : Option (Nat × Nat))
    (out : List Nat) :
    decodeLoop data n pos tbl out = outcome (decodeLoopOut data n pos tbl out) := by
  induction n generalizing pos tbl out with
  | zero =>
    simp only [decodeLoop, decodeLoopOut]
    split <;> rfl
  | succ n ih =>
    simp only [decodeLoop, decodeLoopOut]
    by_cases hlt : pos < data.length
    · simp only [if_pos hlt]
      cases h0 : read data pos with
      | error e => rfl
      | ok hi =>
        cases h1 : read data (pos + 1) with
        | error e => rfl
        | ok lo =>
          simp only
          by_cases hz : (hi <<< 8 ||| lo) = 0
          · simp only [if_pos hz]
            cases h2 : read data (pos + 2) with
            | error e => rfl
            | ok numSubs => exact ih _ _ _
          · simp only [if_neg hz]
            cases tbl with
            | none => rfl
            | some t =>
              obtain ⟨numSubs, pairs⟩ := t
              simp only
              cases h3 : readN data (pos + 2 + numSubs) (hi <<< 8 ||| lo) with
              | error e => rfl
              | ok srcbuf =>
                simp only
                cases h4 : expandLoop data (pos + 2) pairs numSubs srcbuf with
                | error e => rfl
                | ok buf => exact ih _ _ _
    · simp only [if_neg hlt]
      rfl

theorem BP_Decode_eq_outcome (data : List Nat) : BP_Decode data = outcome (BP_DecodeOut data) := by
  simp only [BP_Decode, BP_DecodeOut]
  cases h0 : read data 0 with
  | error e => rfl
  | ok b0 =>
    simp only
    by_cases hb0 : b0 ≠ 0x00
    · simp only [if_pos hb0]; rfl
    · simp only [if_neg hb0]
      cases h1 : read data 1 with
      | error e => rfl
      | ok b1 =>
        simp only
        by_cases hb1 : b1 ≠ 0x00
        · simp only [if_pos hb1]; rfl
        · simp only [if_neg hb1]
          exact decodeLoop_eq_outcome _ _ _ _ _

/-- The decoder on well-formed records that are followed by arbitrary bytes
`post`: it writes the output of the records and goes on at the first byte of
`post`, with the latest pair table in force. -/
theorem decodeLoopOut_prefix (data : List Nat) (recs : List Record) (pre post : List Nat)
    (n : Nat) (cur : Option (Nat × Nat)) (tbl : List (Nat × Nat)) (out : List Nat)
    (hdata : data = pre ++ streamOf recs ++ post)
    (htbl : (∃ ps rs, recs = Record.table ps :: rs) ∨
      (∃ off, cur = some (tbl.length, off) ∧ TableAt data off tbl))
    (hwf : WellFormed tbl.length recs) :
    ∃ cur', decodeLoopOut data (n + recs.length) pre.length cur out =
        decodeLoopOut data n (pre ++ streamOf recs).length cur'
          (out ++ decodeRecords tbl recs) ∧
      ((recs = [] ∧ cur' = cur) ∨
        ∃ off, cur' = some ((lastTable tbl recs).length, off) ∧
          TableAt data off (lastTable tbl recs)) := by
  induction recs generalizing pre cur tbl out with
  | nil => exact ⟨cur, by simp [streamOf, decodeRecords], Or.inl ⟨rfl, rfl⟩⟩
  | cons r recs ih =>
    rw [streamOf_cons] at hdata
    have hpos : 1 ≤ r.bytes.length := Record.bytes_length_pos r
    have hlt : pre.length < data.length := by
      rw [hdata]; simp only [List.length_append]; omega
    have hfu : n + (r :: recs).length = (n + recs.length) + 1 := by
      simp only [List.length_cons]; omega
    rw [hfu]
    cases r with
    | table ps =>
      simp only [Record.bytes] at hdata
      have r0 : read data pre.length = .ok 0 := by
        rw [hdata, List.append_assoc, List.append_assoc]
        exact read_append pre _ 0 0 (by simp)
      have r1 : read data (pre.length + 1) = .ok 0 := by
        rw [hdata, List.append_assoc, List.append_assoc]
        exact read_append pre _ 1 0 (by simp)
      have r2 : read data (pre.length + 2) = .ok ps.length := by
        rw [hdata, List.append_assoc, List.append_assoc]
        exact read_append pre _ 2 ps.length (by simp)
      have hz : (0 <<< 8 ||| 0) = 0 := by decide
      simp only [decodeLoopOut, if_pos hlt, r0, r1, hz, if_true, r2]
      have hpre : (pre ++ ([0, 0, ps.length] ++ ps.flatMap (fun p => [p.1, p.2]))).length
          = pre.length + 2 + 1 + 2 * ps.length := by
        simp only [List.length_append, List.length_cons, List.length_nil,
          flatMap_pairs_length]; omega
      have htab : TableAt data (pre.length + 2 + 1) ps := by
        intro i hi
        have hd : data = (pre ++ [0, 0, ps.length]) ++
            (ps.flatMap (fun p => [p.1, p.2]) ++ (streamOf recs ++ post)) := by
          rw [hdata]; simp
        have hl : (pre ++ [0, 0, ps.length]).length = pre.length + 2 + 1 := by simp
        have hg := flatMap_pairs_get ps (streamOf recs ++ post) i hi
        constructor
        · rw [hd, ← hl]; exact read_append _ _ _ _ hg.1
        · rw [hd, ← hl]; exact read_append _ _ _ _ hg.2
      rw [← hpre]
      obtain ⟨cur', h1, h2⟩ := ih
        (pre ++ ([0, 0, ps.length] ++ ps.flatMap (fun p => [p.1, p.2])))
        (some (ps.length, pre.length + 2 + 1)) ps out (by rw [hdata]; simp)
        (Or.inr ⟨_, rfl, htab⟩) hwf.2
      refine ⟨cur', ?_, Or.inr ?_⟩
      · rw [h1]
        simp [decodeRecords, streamOf_cons, Record.bytes]
      · rcases h2 with ⟨hnil, hc⟩ | h2
        · subst hnil
          exact ⟨_, hc, htab⟩
        · exact h2
    | block keys dat =>
      obtain ⟨off, hcur, htab⟩ : ∃ off, cur = some (tbl.length, off) ∧ TableAt data off tbl := by
        rcases htbl with ⟨ps, rs, h⟩ | h
        · cases h
        · exact h
      obtain ⟨hk, hd1, hd2, hwf'⟩ := hwf
      simp only [Record.bytes] at hdata
      have hd : data = pre ++ (dat.length / 256 :: dat.length % 256 ::
          (keys ++ (dat ++ (streamOf recs ++ post)))) := by
        rw [hdata]; simp
      have r0 : read data pre.length = .ok (dat.length / 256) := by
        rw [hd]; exact read_append pre _ 0 _ (by simp)
      have r1 : read data (pre.length + 1) = .ok (dat.length % 256) := by
        rw [hd]; exact read_append pre _ 1 _ (by simp)
      have hsz : ((dat.length / 256) <<< 8 ||| (dat.length % 256)) = dat.length := by
        rw [shiftLeft_or_eq _ _ (Nat.mod_lt _ (by omega))]; omega
      have hnz : ¬ dat.length = 0 := by omega
      have hkeys : ∀ i, i < tbl.length →
          read data (pre.length + 2 + i) = .ok (keys.getD i 0) := by
        intro i hi
        have hd' : data = (pre ++ [dat.length / 256, dat.length % 256]) ++
            (keys ++ (dat ++ (streamOf recs ++ post))) := by rw [hd]; simp
        have hl : (pre ++ [dat.length / 256, dat.length % 256]).length = pre.length + 2 := by
          simp
        rw [hd', ← hl]
        apply read_append
        rw [List.getElem?_append_left (by omega), List.getD_eq_getElem?_getD,
          List.getElem?_eq_getElem (by omega)]
        rfl
      have hrd : readN data (pre.length + 2 + tbl.length) dat.length = .ok dat := by
        have hd' : data = (pre ++ [dat.length / 256, dat.length % 256] ++ keys) ++
            (dat ++ (streamOf recs ++ post)) := by rw [hd]; simp
        have hl : (pre ++ [dat.length / 256, dat.length % 256] ++ keys).length
            = pre.length + 2 + tbl.length := by simp [hk]; omega
        rw [hd', ← hl]
        exact readN_append _ _ _
      have hex := expandLoop_ok data (pre.length + 2) off keys tbl tbl.length hkeys htab dat
      simp only [decodeLoopOut, if_pos hlt, r0, r1, hsz, if_neg hnz, hcur, hrd, hex]
      have hpre : (pre ++ ([dat.length / 256, dat.length % 256] ++ keys ++ dat)).length
          = pre.length + 2 + tbl.length + dat.length := by
        simp only [List.length_append, List.length_cons, List.length_nil, hk]; omega
      rw [← hpre, ← hcur]
      obtain ⟨cur', h1, h2⟩ := ih (pre ++ ([dat.length / 256, dat.length % 256] ++ keys ++ dat))
        cur tbl (out ++ expandAll keys tbl tbl.length dat) (by rw [hdata]; simp)
        (Or.inr ⟨off, hcur, htab⟩) hwf'
      refine ⟨cur', ?_, Or.inr ?_⟩
      · rw [h1]
        simp [decodeRecords, streamOf_cons, Record.bytes]
      · rcases h2 with ⟨hnil, hc⟩ | h2
        · subst hnil
          exact ⟨off, by rw [hc, hcur]; rfl, htab⟩
        · exact h2

theorem readN_short (data : List Nat) (pos n : Nat) (h : data.length < pos + n) :
    readN data pos n = .error .undefined := by
  unfold readN
  rw [if_neg (by omega)]

/-- A block record whose keys and data run past the end of the input: the
decoder has written the output of the records before it and then reads
outside the input. -/
theorem BP_DecodeOut_truncated (pairs : List (Nat × Nat)) (recs : List Record)
    (hi lo : Nat) (rest : List Nat) (hN : pairs.length < 256)
    (hwf : WellFormed pairs.length recs) (hS : (hi <<< 8 ||| lo) ≠ 0)
    (hshort : rest.length < (lastTable pairs recs).length + (hi <<< 8 ||| lo)) :
    BP_DecodeOut (streamOf (Record.table pairs :: recs) ++ hi :: lo :: rest) =
      (decodeRecords pairs recs, some .undefined) := by
  obtain ⟨data, hdata⟩ : ∃ data, data = streamOf (Record.table pairs :: recs) ++ hi :: lo :: rest :=
    ⟨_, rfl⟩
  rw [← hdata]
  have h0 : read data 0 = .ok 0 := by
    rw [hdata]; simp [streamOf, Record.bytes, read]
  have h1 : read data 1 = .ok 0 := by
    rw [hdata]; simp [streamOf, Record.bytes, read]
  have hlen : data.length = (streamOf (Record.table pairs :: recs)).length + 2 + rest.length := by
    rw [hdata]; simp only [List.length_append, List.length_cons]; omega
  have hrl := streamOf_length (Record.table pairs :: recs)
  obtain ⟨m, hm⟩ : ∃ m, data.length = (m + 1) + (Record.table pairs :: recs).length :=
    ⟨data.length - (Record.table pairs :: recs).length - 1, by omega⟩
  obtain ⟨cur', hrun, hcur⟩ := decodeLoopOut_prefix data (Record.table pairs :: recs) []
    (hi :: lo :: rest) (m + 1) none pairs [] (by rw [hdata]; simp)
    (Or.inl ⟨_, _, rfl⟩) ⟨hN, hwf⟩
  have hcur' : ∃ off, cur' = some ((lastTable pairs recs).length, off) := by
    rcases hcur with ⟨hnil, _⟩ | ⟨off, hc, _⟩
    · cases hnil
    · exact ⟨off, hc⟩
  obtain ⟨off, hoff⟩ := hcur'
  simp only [List.length_nil, List.nil_append] at hrun
  have hd : decodeRecords pairs (Record.table pairs :: recs) = decodeRecords pairs recs := rfl
  rw [hd] at hrun
  simp only [BP_DecodeOut, h0, h1, ne_eq, not_true_eq_false, if_false, hm, hrun]
  have hlt : (streamOf (Record.table pairs :: recs)).length < data.length := by omega
  have r0 : read data (streamOf (Record.table pairs :: recs)).length = .ok hi := by
    rw [hdata]; exact read_append _ _ 0 hi (by simp)
  have r1 : read data ((streamOf (Record.table pairs :: recs)).length + 1) = .ok lo := by
    rw [hdata]; exact read_append _ _ 1 lo (by simp)
  have hrd : readN data ((streamOf (Record.table pairs :: recs)).length + 2 +
      (lastTable pairs recs).length) (hi <<< 8 ||| lo) = .error .undefined :=
    readN_short _ _ _ (by omega)
  simp only [decodeLoopOut, if_pos hlt, r0, r1, if_neg hS, hoff, hrd]

theorem decodeLoopOut_ne_badHeader (data : List Nat) (n pos : Nat)
    (cur : Option (Nat × Nat)) (out : List Nat) :
    (decodeLoopOut data n pos cur out).2 ≠ some .badHeader := by
  induction n generalizing pos cur out with
  | zero =>
    simp only [decodeLoopOut]
    split <;> simp
  | succ n ih =>
    simp only [decodeLoopOut]
    by_cases hlt : pos < data.length
    · simp only [if_pos hlt]
      cases h0 : read data pos with
      | error e => have := read_error _ _ _ h0; subst this; simp
      | ok hi =>
        cases h1 : read data (pos + 1) with
        | error e => have := read_error _ _ _ h1; subst this; simp
        | ok lo =>
          simp only
          by_cases hz : (hi <<< 8 ||| lo) = 0
          · simp only [if_pos hz]
            cases h2 : read data (pos + 2) with
            | error e => have := read_error _ _ _ h2; subst this; simp
            | ok numSubs => exact ih _ _ _
          · simp only [if_neg hz]
            cases cur with
            | none => simp
            | some t =>
              obtain ⟨numSubs, pairs⟩ := t
              simp only
              cases h3 : readN data (pos + 2 + numSubs) (hi <<< 8 ||| lo) with
              | error e => have := readN_error _ _ _ _ h3; subst this; simp
              | ok srcbuf =>
                simp only
                cases h4 : expandLoop data (pos + 2) pairs numSubs srcbuf with
                | error e => have := expandLoop_error _ _ _ _ _ _ h4; subst this; simp
                | ok buf => exact ih _ _ _
    · simp [if_neg hlt]

/-- The exit "Bad input, expected init block" is taken exactly when one of
the first two bytes is read and is not zero; nothing has been written then. -/
theorem BP_DecodeOut_badHeader (b0 b1 : Nat) (rest : List Nat) (h : ¬ (b0 = 0 ∧ b1 = 0)) :
    BP_DecodeOut (b0 :: b1 :: rest) = ([], some .badHeader) := by
  simp only [BP_DecodeOut, read, List.getElem?_cons_zero, List.getElem?_cons_succ]
  by_cases h0 : b0 = 0
  · have h1 : ¬ b1 = 0 := fun e => h ⟨h0, e⟩
    simp [h0, h1]
  · simp [h0]

theorem BP_Decode_ne_badHeader (data : List Nat) (h0 : data[0]? = some 0)
    (h1 : data[1]? = some 0) : BP_Decode data ≠ .error .badHeader := by
  rw [BP_Decode_eq_outcome]
  have e : BP_DecodeOut data = decodeLoopOut data data.length 0 none [] := by
    simp [BP_DecodeOut, read, h0, h1]
  rw [e]
  have := decodeLoopOut_ne_badHeader data data.length 0 none []
  generalize decodeLoopOut data data.length 0 none [] = r at this ⊢
  obtain ⟨out, f⟩ := r
  cases f with
  | none => simp [outcome]
  | some f => 
    simp only [outcome]
    intro hf
    cases hf
    exact this rfl

/-! ## The stop rule of the partitioner -/

theorem growBlock_stop (pre rest : List Nat) (tbl : Nat → Bool) (uc : Nat)
    (htbl : ∀ j, tbl j = true ↔ j ∈ pre) (huc : uc = pre.toFinset.card)
    (hle : pre.length ≤ 65535) :
    StopAt (pre ++ rest) (growBlock rest tbl uc pre.length).2 ∧
      ∀ m, pre.length ≤ m → m < (growBlock rest tbl uc pre.length).2 →
        ¬ StopAt (pre ++ rest) m := by
  induction rest generalizing pre tbl uc with
  | nil =>
    simp only [growBlock, List.append_nil]
    exact ⟨Or.inl rfl, fun m h1 h2 => absurd h2 (by omega)⟩
  | cons b rest ih =>
    have htake : (pre ++ b :: rest).take pre.length = pre := List.take_left _ _
    simp only [growBlock, NUMPASSES]
    by_cases hc : pre.length < 65535 ∧ 256 - uc ≠ 32
    · rw [if_pos hc]
      have hnot : ¬ StopAt (pre ++ b :: rest) pre.length := by
        unfold StopAt
        rw [htake, ← huc]
        simp only [List.length_append, List.length_cons, NUMPASSES]
        omega
      have hl : pre.length + 1 = (pre ++ [b]).length := by simp
      have happ : pre ++ b :: rest = (pre ++ [b]) ++ rest := by simp
      have key : ∀ tbl' uc', (∀ j, tbl' j = true ↔ j ∈ pre ++ [b]) →
          uc' = (pre ++ [b]).toFinset.card →
          StopAt (pre ++ b :: rest) (growBlock rest tbl' uc' (pre.length + 1)).2 ∧
          ∀ m, pre.length ≤ m → m < (growBlock rest tbl' uc' (pre.length + 1)).2 →
            ¬ StopAt (pre ++ b :: rest) m := by
        intro tbl' uc' h1 h2
        have := ih (pre ++ [b]) tbl' uc' h1 h2 (by rw [← hl]; omega)
        rw [← hl, ← happ] at this
        refine ⟨this.1, ?_⟩
        intro m hm1 hm2
        rcases Nat.eq_or_lt_of_le hm1 with e | hlt
        · rw [← e]; exact hnot
        · exact this.2 m hlt hm2
      by_cases hb : tbl b = true
      · have : (!tbl b) = false := by simp [hb]
        simp only [this, Bool.false_eq_true, if_false]
        apply key
        · intro j
          rw [htbl, List.mem_append, List.mem_singleton]
          constructor
          · exact Or.inl
          · rintro (h | h)
            · exact h
            · rw [h]; exact (htbl b).mp hb
        · rw [huc, List.toFinset_append]
          have hm : b ∈ pre.toFinset := List.mem_toFinset.mpr ((htbl b).mp hb)
          simp [Finset.union_eq_left.mpr (Finset.singleton_subset_iff.mpr hm)]
      · have : (!tbl b) = true := by simp [hb]
        simp only [this, if_true]
        apply key
        · intro j
          simp only [markUsed, List.mem_append, List.mem_singleton]
          by_cases hj : j = b
          · simp [hj]
          · simp [hj, htbl]
        · have hm : b ∉ pre.toFinset := fun h => hb ((htbl b).mpr (List.mem_toFinset.mp h))
          have e : (pre ++ [b]).toFinset = insert b pre.toFinset := by
            ext x; simp [or_comm]
          rw [e, Finset.card_insert_of_not_mem hm, huc]
    · rw [if_neg hc]
      refine ⟨?_, fun m h1 h2 => absurd h2 (by omega)⟩
      unfold StopAt
      rw [htake, ← huc]
      simp only [NUMPASSES]
      omega

/-- The block the constructor takes from a non-empty input is its shortest
non-empty prefix at which the stop condition holds. -/
theorem mkBlock_shortest (b : Nat) (rest : List Nat) :
    ∃ n, 1 ≤ n ∧ n ≤ (b :: rest).length ∧
      mkBlock (b :: rest) =
        .ok (⟨(b :: rest).take n, collectUnused (growBlock (b :: rest) (fun _ => false) 0 0).1,
          []⟩, (b :: rest).drop n) ∧
      StopAt (b :: rest) n ∧ ∀ m, 1 ≤ m → m < n → ¬ StopAt (b :: rest) m := by
  obtain ⟨n, tbl, hn1, _, hn3, hg, hmk⟩ := mkBlock_cons b rest
  have hs := growBlock_stop [] (b :: rest) (fun _ => false) 0 (by simp) (by simp) (by simp)
  simp only [List.length_nil, List.nil_append, hg] at hs
  refine ⟨n, hn1, hn3, by rw [hmk, hg], hs.1, fun m hm1 hm2 => hs.2 m (by omega) hm2⟩

/-! ## Shrinkage and key order -/

theorem pairOccurrences_pos (a b : Nat) (s : List Nat) (h : 1 ≤ pairOccurrences a b s) :
    ∃ i, s[i]? = some a ∧ s[i + 1]? = some b := by
  unfold pairOccurrences at h
  obtain ⟨i, hi⟩ := List.length_pos_iff_exists_mem.mp h
  rw [List.mem_filter] at hi
  exact ⟨i, by simpa using hi.2⟩

theorem greedyRewrite_length_lt (first second key : Nat) (data : List Nat)
    (h : ∃ i, data[i]? = some first ∧ data[i + 1]? = some second) :
    (greedyRewrite first second key data).length < data.length := by
  induction data using greedyRewrite.induct first second key with
  | case1 => obtain ⟨i, hi, _⟩ := h; simp at hi
  | case2 a => obtain ⟨i, _, hi⟩ := h; simp at hi
  | case3 a b rest hab ih =>
    have := greedyRewrite_length_le first second key rest
    rw [greedyRewrite, if_pos hab]; simp only [List.length_cons]; omega
  | case4 a b rest hab ih =>
    rw [greedyRewrite, if_neg hab]
    simp only [List.length_cons, Nat.add_lt_add_iff_right]
    apply ih
    obtain ⟨i, h1, h2⟩ := h
    cases i with
    | zero =>
      simp only [List.getElem?_cons_zero, Option.some.injEq, Nat.zero_add,
        List.getElem?_cons_succ] at h1 h2
      exact absurd ⟨h1, h2⟩ hab
    | succ i =>
      simp only [List.getElem?_cons_succ] at h1 h2
      exact ⟨i, h1, by simpa using h2⟩

theorem PassInv.subs_eq {blk0 blk : Block} {k : Nat} {pairs : List (Nat × Nat)}
    (hinv : PassInv blk0 k blk pairs) : blk.subs = blk0.unused.reverse.take k := by
  have h := congrArg List.reverse hinv.unused_eq
  rw [List.reverse_append, List.reverse_reverse] at h
  rw [← h, List.take_left' hinv.subs_len]

/-! ## The pass loops, pass by pass -/

theorem DoSubs_subs (blk blk' : Block) (sub first second : Nat)
    (h : DoSubs blk sub first second = .ok blk') : ∃ u, blk'.subs = blk.subs ++ u := by
  unfold DoSubs at h
  cases hq : blk.unused.getLast? with
  | none =>
    simp only [hq] at h
    cases h
    exact ⟨[], by simp⟩
  | some back =>
    simp only [hq] at h
    split at h
    · cases h
    · cases h
      exact ⟨[back], rfl⟩

theorem passLoop1_add (k n sub : Nat) (blk : Block) (pairs : List (Nat × Nat)) :
    passLoop1 (k + n) sub blk pairs =
      match passLoop1 k sub blk pairs with
      | .error e => .error e
      | .ok (b, ps) => passLoop1 n (sub + k) b ps := by
  induction k generalizing sub blk pairs with
  | zero => simp [passLoop1]
  | succ k ih =>
    have e : k + 1 + n = (k + n) + 1 := by omega
    rw [e]
    simp only [passLoop1]
    cases GetBestPair blk.data with
    | error e => rfl
    | ok p =>
      simp only
      cases DoSubs blk sub p.1 p.2 with
      | error e => rfl
      | ok b1 =>
        simp only
        rw [ih]
        have e2 : sub + 1 + k = sub + (k + 1) := by omega
        rw [e2]

theorem passLoop1_extends (n sub : Nat) (blk blk' : Block) (pairs pairs' : List (Nat × Nat))
    (h : passLoop1 n sub blk pairs = .ok (blk', pairs')) :
    ∃ t u, pairs' = pairs ++ t ∧ blk'.subs = blk.subs ++ u := by
  induction n generalizing sub blk pairs with
  | zero =>
    simp only [passLoop1, Except.ok.injEq, Prod.mk.injEq] at h
    exact ⟨[], [], by simp [h.2], by simp [h.1]⟩
  | succ n ih =>
    simp only [passLoop1] at h
    cases hg : GetBestPair blk.data with
    | error e => simp [hg] at h
    | ok p =>
      simp only [hg] at h
      cases hd : DoSubs blk sub p.1 p.2 with
      | error e => simp [hd] at h
      | ok b1 =>
        simp only [hd] at h
        obtain ⟨t, u, h1, h2⟩ := ih _ _ _ h
        obtain ⟨u1, hu1⟩ := DoSubs_subs _ _ _ _ _ hd
        exact ⟨[p] ++ t, u1 ++ u, by rw [h1]; simp, by rw [h2, hu1]; simp⟩

/-- The state before pass `k` of the 32 passes of `BP_Encode1` on a block:
the pair selected and the key popped in pass `k` are `pairs[k]` and `subs[k]`
of the final state. -/
theorem passLoop1_pass {blk0 blk' : Block} {pairs : List (Nat × Nat)} (h0 : BlockInit blk0)
    (hrun : passLoop1 NUMPASSES 0 blk0 [] = .ok (blk', pairs)) (k : Nat) (hk : k < NUMPASSES) :
    ∃ blk_k, passLoop1 k 0 blk0 [] = .ok (blk_k, pairs.take k) ∧
      PassInv blk0 k blk_k (pairs.take k) ∧
      GetBestPair blk_k.data = .ok (pairs.getD k (0, 0)) ∧
      blk_k.unused.getLast? = some (blk'.subs.getD k 0) ∧
      blk_k.subs = blk'.subs.take k := by
  obtain ⟨blk_k, ps, h1, hinv⟩ := passLoop1_ok h0 k 0 blk0 [] (passInv_init h0)
    (by have := h0.unused_len; omega)
  rw [Nat.zero_add] at hinv
  obtain ⟨m, hm⟩ : ∃ m, NUMPASSES = k + (m + 1) := ⟨NUMPASSES - k - 1, by omega⟩
  have hsplit := passLoop1_add k (m + 1) 0 blk0 []
  rw [← hm, hrun, h1] at hsplit
  simp only [Nat.zero_add, passLoop1] at hsplit
  obtain ⟨p, hp⟩ : ∃ p, GetBestPair blk_k.data = .ok p :=
    ⟨_, GetBestPair_ok blk_k.data hinv.data_pos (Nat.le_trans hinv.data_le h0.data_le)⟩
  obtain ⟨key, hkey, _, hdo, _⟩ := DoSubs_step h0 hinv
    (by have := h0.unused_len; omega) p.1 p.2
  rw [hp] at hsplit
  simp only [hdo] at hsplit
  obtain ⟨t, u, ht, hu⟩ := passLoop1_extends _ _ _ _ _ _ hsplit.symm
  simp only at hu
  have hps : pairs.take k = ps := by
    rw [ht, List.append_assoc]; exact List.take_left' hinv.pairs_len
  have hpk : pairs.getD k (0, 0) = p := by
    rw [ht, List.getD_eq_getElem?_getD, List.append_assoc,
      List.getElem?_append_right (by rw [hinv.pairs_len]), hinv.pairs_len]
    simp
  have hsk : blk'.subs.getD k 0 = key := by
    rw [hu, List.getD_eq_getElem?_getD, List.append_assoc,
      List.getElem?_append_right (by rw [hinv.subs_len]), hinv.subs_len]
    simp
  have hst : blk'.subs.take k = blk_k.subs := by
    rw [hu, List.append_assoc]; exact List.take_left' hinv.subs_len
  rw [hps, hpk, hsk, hst]
  exact ⟨blk_k, h1, hinv, hp, hkey, rfl⟩

theorem forall₂_chain {α β γ : Type} {R : α → β → Prop} {S : β → γ → Prop}
    {T : α → γ → Prop} (hT : ∀ x y z, R x y → S y z → T x z) {a : List α} {b : List β}
    {c : List γ} (h1 : List.Forall₂ R a b) (h2 : List.Forall₂ S b c) : List.Forall₂ T a c := by
  induction h1 generalizing c with
  | nil => cases h2; exact List.Forall₂.nil
  | cons hr _ ih =>
    cases h2 with
    | cons hs h2' => exact List.Forall₂.cons (hT _ _ _ hr hs) (ih h2')

theorem forall₂_subs_refl (blocks : List Block) :
    List.Forall₂ (fun b b' : Block => ∃ u, b'.subs = b.subs ++ u) blocks blocks := by
  induction blocks with
  | nil => exact List.Forall₂.nil
  | cons b bs ih => exact List.Forall₂.cons ⟨[], by simp⟩ ih

theorem doSubsAll_subs (sub first second : Nat) (blocks blocks' : List Block)
    (h : doSubsAll sub first second blocks = .ok blocks') :
    List.Forall₂ (fun b b' : Block => ∃ u, b'.subs = b.subs ++ u) blocks blocks' := by
  induction blocks generalizing blocks' with
  | nil =>
    simp only [doSubsAll, Except.ok.injEq] at h
    subst h; exact List.Forall₂.nil
  | cons b bs ih =>
    simp only [doSubsAll] at h
    cases hd : DoSubs b sub first second with
    | error e => simp [hd] at h
    | ok b1 =>
      simp only [hd] at h
      cases hr : doSubsAll sub first second bs with
      | error e => simp [hr] at h
      | ok bs1 =>
        simp only [hr, Except.ok.injEq] at h
        subst h
        exact List.Forall₂.cons (DoSubs_subs _ _ _ _ _ hd) (ih _ hr)

theorem passLoop2_add (k n sub : Nat) (blocks : List Block) (pairs : List (Nat × Nat)) :
    passLoop2 (k + n) sub blocks pairs =
      match passLoop2 k sub blocks pairs with
      | .error e => .error e
      | .ok (bs, ps) => passLoop2 n (sub + k) bs ps := by
  induction k generalizing sub blocks pairs with
  | zero => simp [passLoop2]
  | succ k ih =>
    have e : k + 1 + n = (k + n) + 1 := by omega
    rw [e]
    simp only [passLoop2]
    cases GetBestPairAll blocks with
    | error e => rfl
    | ok p =>
      simp only
      cases doSubsAll sub p.1 p.2 blocks with
      | error e => rfl
      | ok b1 =>
        simp only
        rw [ih]
        have e2 : sub + 1 + k = sub + (k + 1) := by omega
        rw [e2]

theorem passLoop2_extends (n sub : Nat) (blocks blocks' : List Block)
    (pairs pairs' : List (Nat × Nat))
    (h : passLoop2 n sub blocks pairs = .ok (blocks', pairs')) :
    ∃ t, pairs' = pairs ++ t ∧
      List.Forall₂ (fun b b' : Block => ∃ u, b'.subs = b.subs ++ u) blocks blocks' := by
  induction n generalizing sub blocks pairs with
  | zero =>
    simp only [passLoop2, Except.ok.injEq, Prod.mk.injEq] at h
    rw [← h.1, ← h.2]
    exact ⟨[], by simp, forall₂_subs_refl blocks⟩
  | succ n ih =>
    simp only [passLoop2] at h
    cases hg : GetBestPairAll blocks with
    | error e => simp [hg] at h
    | ok p =>
      simp only [hg] at h
      cases hd : doSubsAll sub p.1 p.2 blocks with
      | error e => simp [hd] at h
      | ok b1 =>
        simp only [hd] at h
        obtain ⟨t, h1, h2⟩ := ih _ _ _ h
        refine ⟨[p] ++ t, by rw [h1]; simp, ?_⟩
        refine forall₂_chain ?_ (doSubsAll_subs _ _ _ _ _ hd) h2
        rintro x y z ⟨u1, hu1⟩ ⟨u2, hu2⟩
        exact ⟨u1 ++ u2, by rw [hu2, hu1]; simp⟩

/-- One pass of `BP_Encode2` over blocks in the state after `k` passes: every
block is rewritten with the same pair and the key it pops from its own
`unused`. -/
theorem doSubsAll_pass {blocks0 blocks : List Block} {k : Nat} {pairs : List (Nat × Nat)}
    (h : AllInv blocks0 k blocks pairs) (hk : k < NUMPASSES) (first second : Nat) :
    ∃ blocks', doSubsAll k first second blocks = .ok blocks' ∧
      List.Forall₂ (fun b b' : Block => b.subs.length = k ∧
        ∃ key, b.unused.getLast? = some key ∧
          b' = ⟨greedyRewrite first second key b.data, b.unused.dropLast, b.subs ++ [key]⟩)
        blocks blocks' := by
  induction h with
  | nil => exact ⟨[], rfl, List.Forall₂.nil⟩
  | cons hr _ ih =>
    obtain ⟨blocks', h1, h2⟩ := ih
    obtain ⟨key, hkey, _, hdo, _⟩ := DoSubs_step hr.1 hr.2
      (Nat.lt_of_lt_of_le hk hr.1.unused_len) first second
    exact ⟨_ :: blocks', by simp only [doSubsAll, hdo, h1],
      List.Forall₂.cons ⟨hr.2.subs_len, key, hkey, rfl⟩ h2⟩

/-- The state before pass `k` of the 32 passes of `BP_Encode2`: the pair
selected in pass `k` is `pairs[k]` of the final table, and the key every block
pops in pass `k` is `subs[k]` of its final state. -/
theorem passLoop2_pass {blocks0 blocks' : List Block} {pairs : List (Nat × Nat)}
    (h0 : ∀ blk ∈ blocks0, BlockInit blk)
    (hrun : passLoop2 NUMPASSES 0 blocks0 [] = .ok (blocks', pairs)) (k : Nat)
    (hk : k < NUMPASSES) :
    ∃ blocks_k blocks_k1, passLoop2 k 0 blocks0 [] = .ok (blocks_k, pairs.take k) ∧
      GetBestPairAll blocks_k = .ok (pairs.getD k (0, 0)) ∧
      passLoop2 (k + 1) 0 blocks0 [] = .ok (blocks_k1, pairs.take (k + 1)) ∧
      List.Forall₂ (fun b b1 : Block => ∃ key, b.unused.getLast? = some key ∧
          b1 = ⟨greedyRewrite (pairs.getD k (0, 0)).1 (pairs.getD k (0, 0)).2 key b.data,
            b.unused.dropLast, b.subs ++ [key]⟩) blocks_k blocks_k1 ∧
      List.Forall₂ (fun b b' : Block => b.unused.getLast? = some (b'.subs.getD k 0))
        blocks_k blocks' := by
  obtain ⟨blocks_k, ps, h1, hinv, hlen⟩ := passLoop2_ok k 0 blocks0 []
    (allInv_init blocks0 h0) (by omega) rfl
  rw [Nat.zero_add] at hinv hlen
  obtain ⟨m, hm⟩ : ∃ m, NUMPASSES = k + (m + 1) := ⟨NUMPASSES - k - 1, by omega⟩
  have hsplit := passLoop2_add k (m + 1) 0 blocks0 []
  rw [← hm, hrun, h1] at hsplit
  simp only [Nat.zero_add, passLoop2] at hsplit
  obtain ⟨p, hp⟩ := GetBestPairAll_ok blocks_k hinv.sizes
  obtain ⟨blocks_k1, hdo, hdet⟩ := doSubsAll_pass hinv hk p.1 p.2
  rw [hp] at hsplit
  simp only [hdo] at hsplit
  obtain ⟨t, ht, hsubs⟩ := passLoop2_extends _ _ _ _ _ _ hsplit.symm
  have hps : pairs.take k = ps := by
    rw [ht, List.append_assoc]; exact List.take_left' hlen
  have hps1 : pairs.take (k + 1) = ps ++ [p] := by
    rw [ht]; exact List.take_left' (by simp [hlen])
  have hpk : pairs.getD k (0, 0) = p := by
    rw [ht, List.getD_eq_getElem?_getD, List.append_assoc,
      List.getElem?_append_right (by rw [hlen]), hlen]
    simp
  have hnext : passLoop2 (k + 1) 0 blocks0 [] = .ok (blocks_k1, ps ++ [p]) := by
    rw [passLoop2_add k 1 0 blocks0 [], h1]
    simp only [Nat.zero_add, passLoop2, hp, hdo]
  rw [hps, hps1, hpk]
  refine ⟨blocks_k, blocks_k1, h1, hp, hnext, ?_, ?_⟩
  · exact List.Forall₂.imp (fun _ _ h => h.2) hdet
  · refine forall₂_chain ?_ hdet hsubs
    rintro x y z ⟨hx, key, hkey, hy⟩ ⟨u, hu⟩
    rw [hkey, hu, hy]
    simp only [List.getD_eq_getElem?_getD, List.append_assoc]
    rw [List.getElem?_append_right (by rw [hx]), hx]
    simp

/-! ## The streams of the two encoders -/

theorem tableBytes_eq (pairs : List (Nat × Nat)) (h : pairs.length = NUMPASSES) :
    (Record.table pairs).bytes = tableBytes pairs := by
  simp only [Record.bytes, tableBytes, h, NUMPASSES]

theorem tableBytes_get (pairs : List (Nat × Nat)) (rest : List Nat) (i : Nat)
    (hi : i < pairs.length) :
    (tableBytes pairs ++ rest)[3 + 2 * i]? = some (pairs.getD i (0, 0)).1 ∧
    (tableBytes pairs ++ rest)[3 + 2 * i + 1]? = some (pairs.getD i (0, 0)).2 := by
  have hg := flatMap_pairs_get pairs rest i hi
  have e : tableBytes pairs ++ rest =
      [0x00, 0x00, 0x20] ++ (pairs.flatMap (fun p => [p.1, p.2]) ++ rest) := by
    simp [tableBytes]
  have e1 : 3 + 2 * i = [0x00, 0x00, 0x20].length + i * 2 := by simp; omega
  have e2 : 3 + 2 * i + 1 = [0x00, 0x00, 0x20].length + (i * 2 + 1) := by simp; omega
  constructor
  · rw [e, e1, List.getElem?_append_right (by omega)]
    simpa using hg.1
  · rw [e, e2, List.getElem?_append_right (by omega)]
    simpa using hg.2

theorem BP_Encode1_stream (blocks : List Block) (h : ∀ blk ∈ blocks, BlockInit blk) :
    ∃ results : List (Block × List (Nat × Nat)),
      List.Forall₂ (fun blk r => BlockInit blk ∧ passLoop1 NUMPASSES 0 blk [] = .ok r ∧
        PassInv blk NUMPASSES r.1 r.2) blocks results ∧
      BP_Encode1 blocks =
        .ok (results.flatMap (fun r => tableBytes r.2 ++ blockBytes r.1.subs r.1.data)) := by
  induction blocks with
  | nil => exact ⟨[], List.Forall₂.nil, rfl⟩
  | cons blk0 blks ih =>
    obtain ⟨results, hres, henc⟩ := ih (fun b hb => h b (List.mem_cons_of_mem _ hb))
    have h0 := h blk0 (List.mem_cons_self _ _)
    obtain ⟨blk', pairs, hrun, hinv, hblk⟩ := encodeBlock1_ok h0
    refine ⟨(blk', pairs) :: results, List.Forall₂.cons ⟨h0, hrun, hinv⟩ hres, ?_⟩
    simp only [BP_Encode1, hblk, henc, streamOf, List.flatMap_cons, List.flatMap_nil,
      List.append_nil, tableBytes_eq pairs hinv.pairs_len]
    simp [Record.bytes, blockBytes]

theorem BP_Encode2_stream (blocks : List Block) (h : ∀ blk ∈ blocks, BlockInit blk) :
    ∃ blocks' pairs, passLoop2 NUMPASSES 0 blocks [] = .ok (blocks', pairs) ∧
      pairs.length = NUMPASSES ∧ AllInv blocks NUMPASSES blocks' pairs ∧
      BP_Encode2 blocks =
        .ok (tableBytes pairs ++ blocks'.flatMap (fun b => blockBytes b.subs b.data)) := by
  obtain ⟨blocks', pairs, h1, h2, h3⟩ := passLoop2_ok NUMPASSES 0 blocks []
    (allInv_init blocks h) (by omega) rfl
  rw [Nat.zero_add] at h2 h3
  obtain ⟨hw, _, _⟩ := writeBlocks_ok h2 h3
  refine ⟨blocks', pairs, h1, h3, h2, ?_⟩
  simp only [BP_Encode2, h1, hw, writePairTable_eq pairs h3, tableBytes_eq pairs h3]
  congr 2
  simp only [streamOf, List.flatMap_map]
  rfl

/-! ## Two concrete inputs -/

theorem pairOccurrences_mem (a b : Nat) (s : List Nat) (h : 1 ≤ pairOccurrences a b s) :
    a ∈ s ∧ b ∈ s := by
  obtain ⟨i, h1, h2⟩ := pairOccurrences_pos a b s h
  exact ⟨List.getElem?_mem h1, List.getElem?_mem h2⟩

theorem GetBestPair_run8 :
    GetBestPair [65, 65, 65, 65, 65, 65, 65, 65] = .ok (65, 65) := by
  obtain ⟨a, b, hg, _, _, hmax, _⟩ :=
    GetBestPair_spec [65, 65, 65, 65, 65, 65, 65, 65] (by decide) (by decide) (by decide)
  have h7 : pairOccurrences 65 65 [65, 65, 65, 65, 65, 65, 65, 65] = 7 := by decide
  have hle := hmax 65 65 (by decide) (by decide)
  rw [h7] at hle
  obtain ⟨ha, hb⟩ := pairOccurrences_mem a b _ (Nat.le_trans (by decide) hle)
  simp only [List.mem_cons, List.mem_singleton, or_self, List.not_mem_nil, or_false] at ha hb
  rw [hg, ha, hb]

theorem passLoop1_one (blk : Block) (p : Nat × Nat) (back : Nat)
    (hg : GetBestPair blk.data = .ok p) (hback : blk.unused.getLast? = some back)
    (hsubs : blk.subs = []) :
    passLoop1 1 0 blk [] =
      .ok (⟨greedyRewrite p.1 p.2 back blk.data, blk.unused.dropLast, [back]⟩, [p]) := by
  have hd := DoSubs_of_getLast blk 0 p.1 p.2 back back hback (by simp [hsubs])
  simp only [passLoop1, hg, hd, hsubs, List.nil_append]

/-- C11. For every input of bytes, `main` with `BP_Encode1` returns the
stream that is, for each block of the partition in input order, the pair-table
record (`0x00 0x00 0x20`, then the 32 pairs, pair `i` at offsets `3 + 2i` and
`3 + 2i + 1`) followed by the block record (the compressed length as two
big-endian bytes, the 32 keys, the compressed data); the pairs and keys are in
pass order: `pairs[k]` is the pair `GetBestPair` selects in pass `k` and
`subs[k]` the key popped in pass `k`.  A non-empty input has a block. -/
theorem encode1_format (X : List Nat) (hX : IsBytes X) :
    ∃ blocks results, partition X = .ok blocks ∧ (X ≠ [] → blocks ≠ []) ∧
      encodeFile1 X =
        .ok (results.flatMap (fun r => tableBytes r.2 ++ blockBytes r.1.subs r.1.data)) ∧
      List.Forall₂ (fun blk r =>
          passLoop1 NUMPASSES 0 blk [] = .ok r ∧ r.2.length = NUMPASSES ∧
          r.1.subs.length = NUMPASSES ∧ 1 ≤ r.1.data.length ∧ r.1.data.length ≤ 65535 ∧
          expandAll r.1.subs r.2 NUMPASSES r.1.data = blk.data ∧
          (∀ i rest, i < NUMPASSES →
            (tableBytes r.2 ++ rest)[3 + 2 * i]? = some (r.2.getD i (0, 0)).1 ∧
            (tableBytes r.2 ++ rest)[3 + 2 * i + 1]? = some (r.2.getD i (0, 0)).2) ∧
          (∀ k, k < NUMPASSES → ∃ blk_k, passLoop1 k 0 blk [] = .ok (blk_k, r.2.take k) ∧
            GetBestPair blk_k.data = .ok (r.2.getD k (0, 0)) ∧
            blk_k.unused.getLast? = some (r.1.subs.getD k 0)))
        blocks results := by
  obtain ⟨blocks, hp, _⟩ := partition_ok X
  have hinit := partition_mem X hX blocks hp
  obtain ⟨results, hres, henc⟩ := BP_Encode1_stream blocks hinit
  refine ⟨blocks, results, hp, fun hne => partition_ne_nil X hne blocks hp,
    by simp only [encodeFile1, hp, henc], ?_⟩
  refine List.Forall₂.imp ?_ hres
  rintro blk ⟨blk', pairs⟩ ⟨h0, hrun, hinv⟩
  refine ⟨hrun, hinv.pairs_len, hinv.subs_len, hinv.data_pos,
    Nat.le_trans hinv.data_le h0.data_le, hinv.decode, ?_, ?_⟩
  · intro i rest hi
    exact tableBytes_get pairs rest i (by rw [hinv.pairs_len]; exact hi)
  · intro k hk
    obtain ⟨blk_k, h1, _, h2, h3, _⟩ := passLoop1_pass h0 hrun k hk
    exact ⟨blk_k, h1, h2, h3⟩

theorem encode1_format_witness :
    IsBytes [65, 66, 65, 66] ∧
    ∃ blocks results, partition [65, 66, 65, 66] = .ok blocks ∧
      (([65, 66, 65, 66] : List Nat) ≠ [] → blocks ≠ []) ∧
      encodeFile1 [65, 66, 65, 66] =
        .ok (results.flatMap (fun r => tableBytes r.2 ++ blockBytes r.1.subs r.1.data)) ∧
      List.Forall₂ (fun blk r =>
          passLoop1 NUMPASSES 0 blk [] = .ok r ∧ r.2.length = NUMPASSES ∧
          r.1.subs.length = NUMPASSES ∧ 1 ≤ r.1.data.length ∧ r.1.data.length ≤ 65535 ∧
          expandAll r.1.subs r.2 NUMPASSES r.1.data = blk.data ∧
          (∀ i rest, i < NUMPASSES →
            (tableBytes r.2 ++ rest)[3 + 2 * i]? = some (r.2.getD i (0, 0)).1 ∧
            (tableBytes r.2 ++ rest)[3 + 2 * i + 1]? = some (r.2.getD i (0, 0)).2) ∧
          (∀ k, k < NUMPASSES → ∃ blk_k, passLoop1 k 0 blk [] = .ok (blk_k, r.2.take k) ∧
            GetBestPair blk_k.data = .ok (r.2.getD k (0, 0)) ∧
            blk_k.unused.getLast? = some (r.1.subs.getD k 0)))
        blocks results :=
  ⟨by decide, encode1_format [65, 66, 65, 66] (by decide)⟩

/-- C12. For every input of bytes, `main` with `BP_Encode2` returns the
stream made of one pair-table record (`0x00 0x00 0x20` and the 32 pairs)
followed by one block record for each block of the partition, in input order,
carrying that block's 32 keys; in every pass `k` the pair `pairs[k]` is
selected once, by `GetBestPair` over all blocks, and every block is rewritten
with that pair and with the key it pops from its own `unused`, which is
`subs[k]` of that block. -/
theorem encode2_format (X : List Nat) (hX : IsBytes X) :
    ∃ blocks blocks' pairs, partition X = .ok blocks ∧
      passLoop2 NUMPASSES 0 blocks [] = .ok (blocks', pairs) ∧ pairs.length = NUMPASSES ∧
      encodeFile2 X =
        .ok (tableBytes pairs ++ blocks'.flatMap (fun b => blockBytes b.subs b.data)) ∧
      List.Forall₂ (fun blk blk' => blk'.subs.length = NUMPASSES ∧ 1 ≤ blk'.data.length ∧
          blk'.data.length ≤ 65535 ∧
          expandAll blk'.subs pairs NUMPASSES blk'.data = blk.data) blocks blocks' ∧
      ∀ k, k < NUMPASSES →
        ∃ blocks_k blocks_k1, passLoop2 k 0 blocks [] = .ok (blocks_k, pairs.take k) ∧
          GetBestPairAll blocks_k = .ok (pairs.getD k (0, 0)) ∧
          passLoop2 (k + 1) 0 blocks [] = .ok (blocks_k1, pairs.take (k + 1)) ∧
          List.Forall₂ (fun b b1 : Block => ∃ key, b.unused.getLast? = some key ∧
              b1 = ⟨greedyRewrite (pairs.getD k (0, 0)).1 (pairs.getD k (0, 0)).2 key b.data,
                b.unused.dropLast, b.subs ++ [key]⟩) blocks_k blocks_k1 ∧
          List.Forall₂ (fun b b' : Block => b.unused.getLast? = some (b'.subs.getD k 0))
            blocks_k blocks' := by
  obtain ⟨blocks, hp, _⟩ := partition_ok X
  have hinit := partition_mem X hX blocks hp
  obtain ⟨blocks', pairs, hrun, hlen, hinv, henc⟩ := BP_Encode2_stream blocks hinit
  refine ⟨blocks, blocks', pairs, hp, hrun, hlen, by simp only [encodeFile2, hp, henc], ?_,
    fun k hk => passLoop2_pass hinit hrun k hk⟩
  exact List.Forall₂.imp (fun _ _ h => ⟨h.2.subs_len, h.2.data_pos,
    Nat.le_trans h.2.data_le h.1.data_le, h.2.decode⟩) hinv

theorem encode2_format_witness :
    IsBytes [65, 66, 65, 66] ∧
    ∃ blocks blocks' pairs, partition [65, 66, 65, 66] = .ok blocks ∧
      passLoop2 NUMPASSES 0 blocks [] = .ok (blocks', pairs) ∧ pairs.length = NUMPASSES ∧
      encodeFile2 [65, 66, 65, 66] =
        .ok (tableBytes pairs ++ blocks'.flatMap (fun b => blockBytes b.subs b.data)) ∧
      List.Forall₂ (fun blk blk' => blk'.subs.length = NUMPASSES ∧ 1 ≤ blk'.data.length ∧
          blk'.data.length ≤ 65535 ∧
          expandAll blk'.subs pairs NUMPASSES blk'.data = blk.data) blocks blocks' ∧
      ∀ k, k < NUMPASSES →
        ∃ blocks_k blocks_k1, passLoop2 k 0 blocks [] = .ok (blocks_k, pairs.take k) ∧
          GetBestPairAll blocks_k = .ok (pairs.getD k (0, 0)) ∧
          passLoop2 (k + 1) 0 blocks [] = .ok (blocks_k1, pairs.take (k + 1)) ∧
          List.Forall₂ (fun b b1 : Block => ∃ key, b.unused.getLast? = some key ∧
              b1 = ⟨greedyRewrite (pairs.getD k (0, 0)).1 (pairs.getD k (0, 0)).2 key b.data,
                b.unused.dropLast, b.subs ++ [key]⟩) blocks_k blocks_k1 ∧
          List.Forall₂ (fun b b' : Block => b.unused.getLast? = some (b'.subs.getD k 0))
            blocks_k blocks' :=
  ⟨by decide, encode2_format [65, 66, 65, 66] (by decide)⟩

/-- C13. For every input of at least two bytes whose first two bytes are not
both `0x00`, `BP_Decode` takes its exit "Bad input, expected init block", and
it has written no byte to `fout` when it does. -/
theorem decode_bad_header (b0 b1 : Nat) (rest : List Nat) (h : ¬ (b0 = 0 ∧ b1 = 0)) :
    BP_Decode (b0 :: b1 :: rest) = .error .badHeader ∧
      BP_DecodeOut (b0 :: b1 :: rest) = ([], some .badHeader) := by
  refine ⟨?_, BP_DecodeOut_badHeader b0 b1 rest h⟩
  rw [BP_Decode_eq_outcome, BP_DecodeOut_badHeader b0 b1 rest h]
  rfl

theorem decode_bad_header_witness :
    ¬ ((1 : Nat) = 0 ∧ (0 : Nat) = 0) ∧
    (BP_Decode (1 :: 0 :: [32, 7]) = .error .badHeader ∧
      BP_DecodeOut (1 :: 0 :: [32, 7]) = ([], some .badHeader)) :=
  ⟨by decide, decode_bad_header 1 0 [32, 7] (by decide)⟩

/-- C14, as stated, fails: on the stream `00 00 01 | 07 08 | 00 03 | 05 | 05 06`
(a pair table with one pair, then a block record that declares 3 data bytes
and has 2) `BP_Decode` takes no failure exit; the run ends in a read outside
the input, which is undefined behaviour of the source. -/
theorem decode_truncated_counterexample :
    BP_Decode [0, 0, 1, 7, 8, 0, 3, 5, 5, 6] = .error .undefined ∧
      BP_Decode [0, 0, 1, 7, 8, 0, 3, 5, 5, 6] ≠ .error .badHeader ∧
      BP_DecodeOut [0, 0, 1, 7, 8, 0, 3, 5, 5, 6] = ([], some .undefined) :=
  ⟨rfl, BP_Decode_ne_badHeader _ rfl rfl, rfl⟩

/-- C14, amended. For every input made of a valid pair-table record,
well-formed records and then a block record whose declared non-zero size,
with its key array, extends past the end of the input, `BP_Decode` has no
bounds check and no `Truncated` exit: having written the output of the
records before it, it reads outside the input while it copies the data of
that block (undefined behaviour of the source). -/
theorem decode_truncated (pairs : List (Nat × Nat)) (recs : List Record) (hi lo : Nat)
    (rest : List Nat) (hN : pairs.length < 256) (hwf : WellFormed pairs.length recs)
    (hS : (hi <<< 8 ||| lo) ≠ 0)
    (hshort : rest.length < (lastTable pairs recs).length + (hi <<< 8 ||| lo)) :
    BP_DecodeOut (streamOf (Record.table pairs :: recs) ++ hi :: lo :: rest) =
        (decodeRecords pairs recs, some .undefined) ∧
      BP_Decode (streamOf (Record.table pairs :: recs) ++ hi :: lo :: rest) =
        .error .undefined := by
  have h := BP_DecodeOut_truncated pairs recs hi lo rest hN hwf hS hshort
  refine ⟨h, ?_⟩
  rw [BP_Decode_eq_outcome, h]
  rfl

theorem decode_truncated_witness :
    [(7, 8)].length < 256 ∧ WellFormed [(7, 8)].length [Record.block [5] [5]] ∧
    ((0 : Nat) <<< 8 ||| 3) ≠ 0 ∧
    [5, 5, 6].length < (lastTable [(7, 8)] [Record.block [5] [5]]).length + (0 <<< 8 ||| 3) ∧
    (BP_DecodeOut (streamOf (Record.table [(7, 8)] :: [Record.block [5] [5]]) ++
          0 :: 3 :: [5, 5, 6]) =
        (decodeRecords [(7, 8)] [Record.block [5] [5]], some .undefined) ∧
      BP_Decode (streamOf (Record.table [(7, 8)] :: [Record.block [5] [5]]) ++
          0 :: 3 :: [5, 5, 6]) = .error .undefined) :=
  ⟨by decide, ⟨rfl, by decide, by decide, trivial⟩, by decide, by decide,
    decode_truncated [(7, 8)] [Record.block [5] [5]] 0 3 [5, 5, 6] (by decide)
      ⟨rfl, by decide, by decide, trivial⟩ (by decide) (by decide)⟩

set_option maxRecDepth 100000 in
/-- C15, as stated, fails: a pair-table record that stores `NumSubs = 0`, and
one that stores `NumSubs = 129`, are accepted, and the block after them is
decoded. -/
theorem decode_numSubs_counterexample :
    BP_Decode [0, 0, 0, 0, 1, 65] = .ok [65] ∧
      BP_Decode ([0, 0, 129] ++ List.replicate 258 7 ++ [0, 1] ++ List.replicate 129 9 ++ [65])
        = .ok [65] :=
  ⟨rfl, by rfl⟩

/-- C15, amended. For every input whose first two bytes are `0x00 0x00`,
`BP_Decode` does not take its exit "Bad input" whatever `NumSubs` the
pair-table records store: the count is used as read, and a well-formed stream
with any count that fits the byte (0 and the values above 128 included) is
decoded. -/
theorem decode_numSubs (data : List Nat) (pairs : List (Nat × Nat)) (recs : List Record)
    (h0 : data[0]? = some 0) (h1 : data[1]? = some 0) (hN : pairs.length < 256)
    (hwf : WellFormed pairs.length recs) :
    BP_Decode data ≠ .error .badHeader ∧
      BP_Decode (streamOf (Record.table pairs :: recs)) = .ok (decodeRecords pairs recs) :=
  ⟨BP_Decode_ne_badHeader data h0 h1, BP_Decode_records pairs recs hN hwf⟩

theorem decode_numSubs_witness :
    ([0, 0, 200, 1] : List Nat)[0]? = some 0 ∧ ([0, 0, 200, 1] : List Nat)[1]? = some 0 ∧
    ([] : List (Nat × Nat)).length < 256 ∧
    WellFormed ([] : List (Nat × Nat)).length [Record.block [] [65]] ∧
    (BP_Decode [0, 0, 200, 1] ≠ .error .badHeader ∧
      BP_Decode (streamOf (Record.table [] :: [Record.block [] [65]])) =
        .ok (decodeRecords [] [Record.block [] [65]])) :=
  ⟨rfl, rfl, by decide, ⟨rfl, by decide, by decide, trivial⟩,
    decode_numSubs [0, 0, 200, 1] [] [Record.block [] [65]] rfl rfl (by decide)
      ⟨rfl, by decide, by decide, trivial⟩⟩

/-- C16, as stated, fails: on the input of length zero the encoder `main`
returns, with the empty output stream. -/
theorem encode_empty_counterexample : encodeFile1 [] = .ok [] :=
  rfl

/-- C16, amended. On the input of length zero the partition loop of `main`
does not call the constructor and builds no block, `BP_Encode1` writes nothing
and the encoder returns with an empty output stream.  The constructor itself
takes its exit `rawSize == 0` when it is called on an empty remaining input,
and on no other input. -/
theorem encode_empty :
    partition [] = .ok [] ∧ BP_Encode1 [] = .ok [] ∧ encodeFile1 [] = .ok [] ∧
      mkBlock [] = .error .emptyBlock ∧
      ∀ b rest, mkBlock (b :: rest) ≠ .error .emptyBlock := by
  refine ⟨rfl, rfl, rfl, rfl, ?_⟩
  intro b rest h
  obtain ⟨n, tbl, _, _, _, _, hmk⟩ := mkBlock_cons b rest
  rw [hmk] at h
  cases h

set_option maxRecDepth 100000 in
/-- C17. Deterministic key allocation: for every input of bytes and every
block of its partition, the keys `subs[0..32)` after the 32 passes (of
`BP_Encode1`, and of `BP_Encode2`) are the first 32 elements of the descending
list of the byte values that do not occur in the block's original data, so
`subs[k]` is the `(k+1)`-th largest of them.  On the input "AAAAAAAA" the
partition is one block, the first pass selects `('A', 'A')` and uses the key
`0xFF`. -/
theorem key_order (X : List Nat) (hX : IsBytes X) :
    (∃ blocks, partition X = .ok blocks ∧
      (∀ blk ∈ blocks, ∃ blk' pairs, passLoop1 NUMPASSES 0 blk [] = .ok (blk', pairs) ∧
        blk'.subs = (((List.range 256).filter (fun j => decide (j ∉ blk.data))).reverse).take
          NUMPASSES) ∧
      (∃ blocks' pairs, passLoop2 NUMPASSES 0 blocks [] = .ok (blocks', pairs) ∧
        List.Forall₂ (fun blk blk' : Block => blk'.subs =
          (((List.range 256).filter (fun j => decide (j ∉ blk.data))).reverse).take NUMPASSES)
          blocks blocks')) ∧
    (∃ blk blk1, partition [65, 65, 65, 65, 65, 65, 65, 65] = .ok [blk] ∧
      GetBestPair blk.data = .ok (65, 65) ∧
      passLoop1 1 0 blk [] = .ok (blk1, [(65, 65)]) ∧ blk1.subs = [0xFF]) := by
  constructor
  · obtain ⟨blocks, hp, _⟩ := partition_ok X
    have hinit := partition_mem X hX blocks hp
    refine ⟨blocks, hp, ?_, ?_⟩
    · intro blk hblk
      obtain ⟨blk', pairs, h1, hinv, _⟩ := encodeBlock1_ok (hinit blk hblk)
      refine ⟨blk', pairs, h1, ?_⟩
      rw [hinv.subs_eq, (hinit blk hblk).unused_eq]
    · obtain ⟨blocks', pairs, h1, h2, _⟩ := passLoop2_ok NUMPASSES 0 blocks []
        (allInv_init blocks hinit) (by omega) rfl
      rw [Nat.zero_add] at h2
      refine ⟨blocks', pairs, h1, List.Forall₂.imp ?_ h2⟩
      intro blk blk' h
      rw [h.2.subs_eq, h.1.unused_eq]
  · refine ⟨⟨[65, 65, 65, 65, 65, 65, 65, 65], List.range 65 ++ List.range' 66 190, []⟩, _,
      by rfl, GetBestPair_run8,
      passLoop1_one _ (65, 65) 255 GetBestPair_run8 (by rfl) rfl, rfl⟩

theorem key_order_witness :
    IsBytes [65, 66, 65, 66] ∧
    ((∃ blocks, partition [65, 66, 65, 66] = .ok blocks ∧
      (∀ blk ∈ blocks, ∃ blk' pairs, passLoop1 NUMPASSES 0 blk [] = .ok (blk', pairs) ∧
        blk'.subs = (((List.range 256).filter (fun j => decide (j ∉ blk.data))).reverse).take
          NUMPASSES) ∧
      (∃ blocks' pairs, passLoop2 NUMPASSES 0 blocks [] = .ok (blocks', pairs) ∧
        List.Forall₂ (fun blk blk' : Block => blk'.subs =
          (((List.range 256).filter (fun j => decide (j ∉ blk.data))).reverse).take NUMPASSES)
          blocks blocks')) ∧
    (∃ blk blk1, partition [65, 65, 65, 65, 65, 65, 65, 65] = .ok [blk] ∧
      GetBestPair blk.data = .ok (65, 65) ∧
      passLoop1 1 0 blk [] = .ok (blk1, [(65, 65)]) ∧ blk1.subs = [0xFF])) :=
  ⟨by decide, key_order [65, 66, 65, 66] (by decide)⟩

/-- C18. For every non-empty remaining input `R` the constructor returns, and
the block it takes is the shortest non-empty prefix of `R` that is all of `R`,
or has 65,535 bytes, or contains exactly `256 - NUMPASSES = 224` distinct byte
values. -/
theorem block_shortest_prefix (R : List Nat) (hne : R ≠ []) :
    ∃ blk rest n, mkBlock R = .ok (blk, rest) ∧ blk.data = R.take n ∧ rest = R.drop n ∧
      1 ≤ n ∧ n ≤ R.length ∧ StopAt R n ∧ ∀ m, 1 ≤ m → m < n → ¬ StopAt R m := by
  cases R with
  | nil => exact absurd rfl hne
  | cons b rest =>
    obtain ⟨n, h1, h2, hmk, hs, hmin⟩ := mkBlock_shortest b rest
    exact ⟨_, _, n, hmk, rfl, rfl, h1, h2, hs, hmin⟩

theorem block_shortest_prefix_witness :
    ([7, 7, 9] : List Nat) ≠ [] ∧
    ∃ blk rest n, mkBlock [7, 7, 9] = .ok (blk, rest) ∧ blk.data = [7, 7, 9].take n ∧
      rest = [7, 7, 9].drop n ∧ 1 ≤ n ∧ n ≤ [7, 7, 9].length ∧ StopAt [7, 7, 9] n ∧
      ∀ m, 1 ≤ m → m < n → ¬ StopAt [7, 7, 9] m :=
  ⟨by decide, block_shortest_prefix [7, 7, 9] (by decide)⟩

set_option maxRecDepth 100000 in
/-- C19, as stated, fails: on the 225 bytes `0, 1, .., 223, 0` the partition
is a block of the first 224 bytes and a block of the last byte, although the
whole input, the first block extended by the next byte, still has 32 unused
byte values. -/
theorem partition_stops_early :
    partition (List.range 224 ++ [0]) =
        .ok [⟨List.range 224, List.range' 224 32, []⟩, ⟨[0], List.range' 1 255, []⟩] ∧
      ((List.range 256).filter (fun j => decide (j ∉ List.range 224 ++ [0]))).length
        = NUMPASSES :=
  ⟨by rfl, by rfl⟩

/-- C20. Monotonic shrinkage: a call of `DoSubs` on a block with a non-empty
`unused` leaves `data` no longer than it was, and strictly shorter when the
pair occurs in it at least once; and for every input of bytes, every block of
its partition and every pass `k < 32` of `BP_Encode1`, the data after the pass
is no longer than before it, and strictly shorter when the pair selected in
that pass occurs at least once in the data before it. -/
theorem data_shrinks (X : List Nat) (hX : IsBytes X) :
    (∀ (blk : Block) (sub first second back key : Nat),
      blk.unused.getLast? = some back → (blk.subs ++ [back])[sub]? = some key →
      ∃ blk', DoSubs blk sub first second = .ok blk' ∧
        blk'.data.length ≤ blk.data.length ∧
        (1 ≤ pairOccurrences first second blk.data → blk'.data.length < blk.data.length)) ∧
    ∃ blocks, partition X = .ok blocks ∧
      ∀ blk ∈ blocks, ∃ blk' pairs, passLoop1 NUMPASSES 0 blk [] = .ok (blk', pairs) ∧
        ∀ k, k < NUMPASSES →
          ∃ blk_k blk_k1, passLoop1 k 0 blk [] = .ok (blk_k, pairs.take k) ∧
            GetBestPair blk_k.data = .ok (pairs.getD k (0, 0)) ∧
            passLoop1 (k + 1) 0 blk [] = .ok (blk_k1, pairs.take (k + 1)) ∧
            blk_k1.data.length ≤ blk_k.data.length ∧
            (1 ≤ pairOccurrences (pairs.getD k (0, 0)).1 (pairs.getD k (0, 0)).2 blk_k.data →
              blk_k1.data.length < blk_k.data.length) := by
  constructor
  · intro blk sub first second back key hback hkey
    refine ⟨_, DoSubs_of_getLast blk sub first second back key hback hkey,
      greedyRewrite_length_le _ _ _ _, ?_⟩
    intro hocc
    exact greedyRewrite_length_lt _ _ _ _ (pairOccurrences_pos _ _ _ hocc)
  · obtain ⟨blocks, hp, _⟩ := partition_ok X
    have hinit := partition_mem X hX blocks hp
    refine ⟨blocks, hp, ?_⟩
    intro blk hblk
    have h0 := hinit blk hblk
    obtain ⟨blk', pairs, hrun, hinv32, _⟩ := encodeBlock1_ok h0
    refine ⟨blk', pairs, hrun, ?_⟩
    intro k hk
    obtain ⟨blk_k, h1, hinv, hg, _, _⟩ := passLoop1_pass h0 hrun k hk
    obtain ⟨key, _, _, hdo, _⟩ := DoSubs_step h0 hinv
      (by have := h0.unused_len; omega) (pairs.getD k (0, 0)).1 (pairs.getD k (0, 0)).2
    have htake : pairs.take (k + 1) = pairs.take k ++ [pairs.getD k (0, 0)] := by
      have hlt : k < pairs.length := by rw [hinv32.pairs_len]; exact hk
      rw [List.take_succ, List.getD_eq_getElem?_getD, List.getElem?_eq_getElem hlt]
      rfl
    refine ⟨blk_k, ⟨greedyRewrite (pairs.getD k (0, 0)).1 (pairs.getD k (0, 0)).2 key
      blk_k.data, blk_k.unused.dropLast, blk_k.subs ++ [key]⟩, h1, hg, ?_,
      greedyRewrite_length_le _ _ key blk_k.data, ?_⟩
    · rw [passLoop1_add k 1 0 blk [], h1, htake]
      simp only [Nat.zero_add, passLoop1, hg, hdo]
    · intro hocc
      exact greedyRewrite_length_lt _ _ _ _ (pairOccurrences_pos _ _ _ hocc)

theorem data_shrinks_witness :
    IsBytes [65, 66, 65, 66] ∧
    ((∀ (blk : Block) (sub first second back key : Nat),
      blk.unused.getLast? = some back → (blk.subs ++ [back])[sub]? = some key →
      ∃ blk', DoSubs blk sub first second = .ok blk' ∧
        blk'.data.length ≤ blk.data.length ∧
        (1 ≤ pairOccurrences first second blk.data → blk'.data.length < blk.data.length)) ∧
    ∃ blocks, partition [65, 66, 65, 66] = .ok blocks ∧
      ∀ blk ∈ blocks, ∃ blk' pairs, passLoop1 NUMPASSES 0 blk [] = .ok (blk', pairs) ∧
        ∀ k, k < NUMPASSES →
          ∃ blk_k blk_k1, passLoop1 k 0 blk [] = .ok (blk_k, pairs.take k) ∧
            GetBestPair blk_k.data = .ok (pairs.getD k (0, 0)) ∧
            passLoop1 (k + 1) 0 blk [] = .ok (blk_k1, pairs.take (k + 1)) ∧
            blk_k1.data.length ≤ blk_k.data.length ∧
            (1 ≤ pairOccurrences (pairs.getD k (0, 0)).1 (pairs.getD k (0, 0)).2 blk_k.data →
              blk_k1.data.length < blk_k.data.length)) :=
  ⟨by decide, data_shrinks [65, 66, 65, 66] (by decide)⟩

/-! ## Counting pairs along the list -/

theorem occ_cons (a b x : Nat) (l : List Nat) :
    occ a b (x :: l) = (if x = a ∧ l.head? = some b then 1 else 0) + occ a b l := by
  cases l with
  | nil => simp [occ]
  | cons y rest => simp [occ]

theorem pairOccurrences_cons (a b x : Nat) (l : List Nat) :
    pairOccurrences a b (x :: l) =
      (if x = a ∧ l.head? = some b then 1 else 0) + pairOccurrences a b l := by
  cases l with
  | nil => simp [pairOccurrences]
  | cons y rest =>
    unfold pairOccurrences
    simp only [List.length_cons, Nat.add_sub_cancel]
    rw [← List.countP_eq_length_filter, ← List.countP_eq_length_filter,
      List.range_succ_eq_map, List.countP_cons, List.countP_map]
    have e : List.countP ((fun i => decide ((x :: y :: rest)[i]? = some a ∧
        (x :: y :: rest)[i + 1]? = some b)) ∘ Nat.succ) (List.range rest.length) =
        List.countP (fun i => decide ((y :: rest)[i]? = some a ∧ (y :: rest)[i + 1]? = some b))
          (List.range rest.length) := by
      apply List.countP_congr
      intro i _
      simp
    rw [e, Nat.add_comm]
    congr 1
    simp

theorem pairOccurrences_eq_occ (a b : Nat) (s : List Nat) : pairOccurrences a b s = occ a b s := by
  induction s with
  | nil => rfl
  | cons x l ih => rw [pairOccurrences_cons, occ_cons, ih]

theorem mem_zip_of_occ_pos (a b : Nat) (s : List Nat) (h : 1 ≤ occ a b s) :
    (a, b) ∈ s.zip s.tail := by
  induction s with
  | nil => simp [occ] at h
  | cons x l ih =>
    cases l with
    | nil => simp [occ] at h
    | cons y rest =>
      simp only [occ] at h
      simp only [List.tail_cons, List.zip_cons_cons, List.mem_cons, Prod.mk.injEq]
      by_cases hxy : x = a ∧ y = b
      · left; exact ⟨hxy.1.symm, hxy.2.symm⟩
      · right
        rw [if_neg hxy, Nat.zero_add] at h
        have := ih h
        simpa using this

/-! ## Determining the pair the scanner returns -/

theorem GetBestPair_eq_of (s : List Nat) (hs : IsBytes s) (h1 : 1 ≤ s.length)
    (h2 : s.length ≤ 65535) (a b : Nat) (ha : a < 256) (hb : b < 256)
    (hmax : ∀ a' b', a' < 256 → b' < 256 → pairOccurrences a' b' s ≤ pairOccurrences a b s)
    (hmin : ∀ a' b', a' < 256 → b' < 256 → pairOccurrences a' b' s = pairOccurrences a b s →
      a * 256 + b ≤ a' * 256 + b') :
    GetBestPair s = .ok (a, b) := by
  obtain ⟨a0, b0, hg, ha0, hb0, hmax0, hmin0⟩ := GetBestPair_spec s hs h1 h2
  have e1 := hmax a0 b0 ha0 hb0
  have e2 := hmax0 a b ha hb
  have e : pairOccurrences a0 b0 s = pairOccurrences a b s := Nat.le_antisymm e1 e2
  have i1 := hmin a0 b0 ha0 hb0 e
  have i2 := hmin0 a b ha hb e.symm
  rw [shiftLeft_or_eq _ _ hb0, shiftLeft_or_eq _ _ hb] at i2
  have : a0 = a ∧ b0 = b := by constructor <;> omega
  rw [hg, this.1, this.2]

/-- A decidable criterion: the pair occurs, and no adjacent pair of `s` has
a greater count, or an equal count and a lower index. -/
theorem GetBestPair_of_cands (s : List Nat) (hs : IsBytes s) (h2 : s.length ≤ 65535)
    (a b : Nat) (ha : a < 256) (hb : b < 256) (hpos : 1 ≤ occ a b s)
    (hc : ∀ c ∈ s.zip s.tail, occ c.1 c.2 s ≤ occ a b s ∧
      (occ c.1 c.2 s = occ a b s → a * 256 + b ≤ c.1 * 256 + c.2)) :
    GetBestPair s = .ok (a, b) := by
  have hlen : 1 ≤ s.length := by
    cases s with
    | nil => simp [occ] at hpos
    | cons x l => simp
  apply GetBestPair_eq_of s hs hlen h2 a b ha hb
  · intro a' b' _ _
    rw [pairOccurrences_eq_occ, pairOccurrences_eq_occ]
    by_cases h0 : 1 ≤ occ a' b' s
    · exact (hc (a', b') (mem_zip_of_occ_pos a' b' s h0)).1
    · omega
  · intro a' b' _ _ heq
    rw [pairOccurrences_eq_occ, pairOccurrences_eq_occ] at heq
    exact (hc (a', b') (mem_zip_of_occ_pos a' b' s (by omega))).2 heq

theorem GetBestPair_zero (s : List Nat) (hs : IsBytes s) (h1 : 1 ≤ s.length)
    (h2 : s.length ≤ 65535) (h0 : ∀ a b, pairOccurrences a b s = 0) :
    GetBestPair s = .ok (0, 0) := by
  apply GetBestPair_eq_of s hs h1 h2 0 0 (by decide) (by decide)
  · intro a' b' _ _; rw [h0, h0]
  · intro a' b' _ _ _; omega

theorem GetBestPair_single (x : Nat) (hx : x < 256) : GetBestPair [x] = .ok (0, 0) := by
  apply GetBestPair_zero [x] (by intro b hb; simp at hb; omega) (by simp) (by simp)
  intro a b
  rfl

/-! ## Evaluating the pass loop -/

theorem passLoop1_step (n sub : Nat) (blk : Block) (pairs : List (Nat × Nat))
    (p : Nat × Nat) (back : Nat) (hg : GetBestPair blk.data = .ok p)
    (hback : blk.unused.getLast? = some back) (hsub : sub = blk.subs.length) :
    passLoop1 (n + 1) sub blk pairs =
      passLoop1 n (sub + 1)
        ⟨greedyRewrite p.1 p.2 back blk.data, blk.unused.dropLast, blk.subs ++ [back]⟩
        (pairs ++ [p]) := by
  have hd := DoSubs_of_getLast blk sub p.1 p.2 back back hback (by simp [hsub])
  simp only [passLoop1, hg, hd]

/-- Passes on a block whose data is one byte: each selects `(0, 0)`, pops a
key and leaves the data as it is. -/
theorem passLoop1_idle (ks : List Nat) (u subs : List Nat) (pairs : List (Nat × Nat))
    (x : Nat) (hx : x < 256) :
    passLoop1 ks.length subs.length ⟨[x], u ++ ks.reverse, subs⟩ pairs =
      .ok (⟨[x], u, subs ++ ks⟩, pairs ++ List.replicate ks.length (0, 0)) := by
  induction ks generalizing subs pairs with
  | nil => simp [passLoop1]
  | cons k ks ih =>
    have hu : u ++ (k :: ks).reverse = (u ++ ks.reverse) ++ [k] := by simp
    rw [List.length_cons, passLoop1_step ks.length subs.length _ pairs (0, 0) k
      (GetBestPair_single x hx) (by simp) rfl]
    simp only [hu, List.dropLast_concat, greedyRewrite]
    have hl : subs.length + 1 = (subs ++ [k]).length := by simp
    rw [hl, ih]
    simp [List.replicate_succ]

/-! ## Blocks of per-block mode decode on their own -/

theorem encodeBlock1_decodes {blk0 : Block} (h0 : BlockInit blk0) :
    ∃ s, encodeBlock1 blk0 = .ok s ∧ BP_Decode s = .ok blk0.data := by
  obtain ⟨blk', pairs, _, hinv, henc⟩ := encodeBlock1_ok h0
  refine ⟨_, henc, ?_⟩
  have hwf : WellFormed pairs.length [Record.block blk'.subs blk'.data] :=
    ⟨by rw [hinv.subs_len, hinv.pairs_len], hinv.data_pos,
      Nat.le_trans hinv.data_le h0.data_le, trivial⟩
  rw [BP_Decode_records pairs _ (by rw [hinv.pairs_len]; decide) hwf]
  simp only [decodeRecords, List.append_nil]
  rw [hinv.pairs_len, hinv.decode]

theorem BP_Encode1_independent (blocks : List Block) (h : ∀ blk ∈ blocks, BlockInit blk) :
    ∃ streams, List.Forall₂ (fun blk s => encodeBlock1 blk = .ok s ∧
        BP_Decode s = .ok blk.data) blocks streams ∧
      BP_Encode1 blocks = .ok streams.flatten := by
  induction blocks with
  | nil => exact ⟨[], List.Forall₂.nil, rfl⟩
  | cons blk blks ih =>
    obtain ⟨streams, h1, h2⟩ := ih (fun b hb => h b (List.mem_cons_of_mem _ hb))
    obtain ⟨s, hs1, hs2⟩ := encodeBlock1_decodes (h blk (List.mem_cons_self _ _))
    exact ⟨s :: streams, List.Forall₂.cons ⟨hs1, hs2⟩ h1, by
      simp only [BP_Encode1, hs1, h2, List.flatten_cons]⟩

/-- C21. Type 1 blocks are independent: for every input of bytes, the stream
of `main` with `BP_Encode1` is the concatenation, block by block, of the bytes
written for each block (its pair-table record and its block record), and these
bytes, decoded on their own by `BP_Decode`, give exactly that block's original
data. -/
theorem blocks_independent (X : List Nat) (hX : IsBytes X) :
    ∃ blocks streams, partition X = .ok blocks ∧ (X ≠ [] → blocks ≠ []) ∧
      List.Forall₂ (fun blk s => encodeBlock1 blk = .ok s ∧ BP_Decode s = .ok blk.data)
        blocks streams ∧
      encodeFile1 X = .ok streams.flatten := by
  obtain ⟨blocks, hp, _⟩ := partition_ok X
  have hinit := partition_mem X hX blocks hp
  obtain ⟨streams, h1, h2⟩ := BP_Encode1_independent blocks hinit
  exact ⟨blocks, streams, hp, fun hne => partition_ne_nil X hne blocks hp, h1,
    by simp only [encodeFile1, hp, h2]⟩

theorem blocks_independent_witness :
    IsBytes [65, 66, 65, 66] ∧
    ∃ blocks streams, partition [65, 66, 65, 66] = .ok blocks ∧
      (([65, 66, 65, 66] : List Nat) ≠ [] → blocks ≠ []) ∧
      List.Forall₂ (fun blk s => encodeBlock1 blk = .ok s ∧ BP_Decode s = .ok blk.data)
        blocks streams ∧
      encodeFile1 [65, 66, 65, 66] = .ok streams.flatten :=
  ⟨by decide, blocks_independent [65, 66, 65, 66] (by decide)⟩

set_option maxRecDepth 100000 in
theorem abab_pass0 :
    passLoop1 1 0 ⟨[65, 66, 65, 66, 65, 66, 65, 66], List.range 65 ++ List.range' 67 189, []⟩ []
      = .ok (⟨[255, 255, 255, 255], List.range 65 ++ List.range' 67 188, [255]⟩, [(65, 66)]) := by
  have hg : GetBestPair [65, 66, 65, 66, 65, 66, 65, 66] = .ok (65, 66) :=
    GetBestPair_of_cands _ (by decide) (by decide) 65 66 (by decide) (by decide) (by decide)
      (by decide)
  rw [passLoop1_step 0 0
    ⟨[65, 66, 65, 66, 65, 66, 65, 66], List.range 65 ++ List.range' 67 189, []⟩ [] (65, 66) 255
    hg (by rfl) rfl]
  rfl

set_option maxRecDepth 100000 in
theorem abab_pass1 (n : Nat) :
    passLoop1 (n + 2) 0
        ⟨[65, 66, 65, 66, 65, 66, 65, 66], List.range 65 ++ List.range' 67 189, []⟩ []
      = passLoop1 n 2 ⟨[254, 254], List.range 65 ++ List.range' 67 187, [255, 254]⟩
          [(65, 66), (255, 255)] := by
  have hg : GetBestPair [65, 66, 65, 66, 65, 66, 65, 66] = .ok (65, 66) :=
    GetBestPair_of_cands _ (by decide) (by decide) 65 66 (by decide) (by decide) (by decide)
      (by decide)
  have hg1 : GetBestPair [255, 255, 255, 255] = .ok (255, 255) :=
    GetBestPair_of_cands _ (by decide) (by decide) 255 255 (by decide) (by decide) (by decide)
      (by decide)
  rw [passLoop1_step (n + 1) 0
    ⟨[65, 66, 65, 66, 65, 66, 65, 66], List.range 65 ++ List.range' 67 189, []⟩ [] (65, 66) 255
    hg (by rfl) rfl]
  have e1 : (⟨greedyRewrite 65 66 255 [65, 66, 65, 66, 65, 66, 65, 66],
      (List.range 65 ++ List.range' 67 189).dropLast, [] ++ [255]⟩ : Block) =
      ⟨[255, 255, 255, 255], List.range 65 ++ List.range' 67 188, [255]⟩ := by rfl
  simp only [e1]
  rw [passLoop1_step n 1 ⟨[255, 255, 255, 255], List.range 65 ++ List.range' 67 188, [255]⟩ _
    (255, 255) 254 hg1 (by rfl) rfl]
  have e2 : (⟨greedyRewrite 255 255 254 [255, 255, 255, 255],
      (List.range 65 ++ List.range' 67 188).dropLast, [255] ++ [254]⟩ : Block) =
      ⟨[254, 254], List.range 65 ++ List.range' 67 187, [255, 254]⟩ := by rfl
  simp only [e2]
  rfl

set_option maxRecDepth 100000 in
theorem abab_partition :
    partition [65, 66, 65, 66, 65, 66, 65, 66] =
      .ok [⟨[65, 66, 65, 66, 65, 66, 65, 66], List.range 65 ++ List.range' 67 189, []⟩] := by
  rfl

theorem abab_best0 : GetBestPair [65, 66, 65, 66, 65, 66, 65, 66] = .ok (65, 66) :=
  GetBestPair_of_cands _ (by decide) (by decide) 65 66 (by decide) (by decide) (by decide)
    (by decide)

theorem abab_best1 : GetBestPair [255, 255, 255, 255] = .ok (255, 255) :=
  GetBestPair_of_cands _ (by decide) (by decide) 255 255 (by decide) (by decide) (by decide)
    (by decide)

theorem abab_best2 : GetBestPair [254, 254] = .ok (254, 254) :=
  GetBestPair_of_cands _ (by decide) (by decide) 254 254 (by decide) (by decide) (by decide)
    (by decide)

set_option maxRecDepth 100000 in
theorem abab_pass2 :
    passLoop1 2 0 ⟨[65, 66, 65, 66, 65, 66, 65, 66], List.range 65 ++ List.range' 67 189, []⟩ []
      = .ok (⟨[254, 254], List.range 65 ++ List.range' 67 187, [255, 254]⟩,
          [(65, 66), (255, 255)]) := by
  rw [abab_pass1 0]
  rfl

set_option maxRecDepth 100000 in
/-- The 32 passes on the block of "ABABABAB": three substitutions, then 29
passes that select `(0, 0)` on the one byte left. -/
theorem abab_pass32 :
    passLoop1 32 0 ⟨[65, 66, 65, 66, 65, 66, 65, 66], List.range 65 ++ List.range' 67 189, []⟩ []
      = .ok (⟨[253], List.range 65 ++ List.range' 67 157, (List.range' 224 32).reverse⟩,
          [(65, 66), (255, 255), (254, 254)] ++ List.replicate 29 (0, 0)) := by
  rw [abab_pass1 30]
  rw [passLoop1_step 29 2 ⟨[254, 254], List.range 65 ++ List.range' 67 187, [255, 254]⟩ _
    (254, 254) 253 abab_best2 (by rfl) rfl]
  have e : (⟨greedyRewrite 254 254 253 [254, 254],
      (List.range 65 ++ List.range' 67 187).dropLast, [255, 254] ++ [253]⟩ : Block) =
      ⟨[253], (List.range 65 ++ List.range' 67 157) ++ ((List.range' 224 29).reverse).reverse,
        [255, 254, 253]⟩ := by rfl
  simp only [e]
  have h := passLoop1_idle (List.range' 224 29).reverse (List.range 65 ++ List.range' 67 157)
    [255, 254, 253] ([(65, 66), (255, 255)] ++ [(254, 254)]) 253 (by decide)
  have hl : ((List.range' 224 29).reverse).length = 29 := by simp
  rw [hl] at h
  have h3 : ([255, 254, 253] : List Nat).length = 2 + 1 := rfl
  rw [h3] at h
  rw [h]
  rfl

/-- C22. On the input "ABABABAB" (one block) the first pass selects the pair
`('A', 'B')`, the block data after that pass is four copies of one key `K`
(the byte 255), and the second pass selects the pair `(K, K)`. -/
theorem abab_two_passes :
    ∃ blk blk1 blk2 K, partition [65, 66, 65, 66, 65, 66, 65, 66] = .ok [blk] ∧
      GetBestPair blk.data = .ok (65, 66) ∧
      passLoop1 1 0 blk [] = .ok (blk1, [(65, 66)]) ∧
      blk1.subs = [K] ∧ blk1.data = [K, K, K, K] ∧
      GetBestPair blk1.data = .ok (K, K) ∧
      passLoop1 2 0 blk [] = .ok (blk2, [(65, 66), (K, K)]) :=
  ⟨_, _, _, 255, abab_partition, abab_best0, abab_pass0, rfl, rfl, abab_best1, abab_pass2⟩

set_option maxRecDepth 100000 in
theorem abab_ascending :
    expandAscending (List.range' 224 32).reverse
      ([(65, 66), (255, 255), (254, 254)] ++ List.replicate 29 (0, 0)) 32 [253] = [254, 254] := by
  rfl

set_option maxRecDepth 100000 in
theorem abab_descending :
    expandAll (List.range' 224 32).reverse
      ([(65, 66), (255, 255), (254, 254)] ++ List.replicate 29 (0, 0)) 32 [253] =
      [65, 66, 65, 66, 65, 66, 65, 66] := by
  rfl

theorem abab_decode :
    ∃ s, encodeFile1 [65, 66, 65, 66, 65, 66, 65, 66] = .ok s ∧
      BP_Decode s = .ok [65, 66, 65, 66, 65, 66, 65, 66] := by
  obtain ⟨blocks, s, hp, he, hd⟩ := decode_encode1 [65, 66, 65, 66, 65, 66, 65, 66] (by decide)
    (by decide)
  exact ⟨s, by simp only [encodeFile1, hp, he], hd⟩

/-- C24. Decoder reverse-order law, on the input X = "ABABABAB": the encoder
makes one block of X and its 32 passes leave the data `data`, the keys `subs`
and the pairs `pairs`; expanding `data` with these keys and pairs in ascending
pass order (k = 0 up to 31) does not give X, expanding them in descending
order gives X, and `BP_Decode` on the encoder's stream gives X. -/
theorem reverse_order_law :
    ∃ blk blk' pairs, partition [65, 66, 65, 66, 65, 66, 65, 66] = .ok [blk] ∧
      passLoop1 NUMPASSES 0 blk [] = .ok (blk', pairs) ∧
      expandAscending blk'.subs pairs NUMPASSES blk'.data ≠ [65, 66, 65, 66, 65, 66, 65, 66] ∧
      expandAll blk'.subs pairs NUMPASSES blk'.data = [65, 66, 65, 66, 65, 66, 65, 66] ∧
      ∃ s, encodeFile1 [65, 66, 65, 66, 65, 66, 65, 66] = .ok s ∧
        BP_Decode s = .ok [65, 66, 65, 66, 65, 66, 65, 66] :=
  ⟨_, _, _, abab_partition, abab_pass32,
    fun h => absurd (abab_ascending.symm.trans h) (by decide), abab_descending, abab_decode⟩

/-! ## One pass and its expansion -/

theorem DoSubs_expand (data u subs : List Nat) (first second key : Nat) (hkey : key ∉ data) :
    ∃ out, DoSubs ⟨data, u ++ [key], subs⟩ subs.length first second =
        .ok ⟨out, u, subs ++ [key]⟩ ∧
      expandKey key first second out = data ∧
      ∀ stream ks ps sub, read stream (ks + sub) = .ok key →
        read stream (ps + sub * 2) = .ok first → read stream (ps + (sub * 2 + 1)) = .ok second →
        expandPass stream ks ps sub out [] = .ok data := by
  refine ⟨greedyRewrite first second key data, ?_, expandKey_greedyRewrite first second key data
    hkey, ?_⟩
  · rw [DoSubs_of_getLast ⟨data, u ++ [key], subs⟩ subs.length first second key key (by simp)
      (by simp)]
    simp
  · intro stream ks ps sub h1 h2 h3
    rw [expandPass_ok stream ks ps sub key first second h1 h2 h3, List.nil_append,
      expandKey_greedyRewrite first second key data hkey]

/-- C27. One pass is invertible: for every data, pair `(first, second)` and
key that does not occur in data, `DoSubs` on a block with that data whose next
key (the back of `unused`) is `key` returns a block whose data `out`, with
every occurrence of `key` replaced by `first`, `second`, is `data` again; and
the expansion pass of `BP_Decode` that reads this key and pair from its stream
turns `out` into `data`. -/
theorem one_pass_invertible (data u subs : List Nat) (first second key : Nat)
    (hkey : key ∉ data) :
    ∃ out, DoSubs ⟨data, u ++ [key], subs⟩ subs.length first second =
        .ok ⟨out, u, subs ++ [key]⟩ ∧
      expandKey key first second out = data ∧
      ∀ stream ks ps sub, read stream (ks + sub) = .ok key →
        read stream (ps + sub * 2) = .ok first → read stream (ps + (sub * 2 + 1)) = .ok second →
        expandPass stream ks ps sub out [] = .ok data :=
  DoSubs_expand data u subs first second key hkey

theorem one_pass_invertible_witness :
    (7 : Nat) ∉ ([1, 2, 1, 2, 3] : List Nat) ∧
    ∃ out, DoSubs ⟨[1, 2, 1, 2, 3], [9] ++ [7], []⟩ ([] : List Nat).length 1 2 =
        .ok ⟨out, [9], [] ++ [7]⟩ ∧
      expandKey 7 1 2 out = [1, 2, 1, 2, 3] ∧
      ∀ stream ks ps sub, read stream (ks + sub) = .ok 7 →
        read stream (ps + sub * 2) = .ok 1 → read stream (ps + (sub * 2 + 1)) = .ok 2 →
        expandPass stream ks ps sub out [] = .ok [1, 2, 1, 2, 3] :=
  ⟨by decide, one_pass_invertible [1, 2, 1, 2, 3] [9] [] 1 2 7 (by decide)⟩

/-! ## Blocks that are the whole input, and passes that shorten the data -/

theorem PassInv.isBytes {blk0 blk : Block} {k : Nat} {pairs : List (Nat × Nat)}
    (h0 : BlockInit blk0) (hb : IsBytes blk0.data) (hinv : PassInv blk0 k blk pairs) :
    IsBytes blk.data := by
  intro x hx
  rcases hinv.data_mem x hx with h | h
  · exact hb x h
  · have := (hinv.keys h0 x h).1
    rw [h0.unused_eq, List.mem_filter, List.mem_range] at this
    exact this.1

theorem GetBestPair_occ_pos (s : List Nat) (hs : IsBytes s) (h2 : 2 ≤ s.length)
    (h3 : s.length ≤ 65535) :
    ∃ a b, GetBestPair s = .ok (a, b) ∧ a < 256 ∧ b < 256 ∧ 1 ≤ occ a b s ∧
      ∀ a' b', a' < 256 → b' < 256 → occ a' b' s ≤ occ a b s := by
  obtain ⟨a, b, hg, ha, hb, hmax, _⟩ := GetBestPair_spec s hs (by omega) h3
  refine ⟨a, b, hg, ha, hb, ?_, ?_⟩
  · match s, hs, h2, hmax with
    | x :: y :: rest, hs, _, hmax =>
      have h := hmax x y (hs x (by simp)) (hs y (by simp))
      rw [pairOccurrences_eq_occ, pairOccurrences_eq_occ] at h
      have : 1 ≤ occ x y (x :: y :: rest) := by simp [occ]
      omega
  · intro a' b' ha' hb'
    have h := hmax a' b' ha' hb'
    rwa [pairOccurrences_eq_occ, pairOccurrences_eq_occ] at h

theorem passLoop1_length_le {blk0 : Block} (h0 : BlockInit blk0) (n k : Nat) (blk : Block)
    (pairs : List (Nat × Nat)) (hinv : PassInv blk0 k blk pairs)
    (hk : k + n ≤ blk0.unused.length) :
    ∃ blk' pairs', passLoop1 n k blk pairs = .ok (blk', pairs') ∧
      PassInv blk0 (k + n) blk' pairs' ∧ blk'.data.length ≤ blk.data.length := by
  induction n generalizing k blk pairs with
  | zero => exact ⟨blk, pairs, rfl, hinv, Nat.le_refl _⟩
  | succ n ih =>
    have hgb := GetBestPair_ok blk.data hinv.data_pos (Nat.le_trans hinv.data_le h0.data_le)
    obtain ⟨p, hp⟩ : ∃ p, GetBestPair blk.data = .ok p := ⟨_, hgb⟩
    obtain ⟨key, _, _, hdo, hinv'⟩ := DoSubs_step h0 hinv (by omega) p.1 p.2
    obtain ⟨blk', pairs', h1, h2, h3⟩ := ih (k + 1) _ _ hinv' (by omega)
    refine ⟨blk', pairs', ?_, ?_, ?_⟩
    · simp only [passLoop1, hp, hdo, h1]
    · have e : k + (n + 1) = k + 1 + n := by omega
      rw [e]; exact h2
    · exact Nat.le_trans h3 (greedyRewrite_length_le _ _ _ _)

/-- The 32 passes on a block of two bytes or more leave less data than the
block had: the first pass selects a pair that occurs. -/
theorem passLoop1_shrinks {blk0 : Block} (h0 : BlockInit blk0) (hb : IsBytes blk0.data)
    (h2 : 2 ≤ blk0.data.length) :
    ∃ blk' pairs, passLoop1 NUMPASSES 0 blk0 [] = .ok (blk', pairs) ∧
      PassInv blk0 NUMPASSES blk' pairs ∧ blk'.data.length < blk0.data.length := by
  have hu : 32 ≤ blk0.unused.length := h0.unused_len
  obtain ⟨a, b, hg, _, _, hocc, _⟩ := GetBestPair_occ_pos blk0.data hb h2 h0.data_le
  obtain ⟨key, _, _, hdo, hinv'⟩ := DoSubs_step h0 (passInv_init h0) (by omega) a b
  obtain ⟨blk', pairs', h1, hinv, h3⟩ := passLoop1_length_le h0 31 1 _ _ hinv' (by omega)
  refine ⟨blk', pairs', ?_, hinv, ?_⟩
  · show passLoop1 (31 + 1) 0 blk0 [] = _
    simp only [passLoop1, hg, hdo]
    exact h1
  · rw [← pairOccurrences_eq_occ] at hocc
    have := greedyRewrite_length_lt a b key blk0.data (pairOccurrences_pos _ _ _ hocc)
    simp only at h3
    omega

theorem mkBlock_whole (b : Nat) (rest : List Nat) (hlen : (b :: rest).length ≤ 65535)
    (hcard : (b :: rest).toFinset.card < 256 - NUMPASSES) :
    ∃ u, mkBlock (b :: rest) = .ok (⟨b :: rest, u, []⟩, []) := by
  obtain ⟨n, h1, h2, hmk, hstop, _⟩ := mkBlock_shortest b rest
  have hn : n = (b :: rest).length := by
    rcases hstop with h | h | h
    · exact h
    · omega
    · exfalso
      have hsub : (List.take n (b :: rest)).toFinset ⊆ (b :: rest).toFinset := by
        intro x hx
        simp only [List.mem_toFinset] at hx ⊢
        exact List.mem_of_mem_take hx
      have := Finset.card_le_card hsub
      omega
  rw [hn, List.take_length, List.drop_length] at hmk
  exact ⟨_, hmk⟩

/-- An input of at most 65,535 bytes with fewer than 224 distinct values is
one block. -/
theorem partition_single (R : List Nat) (hne : R ≠ []) (hlen : R.length ≤ 65535)
    (hcard : R.toFinset.card < 256 - NUMPASSES) :
    ∃ u, partition R = .ok [⟨R, u, []⟩] := by
  cases R with
  | nil => exact absurd rfl hne
  | cons b rest =>
    obtain ⟨u, hmk⟩ := mkBlock_whole b rest hlen hcard
    refine ⟨u, ?_⟩
    simp only [partition, List.length_cons, partitionLoop, hmk]

theorem mem_flatten_replicate (n : Nat) (l : List Nat) (x : Nat)
    (h : x ∈ (List.replicate n l).flatten) : x ∈ l := by
  rw [List.mem_flatten] at h
  obtain ⟨l', h1, h2⟩ := h
  rw [List.eq_of_mem_replicate h1] at h2
  exact h2

theorem encodeFile1_single (X : List Nat) (hX : IsBytes X) (h2 : 2 ≤ X.length)
    (hlen : X.length ≤ 65535) (hcard : X.toFinset.card < 256 - NUMPASSES) :
    ∃ blk blk' pairs, partition X = .ok [blk] ∧ blk.data = X ∧
      passLoop1 NUMPASSES 0 blk [] = .ok (blk', pairs) ∧
      blk'.data.length < X.length ∧
      encodeFile1 X = .ok (tableBytes pairs ++ blockBytes blk'.subs blk'.data) := by
  have hne : X ≠ [] := by
    intro e; rw [e] at h2; simp at h2
  obtain ⟨u, hp⟩ := partition_single X hne hlen hcard
  have h0 : BlockInit ⟨X, u, []⟩ := partition_mem X hX _ hp _ (by simp)
  obtain ⟨blk', pairs, hrun, _, hlt⟩ := passLoop1_shrinks h0 hX h2
  refine ⟨_, blk', pairs, hp, rfl, hrun, hlt, ?_⟩
  obtain ⟨results, hf, henc⟩ := BP_Encode1_stream [⟨X, u, []⟩] (by
    intro blk hblk
    rw [List.mem_singleton] at hblk
    rw [hblk]; exact h0)
  cases hf with
  | cons hr htl =>
    cases htl
    rw [hrun] at hr
    have e := hr.2.1
    simp only [Except.ok.injEq] at e
    subst e
    simp only [encodeFile1, hp, henc, List.flatMap_cons, List.flatMap_nil, List.append_nil]

set_option maxRecDepth 100000 in
/-- C23. On the 1,024-byte input that is "abcdefgh" repeated 128 times, the
partition of `main` is exactly one block, which holds the whole input; the 32
passes of `BP_Encode1` leave that block with fewer than 1,024 bytes of data,
and this length is the `Size` field of the one block record written. -/
theorem abc_one_block :
    ((List.replicate 128 [97, 98, 99, 100, 101, 102, 103, 104]).flatten).length = 1024 ∧
    ∃ blk blk' pairs,
      partition (List.replicate 128 [97, 98, 99, 100, 101, 102, 103, 104]).flatten =
        .ok [blk] ∧
      blk.data = (List.replicate 128 [97, 98, 99, 100, 101, 102, 103, 104]).flatten ∧
      passLoop1 NUMPASSES 0 blk [] = .ok (blk', pairs) ∧
      blk'.data.length < 1024 ∧
      encodeFile1 (List.replicate 128 [97, 98, 99, 100, 101, 102, 103, 104]).flatten =
        .ok (tableBytes pairs ++ blockBytes blk'.subs blk'.data) := by
  have hlen : ((List.replicate 128 [97, 98, 99, 100, 101, 102, 103, 104]).flatten).length
      = 1024 := by simp
  refine ⟨hlen, ?_⟩
  have hmem := mem_flatten_replicate 128 [97, 98, 99, 100, 101, 102, 103, 104]
  have hX : IsBytes (List.replicate 128 [97, 98, 99, 100, 101, 102, 103, 104]).flatten := by
    intro x hx
    have := hmem x hx
    simp only [List.mem_cons, List.mem_singleton, List.not_mem_nil, or_false] at this
    omega
  have hcard : ((List.replicate 128 [97, 98, 99, 100, 101, 102, 103, 104]).flatten).toFinset.card
      < 256 - NUMPASSES := by
    have hsub : ((List.replicate 128 [97, 98, 99, 100, 101, 102, 103, 104]).flatten).toFinset ⊆
        ([97, 98, 99, 100, 101, 102, 103, 104] : List Nat).toFinset := by
      intro x hx
      simp only [List.mem_toFinset] at hx ⊢
      exact hmem x hx
    have h1 := Finset.card_le_card hsub
    have h2 := List.toFinset_card_le ([97, 98, 99, 100, 101, 102, 103, 104] : List Nat)
    simp only [List.length_cons, List.length_nil] at h2
    unfold NUMPASSES
    omega
  have h := encodeFile1_single _ hX (by rw [hlen]; decide) (by rw [hlen]; decide) hcard
  rw [hlen] at h
  exact h

/-! ## Passes on data without a repeated byte -/

theorem occ_eq_zero_of_not_mem (a b : Nat) (l : List Nat) (h : a ∉ l) : occ a b l = 0 := by
  induction l with
  | nil => rfl
  | cons x l ih =>
    simp only [List.mem_cons, not_or] at h
    rw [occ_cons, ih h.2]
    have : ¬ (x = a ∧ l.head? = some b) := fun e => h.1 e.1.symm
    rw [if_neg this]

theorem greedyRewrite_of_occ_zero (first second key : Nat) (data : List Nat)
    (h : occ first second data = 0) : greedyRewrite first second key data = data := by
  induction data using greedyRewrite.induct first second key with
  | case1 => rfl
  | case2 a => rfl
  | case3 a b rest hab ih =>
    simp only [occ, if_pos hab] at h
    omega
  | case4 a b rest hab ih =>
    simp only [occ, if_neg hab, Nat.zero_add] at h
    rw [greedyRewrite, if_neg hab, ih h]

/-- On data without a repeated byte a pair that occurs is replaced once: the
rewrite is one byte shorter and has no repeated byte. -/
theorem greedyRewrite_nodup (first second key : Nat) (data : List Nat) (hnd : data.Nodup)
    (hkey : key ∉ data) (hocc : 1 ≤ occ first second data) :
    (greedyRewrite first second key data).Nodup ∧
      (greedyRewrite first second key data).length + 1 = data.length := by
  induction data using greedyRewrite.induct first second key with
  | case1 => simp [occ] at hocc
  | case2 a => simp [occ] at hocc
  | case3 a b rest hab ih =>
    have hnd' := hnd
    simp only [List.nodup_cons, List.mem_cons, not_or] at hnd'
    simp only [List.mem_cons, not_or] at hkey
    have hf : first ∉ rest := by
      rw [← hab.1]; exact hnd'.1.2
    rw [greedyRewrite, if_pos hab,
      greedyRewrite_of_occ_zero first second key rest (occ_eq_zero_of_not_mem _ _ _ hf)]
    exact ⟨List.nodup_cons.mpr ⟨hkey.2.2, hnd'.2.2⟩, by simp⟩
  | case4 a b rest hab ih =>
    have hnd' := List.nodup_cons.mp hnd
    have hkey' : key ∉ b :: rest := fun e => hkey (List.mem_cons_of_mem _ e)
    have hocc' : 1 ≤ occ first second (b :: rest) := by
      simp only [occ, if_neg hab, Nat.zero_add] at hocc
      exact hocc
    obtain ⟨h1, h2⟩ := ih hnd'.2 hkey' hocc'
    rw [greedyRewrite, if_neg hab]
    refine ⟨List.nodup_cons.mpr ⟨?_, h1⟩, by simp only [List.length_cons] at h2 ⊢; omega⟩
    intro hm
    rcases mem_greedyRewrite _ _ _ _ _ hm with h | h
    · exact hnd'.1 h
    · exact hkey (by rw [← h]; exact List.mem_cons_self _ _)

theorem passLoop1_nodup {blk0 : Block} (h0 : BlockInit blk0) (hb : IsBytes blk0.data)
    (n k : Nat) (blk : Block) (pairs : List (Nat × Nat)) (hinv : PassInv blk0 k blk pairs)
    (hk : k + n ≤ blk0.unused.length) (hnd : blk.data.Nodup) (hlen : n + 1 ≤ blk.data.length) :
    ∃ blk' pairs', passLoop1 n k blk pairs = .ok (blk', pairs') ∧ blk'.data.Nodup ∧
      blk'.data.length + n = blk.data.length := by
  induction n generalizing k blk pairs with
  | zero => exact ⟨blk, pairs, rfl, hnd, rfl⟩
  | succ n ih =>
    obtain ⟨a, b, hg, _, _, hocc, _⟩ := GetBestPair_occ_pos blk.data (hinv.isBytes h0 hb)
      (by omega) (Nat.le_trans hinv.data_le h0.data_le)
    obtain ⟨key, _, hkey, hdo, hinv'⟩ := DoSubs_step h0 hinv (by omega) a b
    obtain ⟨hnd1, hlen1⟩ := greedyRewrite_nodup a b key blk.data hnd hkey hocc
    obtain ⟨blk', pairs', h1, h2, h3⟩ := ih (k + 1) _ _ hinv' (by omega) hnd1
      (by simp only; omega)
    refine ⟨blk', pairs', ?_, h2, ?_⟩
    · simp only [passLoop1, hg, hdo]
      exact h1
    · simp only at h3
      omega

/-! ## The input that cycles through the byte values -/

theorem cyclic_infix_nodup (n : Nat) (l : List Nat)
    (h : l <:+: (List.range n).map (· % 256)) (hl : l.length ≤ 256) : l.Nodup := by
  obtain ⟨s, t, e⟩ := h
  have hn : s.length + l.length + t.length = n := by
    have := congrArg List.length e
    simp at this
    omega
  have hget : ∀ j, j < l.length → l[j]? = some ((s.length + j) % 256) := by
    intro j hj
    have h1 : (s ++ l ++ t)[s.length + j]? = l[j]? := by
      rw [List.getElem?_append_left (by simp; omega), List.getElem?_append_right (by omega)]
      simp
    rw [← h1, e, List.getElem?_map, List.getElem?_range (by omega)]
    rfl
  rw [List.nodup_iff_getElem?_ne_getElem?]
  intro i j hij hj heq
  rw [hget i (by omega), hget j hj] at heq
  simp only [Option.some.injEq] at heq
  omega

theorem cyclic_isBytes (n : Nat) : IsBytes ((List.range n).map (· % 256)) := by
  intro x hx
  rw [List.mem_map] at hx
  obtain ⟨y, _, rfl⟩ := hx
  exact Nat.mod_lt _ (by decide)

theorem partition_contig (X : List Nat) (blocks : List Block) (hp : partition X = .ok blocks)
    (blk : Block) (hblk : blk ∈ blocks) : blk.data <:+: X := by
  obtain ⟨blocks', hp', hcat⟩ := partition_ok X
  rw [hp] at hp'
  cases hp'
  rw [← hcat]
  exact List.infix_of_mem_flatten (List.mem_map_of_mem _ hblk)

theorem partition_isBytes (X : List Nat) (hX : IsBytes X) (blocks : List Block)
    (hp : partition X = .ok blocks) (blk : Block) (hblk : blk ∈ blocks) : IsBytes blk.data :=
  fun x hx => hX x ((partition_contig X blocks hp blk hblk).subset hx)

/-- The first block of the cyclic input of 224 bytes or more has 224 bytes. -/
theorem cyclic_first_block (n : Nat) (hn : 224 ≤ n) (blocks : List Block)
    (hp : partition ((List.range n).map (· % 256)) = .ok blocks) :
    ∃ blk ∈ blocks, blk.data.length = 224 := by
  obtain ⟨X, hX⟩ : ∃ X, (List.range n).map (· % 256) = X := ⟨_, rfl⟩
  have hXlen : X.length = n := by rw [← hX]; simp
  rw [hX] at hp
  cases X with
  | nil => simp at hXlen; omega
  | cons b rest =>
    obtain ⟨m, hm1, hm2, hmk, hstop, hmin⟩ := mkBlock_shortest b rest
    have htake : ∀ j, j ≤ 256 → (List.take j (b :: rest)).Nodup := by
      intro j hj
      apply cyclic_infix_nodup n _ _ (by rw [List.length_take]; omega)
      rw [hX]
      exact List.take_prefix _ _ |>.isInfix
    have hstop224 : StopAt (b :: rest) 224 := by
      right; right
      rw [List.toFinset_card_of_nodup (htake 224 (by decide)), List.length_take, hXlen]
      unfold NUMPASSES
      omega
    have hle : m ≤ 224 := by
      by_contra hc
      exact hmin 224 (by decide) (by omega) hstop224
    have hge : 224 ≤ m := by
      rcases hstop with h | h | h
      · omega
      · omega
      · have h1 := List.toFinset_card_le (List.take m (b :: rest))
        rw [h, List.length_take] at h1
        unfold NUMPASSES at h1
        omega
    have hm : m = 224 := by omega
    simp only [partition, List.length_cons, partitionLoop, hmk] at hp
    cases hrest : partitionLoop rest.length (List.drop m (b :: rest)) with
    | error e => rw [hrest] at hp; simp at hp
    | ok blks =>
      rw [hrest] at hp
      simp only [Except.ok.injEq] at hp
      refine ⟨_, by rw [← hp]; exact List.mem_cons_self _ _, ?_⟩
      simp only [List.length_take]
      omega

/-- C30. For the input of any length `n` that cycles through the byte values
0x00..0xFF in order, every block of the partition that has the full length of
224 bytes is left by the 32 passes of `BP_Encode1` with exactly 192 bytes of
data; when the input has 224 bytes or more there is such a block. -/
theorem cyclic_block_192 (n : Nat) :
    ∃ blocks, partition ((List.range n).map (· % 256)) = .ok blocks ∧
      (∀ blk ∈ blocks, blk.data.length = 256 - NUMPASSES →
        ∃ blk' pairs, passLoop1 NUMPASSES 0 blk [] = .ok (blk', pairs) ∧
          blk'.data.length = 192) ∧
      (256 - NUMPASSES ≤ n → ∃ blk ∈ blocks, blk.data.length = 256 - NUMPASSES) := by
  obtain ⟨blocks, hp, _⟩ := partition_ok ((List.range n).map (· % 256))
  refine ⟨blocks, hp, ?_, fun hn => cyclic_first_block n hn blocks hp⟩
  intro blk hblk hlen
  have hlen' : blk.data.length = 224 := hlen
  have h0 := partition_mem _ (cyclic_isBytes n) blocks hp blk hblk
  have hb := partition_isBytes _ (cyclic_isBytes n) blocks hp blk hblk
  have hnd := cyclic_infix_nodup n blk.data (partition_contig _ blocks hp blk hblk) (by omega)
  have hu : 32 ≤ blk.unused.length := h0.unused_len
  obtain ⟨blk', pairs, hrun, _, hl⟩ := passLoop1_nodup h0 hb 32 0 blk [] (passInv_init h0)
    (by omega) hnd (by omega)
  exact ⟨blk', pairs, hrun, by omega⟩

/-! ## Pair counts from pass to pass -/

/-- The first byte of the rewrite, with the key read as the first byte of
the pair, is the first byte of the data. -/
theorem greedyRewrite_head (first second key : Nat) (data : List Nat) (hkey : key ∉ data) :
    (greedyRewrite first second key data).head?.map (fun y => if y = key then first else y) =
      data.head? := by
  match data, hkey with
  | [], _ => rfl
  | [a], hkey =>
    have ha : ¬ a = key := fun e => hkey (by simp [e])
    simp [greedyRewrite, ha]
  | a :: b :: rest, hkey =>
    have ha : ¬ a = key := fun e => hkey (by simp [e])
    by_cases hab : a = first ∧ b = second
    · rw [greedyRewrite, if_pos hab]
      simp [hab.1]
    · rw [greedyRewrite, if_neg hab]
      simp [ha]

/-- Every adjacency `(x, y)` of the rewrite comes from an adjacency of the
data before it: that of the last byte `x` stands for and the first byte `y`
stands for. -/
theorem occ_greedyRewrite_le (first second key : Nat) (data : List Nat) (hkey : key ∉ data)
    (x y : Nat) :
    occ x y (greedyRewrite first second key data) ≤
      occ (if x = key then second else x) (if y = key then first else y) data := by
  induction data using greedyRewrite.induct first second key with
  | case1 => simp [greedyRewrite, occ]
  | case2 a => simp [greedyRewrite, occ]
  | case3 a b rest hab ih =>
    have hkey' : key ∉ rest := fun e =>
      hkey (List.mem_cons_of_mem _ (List.mem_cons_of_mem _ e))
    have hh := greedyRewrite_head first second key rest hkey'
    have ih' := ih hkey'
    rw [greedyRewrite, if_pos hab, occ_cons, occ_cons, occ_cons]
    have hstep : (if key = x ∧ (greedyRewrite first second key rest).head? = some y then 1 else 0)
        ≤ (if b = (if x = key then second else x) ∧
            rest.head? = some (if y = key then first else y) then 1 else 0) := by
      by_cases hc : key = x ∧ (greedyRewrite first second key rest).head? = some y
      · rw [if_pos hc]
        have h1 : b = (if x = key then second else x) := by
          rw [if_pos hc.1.symm]; exact hab.2
        have h2 : rest.head? = some (if y = key then first else y) := by
          rw [← hh, hc.2]; rfl
        rw [if_pos ⟨h1, h2⟩]
      · rw [if_neg hc]; exact Nat.zero_le _
    omega
  | case4 a b rest hab ih =>
    have hkey' : key ∉ b :: rest := fun e => hkey (List.mem_cons_of_mem _ e)
    have ha : ¬ a = key := fun e => hkey (by simp [e])
    have hh := greedyRewrite_head first second key (b :: rest) hkey'
    have ih' := ih hkey'
    rw [greedyRewrite, if_neg hab, occ_cons, occ_cons]
    have hstep : (if a = x ∧ (greedyRewrite first second key (b :: rest)).head? = some y
          then 1 else 0)
        ≤ (if a = (if x = key then second else x) ∧
            (b :: rest).head? = some (if y = key then first else y) then 1 else 0) := by
      by_cases hc : a = x ∧ (greedyRewrite first second key (b :: rest)).head? = some y
      · rw [if_pos hc]
        have h1 : a = (if x = key then second else x) := by
          rw [if_neg (fun e => ha (hc.1.trans e))]; exact hc.1
        have h2 : (b :: rest).head? = some (if y = key then first else y) := by
          rw [← hh, hc.2]; rfl
        rw [if_pos ⟨h1, h2⟩]
      · rw [if_neg hc]; exact Nat.zero_le _
    omega

/-- From one pass of `BP_Encode1` to the next the count of the selected pair
does not grow. -/
theorem passLoop1_counts {blk0 blk' : Block} {pairs : List (Nat × Nat)} (h0 : BlockInit blk0)
    (hb : IsBytes blk0.data) (hrun : passLoop1 NUMPASSES 0 blk0 [] = .ok (blk', pairs))
    (k : Nat) (hk : k + 1 < NUMPASSES) :
    ∃ blk_k blk_k1, passLoop1 k 0 blk0 [] = .ok (blk_k, pairs.take k) ∧
      passLoop1 (k + 1) 0 blk0 [] = .ok (blk_k1, pairs.take (k + 1)) ∧
      GetBestPair blk_k.data = .ok (pairs.getD k (0, 0)) ∧
      GetBestPair blk_k1.data = .ok (pairs.getD (k + 1) (0, 0)) ∧
      pairOccurrences (pairs.getD (k + 1) (0, 0)).1 (pairs.getD (k + 1) (0, 0)).2 blk_k1.data ≤
        pairOccurrences (pairs.getD k (0, 0)).1 (pairs.getD k (0, 0)).2 blk_k.data := by
  have hu : NUMPASSES ≤ blk0.unused.length := h0.unused_len
  obtain ⟨blk_k, h1, hinv, hg, _, _⟩ := passLoop1_pass h0 hrun k (by omega)
  obtain ⟨blk_k1, h1', hinv', hg', _, _⟩ := passLoop1_pass h0 hrun (k + 1) hk
  refine ⟨blk_k, blk_k1, h1, h1', hg, hg', ?_⟩
  obtain ⟨key, _, hkey, hdo, _⟩ := DoSubs_step h0 hinv (by omega)
    (pairs.getD k (0, 0)).1 (pairs.getD k (0, 0)).2
  have hsplit := passLoop1_add k 1 0 blk0 []
  rw [h1, h1'] at hsplit
  simp only [passLoop1, Nat.zero_add, hg, hdo, Except.ok.injEq, Prod.mk.injEq] at hsplit
  have hd : blk_k1.data = greedyRewrite (pairs.getD k (0, 0)).1 (pairs.getD k (0, 0)).2 key
      blk_k.data := by rw [hsplit.1]
  obtain ⟨a, b, hga, ha, hb', hmax, _⟩ := GetBestPair_spec blk_k.data (hinv.isBytes h0 hb)
    hinv.data_pos (Nat.le_trans hinv.data_le h0.data_le)
  obtain ⟨x, y, hgx, hx, hy, _, _⟩ := GetBestPair_spec blk_k1.data (hinv'.isBytes h0 hb)
    hinv'.data_pos (Nat.le_trans hinv'.data_le h0.data_le)
  rw [hg] at hga
  rw [hg'] at hgx
  simp only [Except.ok.injEq] at hga hgx
  have ea : (pairs.getD k (0, 0)).1 = a := by rw [hga]
  have eb : (pairs.getD k (0, 0)).2 = b := by rw [hga]
  have ex : (pairs.getD (k + 1) (0, 0)).1 = x := by rw [hgx]
  have ey : (pairs.getD (k + 1) (0, 0)).2 = y := by rw [hgx]
  rw [ea, eb] at hd
  rw [ea, eb, ex, ey, hd, pairOccurrences_eq_occ]
  refine Nat.le_trans (occ_greedyRewrite_le a b key blk_k.data hkey x y) ?_
  rw [← pairOccurrences_eq_occ]
  apply hmax
  · split <;> assumption
  · split <;> assumption

/-- C28. In per-block mode the pairs are in order of decreasing frequency:
for every input of bytes, every block of its partition and every pass `k` with
`k + 1 < 32`, the count (overlapping occurrences counted, in the block's data
at the time of selection) of the pair `GetBestPair` selects in pass `k + 1` is
no greater than the count of the pair it selects in pass `k`. -/
theorem pairs_by_frequency (X : List Nat) (hX : IsBytes X) :
    ∃ blocks, partition X = .ok blocks ∧
      ∀ blk ∈ blocks, ∃ blk' pairs, passLoop1 NUMPASSES 0 blk [] = .ok (blk', pairs) ∧
        ∀ k, k + 1 < NUMPASSES →
          ∃ blk_k blk_k1, passLoop1 k 0 blk [] = .ok (blk_k, pairs.take k) ∧
            passLoop1 (k + 1) 0 blk [] = .ok (blk_k1, pairs.take (k + 1)) ∧
            GetBestPair blk_k.data = .ok (pairs.getD k (0, 0)) ∧
            GetBestPair blk_k1.data = .ok (pairs.getD (k + 1) (0, 0)) ∧
            pairOccurrences (pairs.getD (k + 1) (0, 0)).1 (pairs.getD (k + 1) (0, 0)).2
                blk_k1.data ≤
              pairOccurrences (pairs.getD k (0, 0)).1 (pairs.getD k (0, 0)).2 blk_k.data := by
  obtain ⟨blocks, hp, _⟩ := partition_ok X
  refine ⟨blocks, hp, ?_⟩
  intro blk hblk
  have h0 := partition_mem X hX blocks hp blk hblk
  have hb := partition_isBytes X hX blocks hp blk hblk
  obtain ⟨blk', pairs, hrun, _⟩ := passLoop1_ok h0 NUMPASSES 0 blk [] (passInv_init h0)
    (by have := h0.unused_len; omega)
  exact ⟨blk', pairs, hrun, fun k hk => passLoop1_counts h0 hb hrun k hk⟩

theorem pairs_by_frequency_witness :
    IsBytes [65, 66, 65, 66] ∧
    ∃ blocks, partition [65, 66, 65, 66] = .ok blocks ∧
      ∀ blk ∈ blocks, ∃ blk' pairs, passLoop1 NUMPASSES 0 blk [] = .ok (blk', pairs) ∧
        ∀ k, k + 1 < NUMPASSES →
          ∃ blk_k blk_k1, passLoop1 k 0 blk [] = .ok (blk_k, pairs.take k) ∧
            passLoop1 (k + 1) 0 blk [] = .ok (blk_k1, pairs.take (k + 1)) ∧
            GetBestPair blk_k.data = .ok (pairs.getD k (0, 0)) ∧
            GetBestPair blk_k1.data = .ok (pairs.getD (k + 1) (0, 0)) ∧
            pairOccurrences (pairs.getD (k + 1) (0, 0)).1 (pairs.getD (k + 1) (0, 0)).2
                blk_k1.data ≤
              pairOccurrences (pairs.getD k (0, 0)).1 (pairs.getD k (0, 0)).2 blk_k.data :=
  ⟨by decide, pairs_by_frequency [65, 66, 65, 66] (by decide)⟩

/-! ## The scanner over all blocks -/

theorem totalOccurrences_eq_occAll (a b : Nat) (blocks : List Block) :
    totalOccurrences a b blocks = occAll a b blocks := by
  unfold totalOccurrences occAll
  congr 1
  apply List.map_congr_left
  intro blk _
  exact pairOccurrences_eq_occ a b blk.data

theorem countBlocks_spec (blocks : List Block) (t : Nat → Nat)
    (h : ∀ blk ∈ blocks, 1 ≤ blk.data.length ∧ blk.data.length ≤ 65535 ∧ blk.unused ≠ []) :
    countBlocks blocks t =
      .ok (fun idx => t idx + (blocks.map (fun blk => pairCountAt blk.data idx)).sum) := by
  induction blocks generalizing t with
  | nil => simp [countBlocks]
  | cons blk blks ih =>
    have hb := h blk (List.mem_cons_self _ _)
    simp only [countBlocks, hb.2.2, ne_eq, not_false_eq_true, if_true]
    rw [countLoop_data blk.data t hb.1 (by omega)]
    simp only
    rw [ih _ (fun b hb => h b (List.mem_cons_of_mem _ hb))]
    congr 1
    funext idx
    simp only [List.map_cons, List.sum_cons]
    omega

theorem GetBestPairAll_spec (blocks : List Block)
    (h : ∀ blk ∈ blocks, 1 ≤ blk.data.length ∧ blk.data.length ≤ 65535 ∧ blk.unused ≠ [])
    (hb : ∀ blk ∈ blocks, IsBytes blk.data) :
    ∃ a b, GetBestPairAll blocks = .ok (a, b) ∧ a < 256 ∧ b < 256 ∧
      (∀ a' b', a' < 256 → b' < 256 →
        totalOccurrences a' b' blocks ≤ totalOccurrences a b blocks) ∧
      (∀ a' b', a' < 256 → b' < 256 →
        totalOccurrences a' b' blocks = totalOccurrences a b blocks →
        a * 256 + b ≤ a' * 256 + b') := by
  have htot : ∀ a b, a < 256 → b < 256 →
      (blocks.map (fun blk => pairCountAt blk.data (a * 256 + b))).sum =
        totalOccurrences a b blocks := by
    intro a b ha hb'
    unfold totalOccurrences
    congr 1
    apply List.map_congr_left
    intro blk hblk
    rw [← shiftLeft_or_eq _ _ hb']
    exact pairCountAt_eq blk.data (hb blk hblk) a b ha hb'
  obtain ⟨hi, hmax, hmin⟩ := selectBest_spec
    (fun idx => 0 + (blocks.map (fun blk => pairCountAt blk.data idx)).sum)
  obtain ⟨i, hi_eq⟩ : ∃ i, (selectBest
    (fun idx => 0 + (blocks.map (fun blk => pairCountAt blk.data idx)).sum)).1 = i := ⟨_, rfl⟩
  rw [hi_eq] at hi hmax hmin
  have hb2 : i % 256 < 256 := Nat.mod_lt _ (by omega)
  have ha2 : i / 256 < 256 := by omega
  have hidx : i / 256 * 256 + i % 256 = i := by omega
  refine ⟨i / 256, i % 256, ?_, ha2, hb2, ?_, ?_⟩
  · unfold GetBestPairAll
    rw [countBlocks_spec blocks _ h]
    simp only
    rw [hi_eq, pairOfIdx_eq i hi]
  · intro a' b' ha' hb'
    have := hmax (a' * 256 + b') (by omega)
    simp only [Nat.zero_add] at this
    rw [htot a' b' ha' hb', ← hidx, htot _ _ ha2 hb2] at this
    exact this
  · intro a' b' ha' hb' heq
    by_contra hlt
    have := hmin (a' * 256 + b') (by omega)
    simp only [Nat.zero_add] at this
    rw [htot a' b' ha' hb'] at this
    have h2 := htot _ _ ha2 hb2
    rw [hidx] at h2
    rw [h2] at this
    omega

theorem GetBestPairAll_eq_of (blocks : List Block)
    (h : ∀ blk ∈ blocks, 1 ≤ blk.data.length ∧ blk.data.length ≤ 65535 ∧ blk.unused ≠ [])
    (hb : ∀ blk ∈ blocks, IsBytes blk.data) (a b : Nat) (ha : a < 256) (hb' : b < 256)
    (hmax : ∀ a' b', a' < 256 → b' < 256 →
      totalOccurrences a' b' blocks ≤ totalOccurrences a b blocks)
    (hmin : ∀ a' b', a' < 256 → b' < 256 →
      totalOccurrences a' b' blocks = totalOccurrences a b blocks →
      a * 256 + b ≤ a' * 256 + b') :
    GetBestPairAll blocks = .ok (a, b) := by
  obtain ⟨a0, b0, hg, ha0, hb0, hmax0, hmin0⟩ := GetBestPairAll_spec blocks h hb
  have e1 := hmax a0 b0 ha0 hb0
  have e2 := hmax0 a b ha hb'
  have e : totalOccurrences a0 b0 blocks = totalOccurrences a b blocks := Nat.le_antisymm e1 e2
  have i1 := hmin a0 b0 ha0 hb0 e
  have i2 := hmin0 a b ha hb' e.symm
  have : a0 = a ∧ b0 = b := by constructor <;> omega
  rw [hg, this.1, this.2]

theorem mem_cands_of_occAll_pos (a b : Nat) (blocks : List Block) (h : 1 ≤ occAll a b blocks) :
    (a, b) ∈ blocks.flatMap (fun blk => blk.data.zip blk.data.tail) := by
  induction blocks with
  | nil => simp [occAll] at h
  | cons blk blks ih =>
    simp only [occAll, List.map_cons, List.sum_cons] at h
    rw [List.flatMap_cons, List.mem_append]
    by_cases h1 : 1 ≤ occ a b blk.data
    · exact Or.inl (mem_zip_of_occ_pos a b blk.data h1)
    · right
      apply ih
      unfold occAll
      omega

/-- A decidable criterion for the pair the scanner over all blocks returns:
the pair occurs, and no adjacent pair of any block has a greater total, or an
equal total and a lower index. -/
theorem GetBestPairAll_of_cands (blocks : List Block)
    (h : ∀ blk ∈ blocks, 1 ≤ blk.data.length ∧ blk.data.length ≤ 65535 ∧ blk.unused ≠ [])
    (hb : ∀ blk ∈ blocks, IsBytes blk.data) (a b : Nat) (ha : a < 256) (hb' : b < 256)
    (hpos : 1 ≤ occAll a b blocks)
    (hc : ∀ c ∈ blocks.flatMap (fun blk => blk.data.zip blk.data.tail),
      occAll c.1 c.2 blocks ≤ occAll a b blocks ∧
        (occAll c.1 c.2 blocks = occAll a b blocks → a * 256 + b ≤ c.1 * 256 + c.2)) :
    GetBestPairAll blocks = .ok (a, b) := by
  apply GetBestPairAll_eq_of blocks h hb a b ha hb'
  · intro a' b' _ _
    rw [totalOccurrences_eq_occAll, totalOccurrences_eq_occAll]
    by_cases h0 : 1 ≤ occAll a' b' blocks
    · exact (hc (a', b') (mem_cands_of_occAll_pos a' b' blocks h0)).1
    · omega
  · intro a' b' _ _ heq
    rw [totalOccurrences_eq_occAll, totalOccurrences_eq_occAll] at heq
    exact (hc (a', b') (mem_cands_of_occAll_pos a' b' blocks (by omega))).2 heq

/-! ## An input on which the shared table is not in order of frequency -/

set_option maxRecDepth 1000000 in
theorem drift_partition :
    partition ([1, 2, 3] ++ List.range' 1 224 ++ [255, 3, 9, 255, 3]) =
      .ok [⟨[1, 2, 3] ++ List.range' 1 224, [0] ++ List.range' 225 31, []⟩,
        ⟨[255, 3, 9, 255, 3], [0, 1, 2] ++ List.range' 4 5 ++ List.range' 10 245, []⟩] := by
  rfl

set_option maxRecDepth 1000000 in
theorem drift_best0 :
    GetBestPairAll [⟨[1, 2, 3] ++ List.range' 1 224, [0] ++ List.range' 225 31, []⟩,
        ⟨[255, 3, 9, 255, 3], [0, 1, 2] ++ List.range' 4 5 ++ List.range' 10 245, []⟩] =
      .ok (1, 2) :=
  GetBestPairAll_of_cands _ (by decide) (by decide) 1 2 (by decide) (by decide) (by decide)
    (by decide!)

theorem passLoop2_step (n sub : Nat) (blocks blocks1 : List Block) (pairs : List (Nat × Nat))
    (p : Nat × Nat) (hg : GetBestPairAll blocks = .ok p)
    (hd : doSubsAll sub p.1 p.2 blocks = .ok blocks1) :
    passLoop2 (n + 1) sub blocks pairs = passLoop2 n (sub + 1) blocks1 (pairs ++ [p]) := by
  simp only [passLoop2, hg, hd]

theorem doSubsAll_cons (sub first second : Nat) (blk : Block) (blks blks1 : List Block)
    (back : Nat) (hback : blk.unused.getLast? = some back) (hsub : sub = blk.subs.length)
    (hrest : doSubsAll sub first second blks = .ok blks1) :
    doSubsAll sub first second (blk :: blks) =
      .ok (⟨greedyRewrite first second back blk.data, blk.unused.dropLast, blk.subs ++ [back]⟩
        :: blks1) := by
  have hd := DoSubs_of_getLast blk sub first second back back hback (by simp [hsub])
  simp only [doSubsAll, hd, hrest]

set_option maxRecDepth 1000000 in
theorem drift_subs0 :
    doSubsAll 0 1 2 [⟨[1, 2, 3] ++ List.range' 1 224, [0] ++ List.range' 225 31, []⟩,
        ⟨[255, 3, 9, 255, 3], [0, 1, 2] ++ List.range' 4 5 ++ List.range' 10 245, []⟩] =
      .ok [⟨[255, 3, 255, 3] ++ List.range' 4 221, [0] ++ List.range' 225 30, [255]⟩,
        ⟨[255, 3, 9, 255, 3], [0, 1, 2] ++ List.range' 4 5 ++ List.range' 10 244, [254]⟩] := by
  have e1 : greedyRewrite 1 2 255 ([1, 2, 3] ++ List.range' 1 224) =
      [255, 3, 255, 3] ++ List.range' 4 221 := by rfl
  have e2 : ([0] ++ List.range' 225 31).dropLast = [0] ++ List.range' 225 30 := by rfl
  have e3 : ([0, 1, 2] ++ List.range' 4 5 ++ List.range' 10 245).dropLast =
      [0, 1, 2] ++ List.range' 4 5 ++ List.range' 10 244 := by rfl
  have e4 : greedyRewrite 1 2 254 [255, 3, 9, 255, 3] = [255, 3, 9, 255, 3] := by rfl
  have hB := doSubsAll_cons 0 1 2
    ⟨[255, 3, 9, 255, 3], [0, 1, 2] ++ List.range' 4 5 ++ List.range' 10 245, []⟩ [] [] 254
    (by rfl) rfl rfl
  have hA := doSubsAll_cons 0 1 2
    ⟨[1, 2, 3] ++ List.range' 1 224, [0] ++ List.range' 225 31, []⟩ _ _ 255 (by rfl) rfl hB
  rw [hA]
  simp only [e1, e2, e3, e4, List.nil_append]

theorem drift_pass0 :
    passLoop2 1 0 [⟨[1, 2, 3] ++ List.range' 1 224, [0] ++ List.range' 225 31, []⟩,
        ⟨[255, 3, 9, 255, 3], [0, 1, 2] ++ List.range' 4 5 ++ List.range' 10 245, []⟩] [] =
      .ok ([⟨[255, 3, 255, 3] ++ List.range' 4 221, [0] ++ List.range' 225 30, [255]⟩,
        ⟨[255, 3, 9, 255, 3], [0, 1, 2] ++ List.range' 4 5 ++ List.range' 10 244, [254]⟩],
        [(1, 2)]) := by
  rw [passLoop2_step 0 0 _ _ [] (1, 2) drift_best0 drift_subs0]
  rfl

set_option maxRecDepth 1000000 in
theorem drift_best1 :
    GetBestPairAll
        [⟨[255, 3, 255, 3] ++ List.range' 4 221, [0] ++ List.range' 225 30, [255]⟩,
        ⟨[255, 3, 9, 255, 3], [0, 1, 2] ++ List.range' 4 5 ++ List.range' 10 244, [254]⟩] =
      .ok (255, 3) :=
  GetBestPairAll_of_cands _ (by decide) (by decide) 255 3 (by decide) (by decide) (by decide)
    (by decide!)

set_option maxRecDepth 1000000 in
theorem drift_total0 :
    totalOccurrences 1 2 [⟨[1, 2, 3] ++ List.range' 1 224, [0] ++ List.range' 225 31, []⟩,
        ⟨[255, 3, 9, 255, 3], [0, 1, 2] ++ List.range' 4 5 ++ List.range' 10 245, []⟩] = 2 := by
  rw [totalOccurrences_eq_occAll]
  rfl

set_option maxRecDepth 1000000 in
theorem drift_total1 :
    totalOccurrences 255 3
        [⟨[255, 3, 255, 3] ++ List.range' 4 221, [0] ++ List.range' 225 30, [255]⟩,
        ⟨[255, 3, 9, 255, 3], [0, 1, 2] ++ List.range' 4 5 ++ List.range' 10 244, [254]⟩] =
      4 := by
  rw [totalOccurrences_eq_occAll]
  rfl

set_option maxRecDepth 1000000 in
theorem drift_init :
    ∀ blk ∈ [(⟨[1, 2, 3] ++ List.range' 1 224, [0] ++ List.range' 225 31, []⟩ : Block),
        ⟨[255, 3, 9, 255, 3], [0, 1, 2] ++ List.range' 4 5 ++ List.range' 10 245, []⟩],
      BlockInit blk :=
  partition_mem ([1, 2, 3] ++ List.range' 1 224 ++ [255, 3, 9, 255, 3]) (by decide) _
    drift_partition

/-- The first two entries of the shared pair table of the 32 passes of
`BP_Encode2`, given the first two passes. -/
theorem passLoop2_first_two (blocks blocks1 : List Block) (p0 p1 : Nat × Nat)
    (h0 : ∀ blk ∈ blocks, BlockInit blk) (hg0 : GetBestPairAll blocks = .ok p0)
    (hpass : passLoop2 1 0 blocks [] = .ok (blocks1, [p0]))
    (hg1 : GetBestPairAll blocks1 = .ok p1) :
    ∃ blocks' pairs, passLoop2 NUMPASSES 0 blocks [] = .ok (blocks', pairs) ∧
      pairs.length = NUMPASSES ∧ pairs.getD 0 (0, 0) = p0 ∧ pairs.getD 1 (0, 0) = p1 := by
  obtain ⟨blocks', pairs, hrun, _, hlen⟩ := passLoop2_ok NUMPASSES 0 blocks []
    (allInv_init blocks h0) (by omega) rfl
  obtain ⟨b0, b1, e0, g0, _, _, _⟩ := passLoop2_pass h0 hrun 0 (by decide)
  obtain ⟨c0, c1, e1, g1, _, _, _⟩ := passLoop2_pass h0 hrun 1 (by decide)
  simp only [passLoop2, Except.ok.injEq, Prod.mk.injEq] at e0
  rw [← e0.1, hg0] at g0
  rw [hpass] at e1
  simp only [Except.ok.injEq, Prod.mk.injEq] at e1
  rw [← e1.1, hg1] at g1
  simp only [Except.ok.injEq] at g0 g1
  exact ⟨blocks', pairs, hrun, by simpa using hlen, g0.symm, g1.symm⟩

/-- C29. The shared pair table is not in order of decreasing frequency on the
232-byte input `1 2 3`, then `1 2 ... 224`, then `255 3 9 255 3`: it makes two
blocks; pass 0 of `BP_Encode2` selects `(1, 2)`, which occurs 2 times in all,
and gives the first block the key 255; pass 1 then selects `(255, 3)`, which
occurs 4 times in all, twice with 255 as that key in the first block and
twice with 255 as a data byte in the second. -/
theorem shared_table_not_sorted :
    ∃ blocks blocks1 blocks' pairs,
      partition ([1, 2, 3] ++ List.range' 1 224 ++ [255, 3, 9, 255, 3]) = .ok blocks ∧
      passLoop2 NUMPASSES 0 blocks [] = .ok (blocks', pairs) ∧
      pairs.length = NUMPASSES ∧
      GetBestPairAll blocks = .ok (pairs.getD 0 (0, 0)) ∧
      passLoop2 1 0 blocks [] = .ok (blocks1, [pairs.getD 0 (0, 0)]) ∧
      GetBestPairAll blocks1 = .ok (pairs.getD 1 (0, 0)) ∧
      pairs.getD 0 (0, 0) = (1, 2) ∧ pairs.getD 1 (0, 0) = (255, 3) ∧
      totalOccurrences (pairs.getD 0 (0, 0)).1 (pairs.getD 0 (0, 0)).2 blocks = 2 ∧
      totalOccurrences (pairs.getD 1 (0, 0)).1 (pairs.getD 1 (0, 0)).2 blocks1 = 4 := by
  obtain ⟨blocks', pairs, hrun, hlen, e0, e1⟩ := passLoop2_first_two _ _ (1, 2) (255, 3)
    drift_init drift_best0 drift_pass0 drift_best1
  refine ⟨_, [⟨[255, 3, 255, 3] ++ List.range' 4 221, [0] ++ List.range' 225 30, [255]⟩,
      ⟨[255, 3, 9, 255, 3], [0, 1, 2] ++ List.range' 4 5 ++ List.range' 10 244, [254]⟩],
    blocks', pairs, drift_partition, hrun, hlen, ?_, ?_, ?_, e0, e1, ?_, ?_⟩
  · rw [e0]; exact drift_best0
  · rw [e0]; exact drift_pass0
  · rw [e1]; exact drift_best1
  · rw [e0]; exact drift_total0
  · rw [e1]; exact drift_total1

/-! ## Variable-size integers (`misc/flexints.h`) -/

theorem encodeSizeLoop_ok (val : Nat) (hval : val < 2 ^ 63) (n size : Nat) (h1 : 1 ≤ size)
    (h9 : size ≤ 9) (hn : 10 ≤ n + size) :
    ∃ s, encodeSizeLoop val n size = .ok s ∧ size ≤ s ∧ s ≤ 9 ∧ val < 128 ^ s := by
  induction n generalizing size with
  | zero => omega
  | succ n ih =>
    have h64 : ¬ 64 ≤ size * 7 := by omega
    by_cases hs : val >>> (size * 7) ≠ 0
    · have hlt : size ≤ 8 := by
        by_contra hc
        have e : size = 9 := by omega
        apply hs
        rw [e, Nat.shiftRight_eq_div_pow]
        exact Nat.div_eq_of_lt hval
      obtain ⟨s, hs1, hs2, hs3, hs4⟩ := ih (size + 1) (by omega) (by omega) (by omega)
      refine ⟨s, ?_, by omega, hs3, hs4⟩
      rw [encodeSizeLoop, if_neg h64, if_pos hs, hs1]
    · refine ⟨size, ?_, Nat.le_refl _, h9, ?_⟩
      · rw [encodeSizeLoop, if_neg h64, if_neg hs]
      · simp only [ne_eq, not_not] at hs
        rw [Nat.shiftRight_eq_div_pow, Nat.div_eq_zero_iff (by positivity)] at hs
        have e : (128 : Nat) ^ size = 2 ^ (size * 7) := by
          rw [Nat.mul_comm, Nat.pow_mul]
        rw [e]
        exact hs

/-- A value of 2^63 or more makes the size loop shift by 70 bits. -/
theorem encodeSizeLoop_undefined (val : Nat) (hval : 2 ^ 63 ≤ val) (n size : Nat)
    (h1 : 1 ≤ size) (h10 : size ≤ 10) (hn : 11 ≤ n + size) :
    encodeSizeLoop val n size = .error .undefined := by
  induction n generalizing size with
  | zero =>
    omega
  | succ n ih =>
    by_cases h64 : 64 ≤ size * 7
    · rw [encodeSizeLoop, if_pos h64]
    · have hs : val >>> (size * 7) ≠ 0 := by
        rw [Nat.shiftRight_eq_div_pow]
        intro e
        rw [Nat.div_eq_zero_iff (by positivity)] at e
        have : (2 : Nat) ^ (size * 7) ≤ 2 ^ 63 := Nat.pow_le_pow_right (by decide) (by omega)
        exact absurd (Nat.lt_of_lt_of_le (Nat.lt_of_lt_of_le e this) hval) (Nat.lt_irrefl _)
      rw [encodeSizeLoop, if_neg h64, if_pos hs]
      exact ih (size + 1) (by omega) (by omega) (by omega)

theorem encodeBytesLoop_append (val c cur : Nat) (out : List Nat) :
    encodeBytesLoop val c cur out = out ++ encodeBytesLoop val c cur [] := by
  induction c generalizing cur out with
  | zero => simp [encodeBytesLoop]
  | succ c ih =>
    rw [encodeBytesLoop, ih, encodeBytesLoop, ih _ ([] ++ _)]
    simp

theorem encodeBytesLoop_length (val c cur : Nat) :
    (encodeBytesLoop val c cur []).length = c + 1 := by
  induction c generalizing cur with
  | zero => simp [encodeBytesLoop]
  | succ c ih =>
    rw [encodeBytesLoop, encodeBytesLoop_append, List.length_append, ih]
    simp
    omega

theorem flex_byte_bits (cur : Nat) (h : cur < 128) :
    cur &&& 0x80 = 0 ∧ cur &&& 0x7F = cur ∧ (cur ||| 0x80) &&& 0x80 ≠ 0 ∧
      (cur ||| 0x80) &&& 0x7F = cur := by
  revert cur
  decide

theorem encodeBytesLoop_head (val c cur : Nat) (h : cur < 128) :
    ∃ b tl, encodeBytesLoop val c cur [] = b :: tl ∧ b &&& 0x7F = cur := by
  cases c with
  | zero => exact ⟨cur, [], by simp [encodeBytesLoop], (flex_byte_bits cur h).2.1⟩
  | succ c =>
    refine ⟨cur ||| 0x80, encodeBytesLoop val c ((val >>> (c * 7)) &&& 0x7F) [], ?_,
      (flex_byte_bits cur h).2.2.2⟩
    rw [encodeBytesLoop, encodeBytesLoop_append]
    simp

theorem flex_digit (val c : Nat) :
    (val >>> (c * 7)) &&& 0x7F = val / 128 ^ c % 128 ∧ val / 128 ^ c % 128 < 128 := by
  have e : (128 : Nat) ^ c = 2 ^ (c * 7) := by rw [Nat.mul_comm, Nat.pow_mul]
  have e2 : (val >>> (c * 7)) &&& 0x7F = (val >>> (c * 7)) % 128 :=
    Nat.and_pow_two_sub_one_eq_mod _ 7
  rw [e2, Nat.shiftRight_eq_div_pow, e]
  exact ⟨rfl, Nat.mod_lt _ (by decide)⟩

theorem flex_shift (acc d : Nat) (hd : d < 128) (hacc : acc * 128 < 2 ^ 64) :
    ((acc <<< 7) % 2 ^ 64) ||| d = acc * 128 + d := by
  have e : acc <<< 7 = acc * 128 := by rw [Nat.shiftLeft_eq]
  rw [e, Nat.mod_eq_of_lt hacc, Nat.mul_comm,
    ← Nat.mul_add_lt_is_or (i := 7) (by simpa using hd)]

/-- The decoder loop on the bytes the encoder loop writes. -/
theorem decodeFlexLoop_encode (val : Nat) (c : Nat) (pre rest : List Nat) (cur acc size n : Nat)
    (hcur : cur < 128) (hn : c < n) (hacc : acc * 128 ^ c + val % 128 ^ c < 2 ^ 64) :
    decodeFlexLoop (pre ++ encodeBytesLoop val c cur [] ++ rest) n pre.length acc size =
      .ok (acc * 128 ^ c + val % 128 ^ c, size + c) := by
  induction c generalizing pre cur acc size n with
  | zero =>
    obtain ⟨n, rfl⟩ : ∃ m, n = m + 1 := ⟨n - 1, by omega⟩
    have hr : read (pre ++ encodeBytesLoop val 0 cur [] ++ rest) pre.length = .ok cur := by
      rw [List.append_assoc]
      have := read_append pre (encodeBytesLoop val 0 cur [] ++ rest) 0 cur
        (by simp [encodeBytesLoop])
      simpa using this
    rw [decodeFlexLoop, hr]
    simp only [(flex_byte_bits cur hcur).1, ne_eq, not_true_eq_false, if_false]
    simp [Nat.mod_one]
  | succ c ih =>
    obtain ⟨n, rfl⟩ : ∃ m, n = m + 1 := ⟨n - 1, by omega⟩
    obtain ⟨hd1, hd2⟩ := flex_digit val c
    obtain ⟨b, tl, hb, hbits⟩ := encodeBytesLoop_head val c (val / 128 ^ c % 128) hd2
    have hbytes : encodeBytesLoop val (c + 1) cur [] =
        [cur ||| 0x80] ++ encodeBytesLoop val c (val / 128 ^ c % 128) [] := by
      rw [encodeBytesLoop, encodeBytesLoop_append, hd1]
      simp
    have hr0 : read (pre ++ encodeBytesLoop val (c + 1) cur [] ++ rest) pre.length =
        .ok (cur ||| 0x80) := by
      rw [List.append_assoc]
      have := read_append pre (encodeBytesLoop val (c + 1) cur [] ++ rest) 0 (cur ||| 0x80)
        (by rw [hbytes]; simp)
      simpa using this
    have hr1 : read (pre ++ encodeBytesLoop val (c + 1) cur [] ++ rest) (pre.length + 1) =
        .ok b := by
      rw [List.append_assoc]
      exact read_append pre (encodeBytesLoop val (c + 1) cur [] ++ rest) 1 b
        (by rw [hbytes, hb]; simp)
    have hpow : (128 : Nat) ^ (c + 1) = 128 ^ c * 128 := Nat.pow_succ ..
    have hmod : val % 128 ^ (c + 1) = val % 128 ^ c + 128 ^ c * (val / 128 ^ c % 128) := by
      rw [hpow, Nat.mod_mul]
    have hpos : 0 < (128 : Nat) ^ c := by positivity
    have hacc1 : acc * 128 < 2 ^ 64 := by
      have : acc * 128 * 1 ≤ acc * 128 * 128 ^ c := Nat.mul_le_mul_left _ hpos
      rw [hpow] at hacc
      have e : acc * (128 ^ c * 128) = acc * 128 * 128 ^ c := by ring
      omega
    rw [decodeFlexLoop, hr0]
    simp only [(flex_byte_bits cur hcur).2.2.1, ne_eq, not_false_eq_true, if_true, hr1, hbits]
    rw [flex_shift acc _ hd2 hacc1]
    have hsplit : pre ++ encodeBytesLoop val (c + 1) cur [] ++ rest =
        (pre ++ [cur ||| 0x80]) ++ encodeBytesLoop val c (val / 128 ^ c % 128) [] ++ rest := by
      rw [hbytes]; simp
    have hlen : pre.length + 1 = (pre ++ [cur ||| 0x80]).length := by simp
    have hval : (acc * 128 + val / 128 ^ c % 128) * 128 ^ c + val % 128 ^ c =
        acc * 128 ^ (c + 1) + val % 128 ^ (c + 1) := by
      rw [hmod, hpow]; ring
    rw [hsplit, hlen, ih (pre ++ [cur ||| 0x80]) (val / 128 ^ c % 128) _ (size + 1) n hd2
      (by omega) (by rw [hval]; exact hacc), hval]
    congr 2
    omega

/-- The round trip of a value below 2^63. -/
theorem flexint_small (val : Nat) (hval : val < 2 ^ 63) (rest : List Nat) :
    ∃ size bytes, BP_EncodeFlexInt val = .ok (size, bytes) ∧ bytes.length = size ∧
      1 ≤ size ∧ size ≤ 9 ∧ BP_DecodeFlexInt (bytes ++ rest) = .ok (val, size) := by
  obtain ⟨s, hs, hs1, hs9, hlt⟩ := encodeSizeLoop_ok val hval 10 1 (by decide) (by decide)
    (by decide)
  obtain ⟨hd1, hd2⟩ := flex_digit val (s - 1)
  have hlen := encodeBytesLoop_length val (s - 1) (val / 128 ^ (s - 1) % 128)
  refine ⟨s, encodeBytesLoop val (s - 1) (val / 128 ^ (s - 1) % 128) [], ?_, by omega, hs1, hs9,
    ?_⟩
  · simp only [BP_EncodeFlexInt, hs, hd1]
  · obtain ⟨b, tl, hb, hbits⟩ := encodeBytesLoop_head val (s - 1) (val / 128 ^ (s - 1) % 128) hd2
    have hr : read (encodeBytesLoop val (s - 1) (val / 128 ^ (s - 1) % 128) [] ++ rest) 0 =
        .ok b := by
      rw [hb]; simp [read]
    have hpow : (128 : Nat) ^ s = 128 ^ (s - 1) * 128 := by
      rw [← Nat.pow_succ]; congr 1; omega
    have hmod : val = val / 128 ^ (s - 1) % 128 * 128 ^ (s - 1) + val % 128 ^ (s - 1) := by
      have h1 : val % 128 ^ s = val := Nat.mod_eq_of_lt hlt
      rw [hpow, Nat.mod_mul] at h1
      rw [Nat.mul_comm]
      omega
    have hdec := decodeFlexLoop_encode val (s - 1) [] rest (val / 128 ^ (s - 1) % 128)
      (val / 128 ^ (s - 1) % 128) 1
      ((encodeBytesLoop val (s - 1) (val / 128 ^ (s - 1) % 128) [] ++ rest).length + 1) hd2
      (by rw [List.length_append, hlen]; omega) (by rw [← hmod]; omega)
    simp only [BP_DecodeFlexInt, hr, hbits]
    simp only [List.nil_append, List.length_nil] at hdec
    rw [hdec, ← hmod]
    congr 2
    omega

theorem flexint_large (val : Nat) (hval : 2 ^ 63 ≤ val) :
    BP_EncodeFlexInt val = .error .undefined := by
  simp only [BP_EncodeFlexInt, encodeSizeLoop_undefined val hval 10 1 (by decide) (by decide) (by decide)]

/-- C25. The round trip of the variable-size integers holds for every value
below 2^63 (so for the values below 0x10000 of the authors' test): the decoder
returns the value and the size the encoder returned, which is at most 9.  It
does not hold for every 64-bit value: for a value of 2^63 or more, such as
2^63 itself, the size loop of `BP_EncodeFlexInt` evaluates `val >> 70`, a
shift of a 64-bit `size_t` by more than its width, which is undefined. -/
theorem flexint_roundtrip :
    (∀ val, val < 2 ^ 63 → ∀ rest, ∃ size bytes,
      BP_EncodeFlexInt val = .ok (size, bytes) ∧ bytes.length = size ∧ 1 ≤ size ∧ size ≤ 9 ∧
        BP_DecodeFlexInt (bytes ++ rest) = .ok (val, size)) ∧
    (∀ val, 2 ^ 63 ≤ val → BP_EncodeFlexInt val = .error .undefined) ∧
    BP_EncodeFlexInt (2 ^ 63) = .error .undefined :=
  ⟨fun val hval rest => flexint_small val hval rest, fun val hval => flexint_large val hval,
    flexint_large (2 ^ 63) (Nat.le_refl _)⟩

/-! ## The in-buffer encoder (`misc/bpencode.c`, with `BP_PAIR_CACHE_SIZE` 0) -/

theorem CountPairsLoop_le (bfr : List Nat) (pair0 pair1 data size n j occurrences r : Nat)
    (h : CountPairsLoop bfr pair0 pair1 data size n j occurrences = .ok r) :
    occurrences ≤ r := by
  induction n generalizing j occurrences with
  | zero =>
    simp only [CountPairsLoop] at h
    split at h
    · cases h
    · cases h; exact Nat.le_refl _
  | succ n ih =>
    simp only [CountPairsLoop] at h
    split at h
    · split at h
      · cases h
      · split at h
        · split at h
          · cases h
          · split at h
            · have := ih _ _ h; omega
            · exact ih _ _ h
        · exact ih _ _ h
    · cases h; exact Nat.le_refl _

/-- The count `CountPairs` returns is never 0: the test `pairCount == 0` of
`DoSubstitution` never holds. -/
theorem CountPairs_pos (bfr : List Nat) (pair data size r : Nat)
    (h : CountPairs bfr pair data size = .ok r) : 1 ≤ r := by
  simp only [CountPairs] at h
  split at h
  · cases h
  · split at h
    · cases h
    · exact CountPairsLoop_le _ _ _ _ _ _ _ _ _ h

theorem misc_getUsed :
    GetUsed [1, 2, 3, 4, 5, 6, 7, 8, 9] 9 =
      .ok ([255, 254, 254, 254, 254, 254, 254, 254, 254, 254] ++ List.replicate 22 255) := by
  rfl

theorem misc_countPairs : CountPairs [1, 2, 3, 4, 5, 6, 7, 8, 9] 0 2 (9 - 2) = .ok 1 := by
  rfl

theorem misc_doSubstitution :
    DoSubstitution ⟨[1, 2, 3, 4, 5, 6, 7, 8, 9], 9, 9, 0,
        [255, 254, 254, 254, 254, 254, 254, 254, 254, 254] ++ List.replicate 22 255⟩ =
      .ok (true, ⟨[0, 3, 4, 5, 6, 7, 0, 1, 2], 8, 9, 1,
        [254, 254, 254, 254, 254, 254, 254, 254, 254, 254] ++ List.replicate 22 255⟩) := by
  rfl

theorem misc_encode :
    BP_Encode [1, 2, 3, 4, 5, 6, 7, 8, 9] 9 =
      .ok ⟨[0, 3, 4, 5, 6, 7, 0, 1, 2], 8, 9, 1,
        [254, 254, 254, 254, 254, 254, 254, 254, 254, 254] ++ List.replicate 22 255⟩ := by
  rfl

/-- C26. The in-buffer encoder does not keep `bp_csize + 3 * bp_numSubs <=
bp_dsize`: on the 9-byte buffer `1 2 3 4 5 6 7 8 9`, `GetUsed` leaves 0 as the
first free value, `CountPairs` returns 1 for the pair `(1, 2)`, which occurs
once, and `DoSubstitution` returns true with `bp_csize` 8 and `bp_numSubs` 1,
so that 8 + 3 > 9; the record `0 1 2` written at offset 6 overwrites the last
two bytes `8 9` of the compressed data `0 3 4 5 6 7 8 9`.  `BP_Encode` ends in
this state.  The count of `CountPairs` is never 0, so that the test
`pairCount == 0` of `DoSubstitution` stops no substitution. -/
theorem misc_records_overlap :
    ∃ fv st, GetUsed [1, 2, 3, 4, 5, 6, 7, 8, 9] 9 = .ok fv ∧
      PickUnused fv = some (0, st.freeVals) ∧
      CountPairs [1, 2, 3, 4, 5, 6, 7, 8, 9] 0 2 (9 - 2) = .ok 1 ∧
      DoSubstitution ⟨[1, 2, 3, 4, 5, 6, 7, 8, 9], 9, 9, 0, fv⟩ = .ok (true, st) ∧
      st.bp_csize = 8 ∧ st.bp_numSubs = 1 ∧ st.bp_dsize = 9 ∧
      ¬ (st.bp_csize + 3 * st.bp_numSubs ≤ st.bp_dsize) ∧
      st.bp_bfr = [0, 3, 4, 5, 6, 7, 0, 1, 2] ∧
      BP_Encode [1, 2, 3, 4, 5, 6, 7, 8, 9] 9 = .ok st ∧
      ∀ bfr pair data size r, CountPairs bfr pair data size = .ok r → 1 ≤ r :=
  ⟨_, _, misc_getUsed, by rfl, misc_countPairs, misc_doSubstitution, rfl, rfl, rfl, by decide,
    rfl, misc_encode, CountPairs_pos⟩

/-! ## A pass on data of one byte -/

theorem GetBestPair_length_one (x : Nat) : GetBestPair [x] = .ok (0, 0) := by
  rw [GetBestPair_ok [x] (by simp) (by simp)]
  obtain ⟨_, _, hmin⟩ := selectBest_spec (fun idx => 0 + pairCountAt [x] idx)
  have hz : ∀ idx, pairCountAt [x] idx = 0 := by
    intro idx
    simp [pairCountAt]
  have h0 : (selectBest (fun idx => 0 + pairCountAt [x] idx)).1 = 0 := by
    by_contra hne
    have := hmin 0 (Nat.pos_of_ne_zero hne)
    rw [hz, hz] at this
    omega
  rw [h0, pairOfIdx_eq 0 (by decide)]

theorem DoSubs_length_one (blk : Block) (x back sub first second : Nat) (hdata : blk.data = [x])
    (hback : blk.unused.getLast? = some back) :
    DoSubs blk sub first second = .ok ⟨blk.data, blk.unused.dropLast, blk.subs ++ [back]⟩ := by
  simp [DoSubs, hback, hdata, rewriteLoop, read]

/-- C31. Zero-count pass: for a block whose data has length 1 and whose
`unused` is not empty (`back` its last element), `GetBestPair` returns the pair
`(0x00, 0x00)`, and the call of `DoSubs` with that pair (for any `sub`)
returns the block with the same data, `back` popped from `unused` and appended
to `subs`. -/
theorem zero_count_pass (blk : Block) (x back sub : Nat) (hdata : blk.data = [x])
    (hback : blk.unused.getLast? = some back) :
    GetBestPair blk.data = .ok (0, 0) ∧
      DoSubs blk sub 0 0 = .ok ⟨blk.data, blk.unused.dropLast, blk.subs ++ [back]⟩ :=
  ⟨by rw [hdata]; exact GetBestPair_length_one x, DoSubs_length_one blk x back sub 0 0 hdata hback⟩

theorem zero_count_pass_witness :
    (⟨[7], [1, 2, 3], [9]⟩ : Block).data = [7] ∧
    (⟨[7], [1, 2, 3], [9]⟩ : Block).unused.getLast? = some 3 ∧
    GetBestPair (⟨[7], [1, 2, 3], [9]⟩ : Block).data = .ok (0, 0) ∧
      DoSubs ⟨[7], [1, 2, 3], [9]⟩ 1 0 0 =
        .ok ⟨(⟨[7], [1, 2, 3], [9]⟩ : Block).data,
          (⟨[7], [1, 2, 3], [9]⟩ : Block).unused.dropLast,
          (⟨[7], [1, 2, 3], [9]⟩ : Block).subs ++ [3]⟩ :=
  ⟨rfl, rfl, zero_count_pass ⟨[7], [1, 2, 3], [9]⟩ 7 3 1 rfl rfl⟩

/-! ## The scanner of shared-table mode -/

/-- C32. Shared-mode scanner: for every list of blocks of bytes that each
still have unused values (and each have between 1 and 65,535 bytes of data, as
every block has), `GetBestPair(blocks)` returns a pair `(a, b)` of bytes whose
total number of occurrences, summed over the blocks with every occurrence
inside one block's data, is maximal over all pairs of bytes, and whose index
`(a << 8) | b` is the lowest among the pairs with that total. -/
theorem GetBestPairAll_max (blocks : List Block)
    (h : ∀ blk ∈ blocks, 1 ≤ blk.data.length ∧ blk.data.length ≤ 65535 ∧ blk.unused ≠ [])
    (hb : ∀ blk ∈ blocks, IsBytes blk.data) :
    ∃ a b, GetBestPairAll blocks = .ok (a, b) ∧ a < 256 ∧ b < 256 ∧
      (∀ a' b', a' < 256 → b' < 256 →
        (blocks.map (fun blk => pairOccurrences a' b' blk.data)).sum ≤
          (blocks.map (fun blk => pairOccurrences a b blk.data)).sum) ∧
      (∀ a' b', a' < 256 → b' < 256 →
        (blocks.map (fun blk => pairOccurrences a' b' blk.data)).sum =
          (blocks.map (fun blk => pairOccurrences a b blk.data)).sum →
        (a <<< 8 ||| b) ≤ (a' <<< 8 ||| b')) := by
  obtain ⟨a, b, hg, ha, hb', hmax, hmin⟩ := GetBestPairAll_spec blocks h hb
  refine ⟨a, b, hg, ha, hb', hmax, ?_⟩
  intro a' b' ha' hb'' heq
  rw [shiftLeft_or_eq _ _ hb', shiftLeft_or_eq _ _ hb'']
  exact hmin a' b' ha' hb'' heq

theorem GetBestPairAll_max_witness :
    (∀ blk ∈ [(⟨[1, 2, 1, 2], [7], []⟩ : Block), ⟨[2, 1, 2], [8], []⟩],
      1 ≤ blk.data.length ∧ blk.data.length ≤ 65535 ∧ blk.unused ≠ []) ∧
    (∀ blk ∈ [(⟨[1, 2, 1, 2], [7], []⟩ : Block), ⟨[2, 1, 2], [8], []⟩], IsBytes blk.data) ∧
    ∃ a b, GetBestPairAll [⟨[1, 2, 1, 2], [7], []⟩, ⟨[2, 1, 2], [8], []⟩] = .ok (a, b) ∧
      a < 256 ∧ b < 256 ∧
      (∀ a' b', a' < 256 → b' < 256 →
        (([(⟨[1, 2, 1, 2], [7], []⟩ : Block), ⟨[2, 1, 2], [8], []⟩]).map
            (fun blk => pairOccurrences a' b' blk.data)).sum ≤
          (([(⟨[1, 2, 1, 2], [7], []⟩ : Block), ⟨[2, 1, 2], [8], []⟩]).map
            (fun blk => pairOccurrences a b blk.data)).sum) ∧
      (∀ a' b', a' < 256 → b' < 256 →
        (([(⟨[1, 2, 1, 2], [7], []⟩ : Block), ⟨[2, 1, 2], [8], []⟩]).map
            (fun blk => pairOccurrences a' b' blk.data)).sum =
          (([(⟨[1, 2, 1, 2], [7], []⟩ : Block), ⟨[2, 1, 2], [8], []⟩]).map
            (fun blk => pairOccurrences a b blk.data)).sum →
        (a <<< 8 ||| b) ≤ (a' <<< 8 ||| b')) :=
  ⟨by decide, by decide,
    GetBestPairAll_max [⟨[1, 2, 1, 2], [7], []⟩, ⟨[2, 1, 2], [8], []⟩] (by decide) (by decide)⟩

/-! ## The count of the scanner and the bytes a pass removes -/

theorem greedyRewrite_removed_le (first second key : Nat) (data : List Nat) :
    data.length ≤ (greedyRewrite first second key data).length + occ first second data := by
  induction data using greedyRewrite.induct first second key with
  | case1 => simp [greedyRewrite]
  | case2 a => simp [greedyRewrite]
  | case3 a b rest hab ih =>
    rw [greedyRewrite, if_pos hab, occ_cons, occ_cons]
    simp only [List.head?_cons, List.length_cons]
    rw [if_pos ⟨hab.1, by rw [hab.2]⟩]
    omega
  | case4 a b rest hab ih =>
    rw [greedyRewrite, if_neg hab, occ_cons]
    simp only [List.length_cons] at ih ⊢
    omega

theorem greedyRewrite_removed_eq (first second key : Nat) (data : List Nat)
    (hne : first ≠ second) :
    data.length = (greedyRewrite first second key data).length + occ first second data := by
  induction data using greedyRewrite.induct first second key with
  | case1 => simp [greedyRewrite, occ]
  | case2 a => simp [greedyRewrite, occ]
  | case3 a b rest hab ih =>
    rw [greedyRewrite, if_pos hab, occ_cons, occ_cons]
    simp only [List.head?_cons, List.length_cons]
    rw [if_pos ⟨hab.1, by rw [hab.2]⟩]
    have hb : ¬ (b = first ∧ rest.head? = some second) := fun e => hne (e.1.symm.trans hab.2)
    rw [if_neg hb]
    omega
  | case4 a b rest hab ih =>
    rw [greedyRewrite, if_neg hab, occ_cons]
    simp only [List.length_cons, List.head?_cons] at ih ⊢
    have hc : ¬ (a = first ∧ some b = some second) := by
      simpa using hab
    rw [if_neg hc]
    omega

theorem greedyRewrite_replicate (key A n : Nat) :
    (greedyRewrite A A key (List.replicate n A)).length = (n + 1) / 2 := by
  induction n using Nat.strong_induction_on with
  | _ n ih =>
    match n with
    | 0 => rfl
    | 1 => rfl
    | n + 2 =>
      have e : List.replicate (n + 2) A = A :: A :: List.replicate n A := rfl
      rw [e, greedyRewrite, if_pos ⟨rfl, rfl⟩, List.length_cons, ih n (by omega)]
      omega

theorem occ_replicate (A n : Nat) : occ A A (List.replicate n A) = n - 1 := by
  induction n with
  | zero => rfl
  | succ n ih =>
    rw [List.replicate_succ, occ_cons, ih]
    cases n with
    | zero => simp
    | succ m =>
      simp [List.replicate_succ]
      omega

theorem DoSubs_removed (data u subs : List Nat) (first second key : Nat) :
    ∃ out, DoSubs ⟨data, u ++ [key], subs⟩ subs.length first second =
        .ok ⟨out, u, subs ++ [key]⟩ ∧
      out = greedyRewrite first second key data ∧ out.length ≤ data.length ∧
      (data.length + 1) / 2 ≤ out.length ∧
      data.length - out.length ≤ pairOccurrences first second data ∧
      (first ≠ second → data.length - out.length = pairOccurrences first second data) := by
  refine ⟨greedyRewrite first second key data, ?_, rfl, greedyRewrite_length_le _ _ _ _,
    greedyRewrite_length_ge _ _ _ _, ?_, ?_⟩
  · rw [DoSubs_of_getLast ⟨data, u ++ [key], subs⟩ subs.length first second key key (by simp)
      (by simp)]
    simp
  · have := greedyRewrite_removed_le first second key data
    rw [pairOccurrences_eq_occ]
    omega
  · intro hne
    have := greedyRewrite_removed_eq first second key data hne
    rw [pairOccurrences_eq_occ]
    omega

theorem DoSubs_run (n A key : Nat) (u subs : List Nat) (hn : 3 ≤ n) :
    ∃ out, DoSubs ⟨List.replicate n A, u ++ [key], subs⟩ subs.length A A =
        .ok ⟨out, u, subs ++ [key]⟩ ∧
      pairOccurrences A A (List.replicate n A) = n - 1 ∧
      (List.replicate n A).length - out.length = n / 2 ∧
      (List.replicate n A).length - out.length < pairOccurrences A A (List.replicate n A) := by
  obtain ⟨out, h1, h2, _⟩ := DoSubs_removed (List.replicate n A) u subs A A key
  have hl : out.length = (n + 1) / 2 := by rw [h2, greedyRewrite_replicate]
  have ho : pairOccurrences A A (List.replicate n A) = n - 1 := by
    rw [pairOccurrences_eq_occ, occ_replicate]
  refine ⟨out, h1, ho, ?_, ?_⟩
  · rw [List.length_replicate, hl]; omega
  · rw [List.length_replicate, hl, ho]; omega

/-- C33. Overlapping count versus achieved reduction: for every data, pair
`(first, second)` and key, `DoSubs` (with that key at the back of `unused`)
removes at most as many bytes as the pair has occurrences in the data,
overlapping occurrences counted, and exactly as many when `first` and `second`
differ; on a run of `n >= 3` bytes `A` with the pair `(A, A)` it removes
`n / 2` bytes, fewer than the `n - 1` occurrences counted. -/
theorem overlap_vs_reduction :
    (∀ (data u subs : List Nat) (first second key : Nat),
      ∃ out, DoSubs ⟨data, u ++ [key], subs⟩ subs.length first second =
          .ok ⟨out, u, subs ++ [key]⟩ ∧
        data.length - out.length ≤ pairOccurrences first second data ∧
        (first ≠ second → data.length - out.length = pairOccurrences first second data)) ∧
    (∀ (n A key : Nat) (u subs : List Nat), 3 ≤ n →
      ∃ out, DoSubs ⟨List.replicate n A, u ++ [key], subs⟩ subs.length A A =
          .ok ⟨out, u, subs ++ [key]⟩ ∧
        pairOccurrences A A (List.replicate n A) = n - 1 ∧
        (List.replicate n A).length - out.length = n / 2 ∧
        (List.replicate n A).length - out.length <
          pairOccurrences A A (List.replicate n A)) := by
  constructor
  · intro data u subs first second key
    obtain ⟨out, h1, _, _, _, h5, h6⟩ := DoSubs_removed data u subs first second key
    exact ⟨out, h1, h5, h6⟩
  · intro n A key u subs hn
    exact DoSubs_run n A key u subs hn

/-! ## Data stays non-empty, and the alphabet of a block -/

theorem forall₂_mem_right {R : Block → Block → Prop} {l1 l2 : List Block}
    (h : List.Forall₂ R l1 l2) : ∀ b ∈ l2, ∃ a ∈ l1, R a b := by
  induction h with
  | nil => simp
  | cons hr _ ih =>
    intro b hb
    rw [List.mem_cons] at hb
    rcases hb with rfl | hb
    · exact ⟨_, List.mem_cons_self _ _, hr⟩
    · obtain ⟨a, ha, hab⟩ := ih b hb
      exact ⟨a, List.mem_cons_of_mem _ ha, hab⟩

theorem PassInv.subs_nodup {blk0 blk : Block} {k : Nat} {pairs : List (Nat × Nat)}
    (h0 : BlockInit blk0) (hinv : PassInv blk0 k blk pairs) : blk.subs.Nodup := by
  have := h0.nodup
  rw [← hinv.unused_eq, List.nodup_append] at this
  exact List.nodup_reverse.mp this.2.1

theorem PassInv.alphabet {blk0 blk : Block} {k : Nat} {pairs : List (Nat × Nat)}
    (h0 : BlockInit blk0) (hinv : PassInv blk0 k blk pairs) : AlphabetInv blk0 blk k := by
  refine ⟨hinv.subs_len, hinv.data_mem, hinv.subs_nodup h0, ?_⟩
  intro hk
  obtain ⟨key, h1, h2, _, _⟩ := DoSubs_step h0 hinv (Nat.lt_of_lt_of_le hk h0.unused_len) 0 0
  exact ⟨key, h1, h2⟩

theorem passLoop2_inv (blocks : List Block) (h0 : ∀ blk ∈ blocks, BlockInit blk) (k : Nat)
    (hk : k ≤ NUMPASSES) :
    ∃ blocks_k pairs_k, passLoop2 k 0 blocks [] = .ok (blocks_k, pairs_k) ∧
      List.Forall₂ (fun blk blk_k => 1 ≤ blk_k.data.length ∧
        loopBound blk_k.data.length = blk_k.data.length - 1 ∧ AlphabetInv blk blk_k k)
        blocks blocks_k := by
  obtain ⟨blocks_k, pairs_k, hrun, hinv, _⟩ := passLoop2_ok k 0 blocks []
    (allInv_init blocks h0) (by omega) rfl
  rw [Nat.zero_add] at hinv
  refine ⟨blocks_k, pairs_k, hrun, ?_⟩
  exact List.Forall₂.imp (fun blk blk_k h =>
    ⟨h.2.data_pos, loopBound_eq _ h.2.data_pos, h.2.alphabet h.1⟩) hinv

theorem passLoop1_inv {blk : Block} (h0 : BlockInit blk) (k : Nat) (hk : k ≤ NUMPASSES) :
    ∃ blk_k pairs_k, passLoop1 k 0 blk [] = .ok (blk_k, pairs_k) ∧ 1 ≤ blk_k.data.length ∧
      loopBound blk_k.data.length = blk_k.data.length - 1 ∧ AlphabetInv blk blk_k k := by
  obtain ⟨blk_k, pairs_k, hrun, hinv⟩ := passLoop1_ok h0 k 0 blk [] (passInv_init h0)
    (by have := h0.unused_len; omega)
  rw [Nat.zero_add] at hinv
  exact ⟨blk_k, pairs_k, hrun, hinv.data_pos, loopBound_eq _ hinv.data_pos, hinv.alphabet h0⟩

/-- C37. For every non-empty data, pair and key, `DoSubs` (with that key at
the back of `unused`) returns data of at least `ceil(|data| / 2)` bytes, hence
at least one; and for every input of bytes, every block of its partition and
every `k <= 32`, the `k` passes of `BP_Encode1` on the block, and those of
`BP_Encode2` on all blocks, return blocks whose data is not empty, so that the
loop bound `data.size() - 1` of `GetBestPair` is `|data| - 1`, not wrapped. -/
theorem data_stays_nonempty (X : List Nat) (hX : IsBytes X) :
    (∀ (data u subs : List Nat) (first second key : Nat), data ≠ [] →
      ∃ out, DoSubs ⟨data, u ++ [key], subs⟩ subs.length first second =
          .ok ⟨out, u, subs ++ [key]⟩ ∧
        (data.length + 1) / 2 ≤ out.length ∧ 1 ≤ out.length) ∧
    ∃ blocks, partition X = .ok blocks ∧
      (∀ blk ∈ blocks, ∀ k, k ≤ NUMPASSES →
        ∃ blk_k pairs_k, passLoop1 k 0 blk [] = .ok (blk_k, pairs_k) ∧
          1 ≤ blk_k.data.length ∧ loopBound blk_k.data.length = blk_k.data.length - 1) ∧
      (∀ k, k ≤ NUMPASSES →
        ∃ blocks_k pairs_k, passLoop2 k 0 blocks [] = .ok (blocks_k, pairs_k) ∧
          blocks_k.length = blocks.length ∧
          ∀ blk_k ∈ blocks_k, 1 ≤ blk_k.data.length ∧
            loopBound blk_k.data.length = blk_k.data.length - 1) := by
  constructor
  · intro data u subs first second key hne
    obtain ⟨out, h1, _, _, h4, _⟩ := DoSubs_removed data u subs first second key
    have hpos : 0 < data.length := List.length_pos.mpr hne
    exact ⟨out, h1, h4, by omega⟩
  · obtain ⟨blocks, hp, _⟩ := partition_ok X
    have hinit := partition_mem X hX blocks hp
    refine ⟨blocks, hp, ?_, ?_⟩
    · intro blk hblk k hk
      obtain ⟨blk_k, pairs_k, h1, h2, h3, _⟩ := passLoop1_inv (hinit blk hblk) k hk
      exact ⟨blk_k, pairs_k, h1, h2, h3⟩
    · intro k hk
      obtain ⟨blocks_k, pairs_k, h1, h2⟩ := passLoop2_inv blocks hinit k hk
      refine ⟨blocks_k, pairs_k, h1, h2.length_eq.symm, ?_⟩
      intro blk_k hmem
      obtain ⟨blk, _, h⟩ := forall₂_mem_right h2 blk_k hmem
      exact ⟨h.1, h.2.1⟩

theorem data_stays_nonempty_witness :
    IsBytes [65, 66, 65, 66] ∧
    (∀ (data u subs : List Nat) (first second key : Nat), data ≠ [] →
      ∃ out, DoSubs ⟨data, u ++ [key], subs⟩ subs.length first second =
          .ok ⟨out, u, subs ++ [key]⟩ ∧
        (data.length + 1) / 2 ≤ out.length ∧ 1 ≤ out.length) ∧
    ∃ blocks, partition [65, 66, 65, 66] = .ok blocks ∧
      (∀ blk ∈ blocks, ∀ k, k ≤ NUMPASSES →
        ∃ blk_k pairs_k, passLoop1 k 0 blk [] = .ok (blk_k, pairs_k) ∧
          1 ≤ blk_k.data.length ∧ loopBound blk_k.data.length = blk_k.data.length - 1) ∧
      (∀ k, k ≤ NUMPASSES →
        ∃ blocks_k pairs_k, passLoop2 k 0 blocks [] = .ok (blocks_k, pairs_k) ∧
          blocks_k.length = blocks.length ∧
          ∀ blk_k ∈ blocks_k, 1 ≤ blk_k.data.length ∧
            loopBound blk_k.data.length = blk_k.data.length - 1) :=
  ⟨by decide, data_stays_nonempty [65, 66, 65, 66] (by decide)⟩

/-- C38. Alphabet invariant: for every input of bytes, every block `blk` of
its partition and every `k <= 32`, the block `blk_k` after `k` passes of
`BP_Encode1`, and the block at the same place after `k` passes of
`BP_Encode2` on all blocks, has `k` keys in `subs`, pairwise distinct; every
byte of its data occurs in the data of `blk` or in `subs`; and if `k < 32`
the key the next pass pops (the back of `unused`) does not occur in its
data. -/
theorem alphabet_invariant (X : List Nat) (hX : IsBytes X) :
    ∃ blocks, partition X = .ok blocks ∧
      (∀ blk ∈ blocks, ∀ k, k ≤ NUMPASSES →
        ∃ blk_k pairs_k, passLoop1 k 0 blk [] = .ok (blk_k, pairs_k) ∧
          AlphabetInv blk blk_k k) ∧
      (∀ k, k ≤ NUMPASSES →
        ∃ blocks_k pairs_k, passLoop2 k 0 blocks [] = .ok (blocks_k, pairs_k) ∧
          List.Forall₂ (fun blk blk_k => AlphabetInv blk blk_k k) blocks blocks_k) := by
  obtain ⟨blocks, hp, _⟩ := partition_ok X
  have hinit := partition_mem X hX blocks hp
  refine ⟨blocks, hp, ?_, ?_⟩
  · intro blk hblk k hk
    obtain ⟨blk_k, pairs_k, h1, _, _, h4⟩ := passLoop1_inv (hinit blk hblk) k hk
    exact ⟨blk_k, pairs_k, h1, h4⟩
  · intro k hk
    obtain ⟨blocks_k, pairs_k, h1, h2⟩ := passLoop2_inv blocks hinit k hk
    exact ⟨blocks_k, pairs_k, h1, List.Forall₂.imp (fun _ _ h => h.2.2) h2⟩

theorem alphabet_invariant_witness :
    IsBytes [65, 66, 65, 66] ∧
    ∃ blocks, partition [65, 66, 65, 66] = .ok blocks ∧
      (∀ blk ∈ blocks, ∀ k, k ≤ NUMPASSES →
        ∃ blk_k pairs_k, passLoop1 k 0 blk [] = .ok (blk_k, pairs_k) ∧
          AlphabetInv blk blk_k k) ∧
      (∀ k, k ≤ NUMPASSES →
        ∃ blocks_k pairs_k, passLoop2 k 0 blocks [] = .ok (blocks_k, pairs_k) ∧
          List.Forall₂ (fun blk blk_k => AlphabetInv blk blk_k k) blocks blocks_k) :=
  ⟨by decide, alphabet_invariant [65, 66, 65, 66] (by decide)⟩

/-! ## The size and the bytes of a variable-size integer -/

theorem encodeSizeLoop_least (val : Nat) (hval : val < 2 ^ 63) (n size : Nat) (h1 : 1 ≤ size)
    (h9 : size ≤ 9) (hn : 10 ≤ n + size) :
    ∃ s, encodeSizeLoop val n size = .ok s ∧ size ≤ s ∧ s ≤ 9 ∧ val < 128 ^ s ∧
      ∀ m, size ≤ m → m < s → 128 ^ m ≤ val := by
  induction n generalizing size with
  | zero => omega
  | succ n ih =>
    have h64 : ¬ 64 ≤ size * 7 := by omega
    have e : (128 : Nat) ^ size = 2 ^ (size * 7) := by rw [Nat.mul_comm, Nat.pow_mul]
    by_cases hs : val >>> (size * 7) ≠ 0
    · have hge : 128 ^ size ≤ val := by
        by_contra hc
        apply hs
        rw [Nat.shiftRight_eq_div_pow, ← e]
        exact Nat.div_eq_of_lt (Nat.lt_of_not_le hc)
      have hlt : size ≤ 8 := by
        by_contra hc
        have e9 : size = 9 := by omega
        rw [e9] at hge
        have : (128 : Nat) ^ 9 = 2 ^ 63 := by decide
        omega
      obtain ⟨s, hs1, hs2, hs3, hs4, hs5⟩ := ih (size + 1) (by omega) (by omega) (by omega)
      refine ⟨s, ?_, by omega, hs3, hs4, ?_⟩
      · rw [encodeSizeLoop, if_neg h64, if_pos hs, hs1]
      · intro m hm1 hm2
        by_cases hm : m = size
        · rw [hm]; exact hge
        · exact hs5 m (by omega) hm2
    · refine ⟨size, ?_, Nat.le_refl _, h9, ?_, fun m hm1 hm2 => by omega⟩
      · rw [encodeSizeLoop, if_neg h64, if_neg hs]
      · simp only [ne_eq, not_not] at hs
        rw [Nat.shiftRight_eq_div_pow, Nat.div_eq_zero_iff (by positivity)] at hs
        rw [e]
        exact hs

theorem flex_or_bit (cur : Nat) (h : cur < 128) : cur ||| 0x80 = cur + 128 := by
  revert cur
  decide

theorem encodeBytesLoop_groups (val c : Nat) :
    encodeBytesLoop val c (val / 128 ^ c % 128) [] = flexGroups val (c + 1) := by
  induction c with
  | zero => simp [encodeBytesLoop, flexGroups]
  | succ c ih =>
    obtain ⟨hd1, hd2⟩ := flex_digit val c
    have hbytes : encodeBytesLoop val (c + 1) (val / 128 ^ (c + 1) % 128) [] =
        [val / 128 ^ (c + 1) % 128 ||| 0x80] ++
          encodeBytesLoop val c (val / 128 ^ c % 128) [] := by
      rw [encodeBytesLoop, encodeBytesLoop_append, hd1]
      simp
    rw [hbytes, ih, flex_or_bit _ (flex_digit val (c + 1)).2]
    unfold flexGroups
    rw [List.range_succ_eq_map (c + 1), List.map_cons, List.map_map]
    simp only [List.singleton_append, Nat.add_sub_cancel, Nat.sub_zero, Nat.zero_add,
      Nat.lt_add_left_iff_pos, Nat.zero_lt_succ, if_true]
    congr 1
    apply List.map_congr_left
    intro i hi
    rw [List.mem_range] at hi
    simp only [Function.comp, Nat.succ_eq_add_one]
    have e1 : c + 1 - (i + 1) = c - i := by omega
    rw [e1]
    congr 1
    by_cases h : i + 1 < c + 1
    · rw [if_pos h, if_pos (by omega)]
    · rw [if_neg h, if_neg (by omega)]

/-- The encoder on a value below 2^63: the least size, and the groups. -/
theorem flexint_layout (val : Nat) (hval : val < 2 ^ 63) :
    ∃ n bytes, BP_EncodeFlexInt val = .ok (n, bytes) ∧ 1 ≤ n ∧ n ≤ 9 ∧ val < 2 ^ (7 * n) ∧
      (∀ m, 1 ≤ m → val < 2 ^ (7 * m) → n ≤ m) ∧ bytes = flexGroups val n ∧
      bytes.length = n := by
  obtain ⟨s, hs, hs1, hs9, hlt, hleast⟩ := encodeSizeLoop_least val hval 10 1 (by decide)
    (by decide) (by decide)
  have e : ∀ m, (2 : Nat) ^ (7 * m) = 128 ^ m := fun m => by rw [Nat.pow_mul]
  obtain ⟨hd1, _⟩ := flex_digit val (s - 1)
  have hs' : s - 1 + 1 = s := by omega
  refine ⟨s, flexGroups val s, ?_, hs1, hs9, by rw [e]; exact hlt, ?_, rfl, by simp [flexGroups]⟩
  · simp only [BP_EncodeFlexInt, hs, hd1]
    rw [encodeBytesLoop_groups, hs']
  · intro m hm1 hm2
    by_contra hc
    have := hleast m hm1 (by omega)
    rw [e] at hm2
    omega

theorem flexint_ten (val : Nat) (hval : 2 ^ 63 ≤ val) (h64 : val < 2 ^ 64) :
    BP_EncodeFlexInt val = .error .undefined ∧ val < 2 ^ (7 * 10) ∧
      ∀ m, 1 ≤ m → val < 2 ^ (7 * m) → 10 ≤ m := by
  refine ⟨flexint_large val hval, ?_, ?_⟩
  · have : (2 : Nat) ^ 64 ≤ 2 ^ (7 * 10) := Nat.pow_le_pow_right (by decide) (by decide)
    omega
  · intro m hm1 hm2
    by_contra hc
    have : (2 : Nat) ^ (7 * m) ≤ 2 ^ 63 := Nat.pow_le_pow_right (by decide) (by omega)
    exact absurd (Nat.lt_of_lt_of_le (Nat.lt_of_lt_of_le hm2 this) hval) (Nat.lt_irrefl _)

/-- C34. For every value `v` below 2^63, `BP_EncodeFlexInt` returns the
least `n >= 1` with `v < 2^(7n)`, which is at most 9, and writes the `n`
groups of 7 bits of `v`, most significant first, with bit `0x80` set on every
byte except the last.  For a 64-bit value of 2^63 or more, such as 2^63, the
least such `n` is 10, and `BP_EncodeFlexInt` does not write 10 bytes: its
size loop evaluates `val >> 70`, which is undefined. -/
theorem flexint_size :
    (∀ v, v < 2 ^ 63 → ∃ n bytes, BP_EncodeFlexInt v = .ok (n, bytes) ∧ 1 ≤ n ∧ n ≤ 9 ∧
      v < 2 ^ (7 * n) ∧ (∀ m, 1 ≤ m → v < 2 ^ (7 * m) → n ≤ m) ∧ bytes = flexGroups v n ∧
      bytes.length = n) ∧
    (∀ v, 2 ^ 63 ≤ v → v < 2 ^ 64 → BP_EncodeFlexInt v = .error .undefined ∧
      v < 2 ^ (7 * 10) ∧ ∀ m, 1 ≤ m → v < 2 ^ (7 * m) → 10 ≤ m) ∧
    BP_EncodeFlexInt (2 ^ 63) = .error .undefined ∧
    BP_EncodeFlexInt 300 = .ok (2, [0x82, 0x2C]) :=
  ⟨fun v hv => flexint_layout v hv, fun v h1 h2 => flexint_ten v h1 h2,
    (flexint_ten (2 ^ 63) (Nat.le_refl _) (by decide)).1, by rfl⟩

/-! ## The in-buffer decoder (`misc/bpdecode.c`) and the file tools -/

/-! ## The record `bpencfile` writes and the record `bpdecfile` reads -/

theorem flexint_small_all (val : Nat) (hval : val < 2 ^ 63) :
    ∃ bytes, BP_EncodeFlexInt val = .ok (bytes.length, bytes) ∧ 1 ≤ bytes.length ∧
      ∀ rest, BP_DecodeFlexInt (bytes ++ rest) = .ok (val, bytes.length) := by
  obtain ⟨size, bytes, he, hl, h1, _, _⟩ := flexint_small val hval []
  refine ⟨bytes, by rw [hl]; exact he, by omega, ?_⟩
  intro rest
  obtain ⟨size', bytes', he', _, _, _, hd'⟩ := flexint_small val hval rest
  rw [he] at he'
  simp only [Except.ok.injEq, Prod.mk.injEq] at he'
  rw [← he'.2, ← he'.1, ← hl] at hd'
  exact hd'

/-- The reads of `bpdecfile` on a header followed by `csize + 3 * numSubs`
bytes `F`: the first `csize` bytes of `F` are taken as the compressed data,
the rest as the substitution records. -/
theorem bpdecfile_record_parse (b1 b2 F rest : List Nat) (dsize csize numSubs : Nat)
    (hd1 : ∀ r, BP_DecodeFlexInt (b1 ++ r) = .ok (dsize, b1.length))
    (hd2 : ∀ r, BP_DecodeFlexInt (b2 ++ r) = .ok (csize, b2.length))
    (hF : F.length = csize + numSubs * 3) (hc : 1 ≤ csize) :
    bpdecfile_record (b1 ++ b2 ++ [numSubs] ++ F ++ rest) 0 =
      .ok (some ⟨dsize, csize, numSubs, F.take csize, F.drop csize,
        (b1 ++ b2 ++ [numSubs] ++ F).length⟩) := by
  have e0 : b1 ++ b2 ++ [numSubs] ++ F ++ rest = b1 ++ (b2 ++ ([numSubs] ++ (F ++ rest))) := by
    simp
  have hr : read (b1 ++ b2 ++ [numSubs] ++ F ++ rest) (0 + b1.length + b2.length) =
      .ok numSubs := by
    have := read_append (b1 ++ b2) ([numSubs] ++ (F ++ rest)) 0 numSubs (by simp)
    simpa [Nat.add_assoc] using this
  have hF2 : F = F.take csize ++ F.drop csize := (List.take_append_drop _ _).symm
  have hl1 : (F.take csize).length = csize := by rw [List.length_take]; omega
  have hl2 : (F.drop csize).length = numSubs * 3 := by rw [List.length_drop]; omega
  have hn1 : readN (b1 ++ b2 ++ [numSubs] ++ F ++ rest) (0 + b1.length + b2.length + 1) csize =
      .ok (F.take csize) := by
    have := readN_append (b1 ++ b2 ++ [numSubs]) (F.take csize) (F.drop csize ++ rest)
    rw [hl1] at this
    rw [← this]
    congr 1
    · rw [← List.append_assoc (F.take csize), List.take_append_drop]; simp
    · simp; omega
  have hn2 : readN (b1 ++ b2 ++ [numSubs] ++ F ++ rest)
      (0 + b1.length + b2.length + 1 + csize) (numSubs * 3) = .ok (F.drop csize) := by
    have := readN_append (b1 ++ b2 ++ [numSubs] ++ F.take csize) (F.drop csize) rest
    rw [hl2] at this
    rw [← this]
    congr 1
    · rw [List.append_assoc _ (F.take csize), ← List.append_assoc (F.take csize),
        List.take_append_drop]
      simp
    · simp [hl1]; omega
  have hlen : (b1 ++ b2 ++ [numSubs] ++ F ++ rest).length =
      b1.length + b2.length + 1 + F.length + rest.length := by
    simp only [List.length_append, List.length_singleton]
  have hd1' : BP_DecodeFlexInt ((b1 ++ b2 ++ [numSubs] ++ F ++ rest).drop 0) =
      .ok (dsize, b1.length) := by
    rw [List.drop_zero, e0]; exact hd1 _
  have hd2' : BP_DecodeFlexInt ((b1 ++ b2 ++ [numSubs] ++ F ++ rest).drop (0 + b1.length)) =
      .ok (csize, b2.length) := by
    rw [e0, Nat.zero_add, List.drop_left]; exact hd2 _
  unfold bpdecfile_record
  simp only [hd1', hd2', hr, hn1, hn2]
  rw [if_neg (by rw [hlen]; omega), if_neg (by rw [hlen]; omega)]
  simp only [List.length_append, List.length_singleton, hF]
  congr 3
  omega

/-- The record `bpencfile` writes for the globals `st`, read by `bpdecfile`:
the sizes and the count are read as written, but the `csize` bytes read as
compressed data are the first `csize` bytes of the records followed by the
data, not the data. -/
theorem bpdecfile_record_of_write (st : EncState) (rest : List Nat)
    (h1 : st.bp_dsize < 2 ^ 63) (h2 : st.bp_csize < 2 ^ 63)
    (h3 : st.bp_numSubs * 3 ≤ st.bp_dsize) (h4 : st.bp_dsize ≤ st.bp_bfr.length)
    (h5 : st.bp_csize ≤ st.bp_bfr.length) (h6 : 1 ≤ st.bp_csize) :
    ∃ hdr subs data record,
      readN st.bp_bfr (st.bp_dsize - st.bp_numSubs * 3) (st.bp_numSubs * 3) = .ok subs ∧
      readN st.bp_bfr 0 st.bp_csize = .ok data ∧
      record = hdr ++ [st.bp_numSubs] ++ subs ++ data ∧
      writeRecord st = .ok record ∧
      bpdecfile_record (record ++ rest) 0 =
        .ok (some ⟨st.bp_dsize, st.bp_csize, st.bp_numSubs, (subs ++ data).take st.bp_csize,
          (subs ++ data).drop st.bp_csize, record.length⟩) := by
  obtain ⟨b1, he1, _, hd1⟩ := flexint_small_all st.bp_dsize h1
  obtain ⟨b2, he2, _, hd2⟩ := flexint_small_all st.bp_csize h2
  have hs : readN st.bp_bfr (st.bp_dsize - st.bp_numSubs * 3) (st.bp_numSubs * 3) =
      .ok ((st.bp_bfr.drop (st.bp_dsize - st.bp_numSubs * 3)).take (st.bp_numSubs * 3)) := by
    unfold readN
    rw [if_pos (by omega)]
  have hdt : readN st.bp_bfr 0 st.bp_csize = .ok ((st.bp_bfr.drop 0).take st.bp_csize) := by
    unfold readN
    rw [if_pos (by omega)]
  refine ⟨b1 ++ b2, _, _, _, hs, hdt, rfl, ?_, ?_⟩
  · simp only [writeRecord, he1, he2, hs, hdt, List.take_length]
    rw [if_neg (by omega)]
  · have hF : ((st.bp_bfr.drop (st.bp_dsize - st.bp_numSubs * 3)).take (st.bp_numSubs * 3) ++
        (st.bp_bfr.drop 0).take st.bp_csize).length = st.bp_csize + st.bp_numSubs * 3 := by
      simp only [List.length_append, List.length_take, List.length_drop]
      omega
    have := bpdecfile_record_parse b1 b2 _ rest st.bp_dsize st.bp_csize st.bp_numSubs hd1 hd2
      hF h6
    simp only [List.append_assoc] at this ⊢
    exact this

theorem misc_encode13 :
    BP_EncodeWith MAXPASSES [1, 2, 1, 2, 1, 2, 1, 2, 1, 2, 1, 2, 9] 13 =
      .ok ⟨[0, 0, 0, 0, 0, 0, 9, 2, 1, 2, 0, 1, 2], 7, 13, 1,
        [254, 254, 254, 255, 255, 255, 255, 255, 255, 254] ++ List.replicate 22 255⟩ := by
  rfl

theorem misc_encode13_default :
    BP_Encode [1, 2, 1, 2, 1, 2, 1, 2, 1, 2, 1, 2, 9] 13 =
      .ok ⟨[0, 0, 0, 0, 0, 0, 9, 2, 1, 2, 0, 1, 2], 7, 13, 1,
        [254, 254, 254, 255, 255, 255, 255, 255, 255, 254] ++ List.replicate 22 255⟩ := by
  rfl

theorem misc_block13 :
    bpencfile_block [1, 2, 1, 2, 1, 2, 1, 2, 1, 2, 1, 2, 9] 13 =
      .ok [13, 7, 1, 0, 1, 2, 0, 0, 0, 0, 0, 0, 9] := by
  rfl

theorem misc_parse13 :
    bpdecfile_record [13, 7, 1, 0, 1, 2, 0, 0, 0, 0, 0, 0, 9] 0 =
      .ok (some ⟨13, 7, 1, [0, 1, 2, 0, 0, 0, 0], [0, 0, 9], 13⟩) := by
  rfl

/-- C35. The reads of `bpdecfile` are not in the order of the writes of
`bpencfile`: `bpencfile` writes DEC_SIZE, COMP_SIZE, NUM_SUBS, the
substitution records, the compressed data, and `bpdecfile` reads DEC_SIZE,
COMP_SIZE, NUM_SUBS, then `csize` bytes as compressed data, then the
substitution records.  For every state of the encoder (sizes below 2^63,
records and data inside the buffer, `csize >= 1`) the three header fields are
recovered, and the bytes read as compressed data are the first `csize` bytes
of the records followed by the data.  On the block `1 2 1 2 1 2 1 2 1 2 1 2 9`
the record written is `13 7 1`, `0 1 2`, `0 0 0 0 0 0 9`; `bpdecfile` reads
the data `0 1 2 0 0 0 0` and the substitution record `0 0 9`. -/
theorem record_order_mismatch :
    (∀ (st : EncState) (rest : List Nat), st.bp_dsize < 2 ^ 63 → st.bp_csize < 2 ^ 63 →
      st.bp_numSubs * 3 ≤ st.bp_dsize → st.bp_dsize ≤ st.bp_bfr.length →
      st.bp_csize ≤ st.bp_bfr.length → 1 ≤ st.bp_csize →
      ∃ hdr subs data record,
        readN st.bp_bfr (st.bp_dsize - st.bp_numSubs * 3) (st.bp_numSubs * 3) = .ok subs ∧
        readN st.bp_bfr 0 st.bp_csize = .ok data ∧
        record = hdr ++ [st.bp_numSubs] ++ subs ++ data ∧
        writeRecord st = .ok record ∧
        bpdecfile_record (record ++ rest) 0 =
          .ok (some ⟨st.bp_dsize, st.bp_csize, st.bp_numSubs,
            (subs ++ data).take st.bp_csize, (subs ++ data).drop st.bp_csize,
            record.length⟩)) ∧
    ∃ st record parsed,
      BP_EncodeWith MAXPASSES [1, 2, 1, 2, 1, 2, 1, 2, 1, 2, 1, 2, 9] 13 = .ok st ∧
      readN st.bp_bfr (st.bp_dsize - st.bp_numSubs * 3) (st.bp_numSubs * 3) = .ok [0, 1, 2] ∧
      readN st.bp_bfr 0 st.bp_csize = .ok [0, 0, 0, 0, 0, 0, 9] ∧
      bpencfile_block [1, 2, 1, 2, 1, 2, 1, 2, 1, 2, 1, 2, 9] 13 = .ok record ∧
      record = [13, 7, 1] ++ [0, 1, 2] ++ [0, 0, 0, 0, 0, 0, 9] ∧
      bpdecfile_record record 0 = .ok (some parsed) ∧
      parsed.dsize = 13 ∧ parsed.csize = 7 ∧ parsed.numSubs = 1 ∧
      parsed.data = [0, 1, 2, 0, 0, 0, 0] ∧ parsed.subs = [0, 0, 9] ∧
      parsed.data ≠ [0, 0, 0, 0, 0, 0, 9] ∧ parsed.subs ≠ [0, 1, 2] :=
  ⟨fun st rest h1 h2 h3 h4 h5 h6 => bpdecfile_record_of_write st rest h1 h2 h3 h4 h5 h6,
    _, _, _, misc_encode13, rfl, rfl, misc_block13, rfl, misc_parse13, rfl, rfl, rfl, rfl, rfl,
    by decide, by decide⟩

/-! ## The in-buffer round trip -/

theorem misc_decode13 :
    Misc.BP_Decode [0, 0, 0, 0, 0, 0, 9, 2, 1, 2, 0, 1, 2] 7 13 1 = .error .undefined := by
  rfl

theorem misc_decode13_padded :
    Misc.BP_Decode ([0, 0, 0, 0, 0, 0, 9, 2, 1, 2, 0, 1, 2] ++ [0, 0, 0]) 7 13 1 =
      .ok ([0, 0, 0] ++ [1, 2, 1, 2, 1, 2, 1, 2, 1, 2, 1, 2, 9]) := by
  rfl

theorem misc_decode9 :
    Misc.BP_Decode [0, 3, 4, 5, 6, 7, 0, 1, 2] 8 9 1 = .error .undefined := by
  rfl

theorem misc_encode17 :
    BP_Encode [1, 2, 1, 2, 1, 2, 1, 2, 1, 2, 1, 2, 1, 2, 1, 2, 9] 17 =
      .ok ⟨[32, 32, 32, 32, 9, 0, 0, 0, 9, 2, 1, 32, 0, 0, 0, 1, 2], 5, 17, 2,
        [252, 254, 254, 255, 255, 255, 255, 255, 255, 254] ++ List.replicate 22 255⟩ := by
  rfl

theorem misc_decode17 :
    Misc.BP_Decode [32, 32, 32, 32, 9, 0, 0, 0, 9, 2, 1, 32, 0, 0, 0, 1, 2] 5 17 2 =
      .ok [1, 2, 1, 2, 1, 2, 1, 2, 1, 2, 1, 2, 1, 2, 1, 2, 9] := by
  rfl

/-- C36. The in-buffer round trip does not hold for every buffer.  On the 13
bytes `1 2 1 2 1 2 1 2 1 2 1 2 9` `BP_Encode` makes one substitution and leaves
`bp_csize` 7, with room for the record (7 + 3 <= 13); `BP_Decode` then reads a
second record past the end of the 13-byte buffer, and on a buffer with three
more bytes it leaves the 13 original bytes at offsets 3 to 15, not at the
front.  On the 9 bytes `1 2 ... 9` the encoder has overwritten the bytes
`8 9` with the record, and the decoder reads past the end as well.  On the 17
bytes `1 2` repeated 8 times, then `9`, where the encoder makes two
substitutions, `BP_Decode` leaves the original bytes. -/
theorem misc_roundtrip_odd :
    (∃ st, BP_Encode [1, 2, 1, 2, 1, 2, 1, 2, 1, 2, 1, 2, 9] 13 = .ok st ∧
      st.bp_csize = 7 ∧ st.bp_dsize = 13 ∧ st.bp_numSubs = 1 ∧
      st.bp_csize + 3 * st.bp_numSubs ≤ st.bp_dsize ∧
      Misc.BP_Decode st.bp_bfr st.bp_csize st.bp_dsize st.bp_numSubs = .error .undefined ∧
      Misc.BP_Decode (st.bp_bfr ++ [0, 0, 0]) st.bp_csize st.bp_dsize st.bp_numSubs =
        .ok ([0, 0, 0] ++ [1, 2, 1, 2, 1, 2, 1, 2, 1, 2, 1, 2, 9])) ∧
    (∃ st, BP_Encode [1, 2, 3, 4, 5, 6, 7, 8, 9] 9 = .ok st ∧ st.bp_numSubs = 1 ∧
      8 ∉ st.bp_bfr ∧
      Misc.BP_Decode st.bp_bfr st.bp_csize st.bp_dsize st.bp_numSubs = .error .undefined) ∧
    (∃ st, BP_Encode [1, 2, 1, 2, 1, 2, 1, 2, 1, 2, 1, 2, 1, 2, 1, 2, 9] 17 = .ok st ∧
      st.bp_numSubs = 2 ∧
      Misc.BP_Decode st.bp_bfr st.bp_csize st.bp_dsize st.bp_numSubs =
        .ok [1, 2, 1, 2, 1, 2, 1, 2, 1, 2, 1, 2, 1, 2, 1, 2, 9]) :=
  ⟨⟨_, misc_encode13_default, rfl, rfl, rfl, by decide, misc_decode13, misc_decode13_padded⟩,
    ⟨_, misc_encode, rfl, by decide, misc_decode9⟩,
    ⟨_, misc_encode17, rfl, misc_decode17⟩⟩

/-! ## Blocks that are followed by more input -/

theorem BlockInit.unused_card {blk : Block} (h : BlockInit blk) (hb : IsBytes blk.data) :
    blk.unused.length + blk.data.toFinset.card = 256 := by
  have hfin : blk.unused.toFinset = Finset.range 256 \ blk.data.toFinset := by
    ext x
    simp [h.unused_eq, List.mem_filter]
  have hsub : blk.data.toFinset ⊆ Finset.range 256 := by
    intro x hx
    rw [List.mem_toFinset] at hx
    exact Finset.mem_range.mpr (hb x hx)
  have hle := Finset.card_le_card hsub
  rw [← List.toFinset_card_of_nodup h.nodup, hfin, Finset.card_sdiff hsub]
  simp only [Finset.card_range] at hle ⊢
  omega

/-- The constructor on a non-empty input, when it leaves input behind and the
block has fewer than 65,535 bytes: the block has exactly 224 distinct byte
values, and fewer without its last byte. -/
theorem mkBlock_followed (b : Nat) (rest : List Nat) :
    ∃ blk rest', mkBlock (b :: rest) = .ok (blk, rest') ∧
      (rest' ≠ [] → blk.data.length < 65535 →
        blk.data.toFinset.card = 256 - NUMPASSES ∧
          blk.data.dropLast.toFinset.card < 256 - NUMPASSES) := by
  obtain ⟨n, h1, h2, hmk, hstop, hmin⟩ := mkBlock_shortest b rest
  refine ⟨_, _, hmk, ?_⟩
  intro hrest hlen
  simp only [List.length_take] at hlen
  have hn : n < (b :: rest).length := by
    by_contra hc
    exact hrest (List.drop_eq_nil_of_le (by omega))
  have hcard : (List.take n (b :: rest)).toFinset.card = 256 - NUMPASSES := by
    rcases hstop with h | h | h
    · omega
    · omega
    · exact h
  refine ⟨hcard, ?_⟩
  simp only
  rw [List.dropLast_eq_take, List.length_take, List.take_take]
  have hm : min (min n (b :: rest).length - 1) n = n - 1 := by omega
  rw [hm]
  have hsub : (List.take (n - 1) (b :: rest)).toFinset ⊆ (List.take n (b :: rest)).toFinset := by
    intro x hx
    rw [List.mem_toFinset] at hx ⊢
    exact (List.take_subset_take_left _ (by omega)) hx
  have hle := Finset.card_le_card hsub
  by_cases h0 : n - 1 = 0
  · rw [h0]
    simp [NUMPASSES]
  · have hns := hmin (n - 1) (by omega) (by omega)
    have hne : (List.take (n - 1) (b :: rest)).toFinset.card ≠ 256 - NUMPASSES :=
      fun e => hns (Or.inr (Or.inr e))
    omega

theorem partitionLoop_followed (n : Nat) (input : List Nat) (blocks : List Block)
    (h : partitionLoop n input = .ok blocks) :
    ∀ pre blk post, blocks = pre ++ blk :: post → post ≠ [] → blk.data.length < 65535 →
      blk.data.toFinset.card = 256 - NUMPASSES ∧
        blk.data.dropLast.toFinset.card < 256 - NUMPASSES := by
  induction n generalizing input blocks with
  | zero =>
    cases input with
    | nil =>
      simp only [partitionLoop, Except.ok.injEq] at h
      subst h
      intro pre blk post e
      simp at e
    | cons b rest => simp [partitionLoop] at h
  | succ n ih =>
    cases input with
    | nil =>
      simp only [partitionLoop, Except.ok.injEq] at h
      subst h
      intro pre blk post e
      simp at e
    | cons b rest =>
      obtain ⟨blk0, rest', hmk, hfol⟩ := mkBlock_followed b rest
      simp only [partitionLoop, hmk] at h
      cases hp : partitionLoop n rest' with
      | error e => simp [hp] at h
      | ok blks =>
        simp only [hp, Except.ok.injEq] at h
        subst h
        intro pre blk post e hpost hlen
        cases pre with
        | nil =>
          simp only [List.nil_append, List.cons.injEq] at e
          obtain ⟨e1, e2⟩ := e
          subst e1
          apply hfol _ hlen
          intro hnil
          rw [hnil] at hp
          have : blks = [] := by
            cases n <;> simp [partitionLoop] at hp <;> exact hp
          rw [this] at e2
          exact hpost e2.symm
        | cons p pre' =>
          simp only [List.cons_append, List.cons.injEq] at e
          exact ih rest' blks hp pre' blk post e.2 hpost hlen

theorem card_append_new (data : List Nat) (b : Nat) (hb : b ∉ data) :
    (data ++ [b]).toFinset.card = data.toFinset.card + 1 := by
  have e : (data ++ [b]).toFinset = insert b data.toFinset := by
    ext x
    simp [or_comm]
  rw [e, Finset.card_insert_of_not_mem (fun h => hb (List.mem_toFinset.mp h))]

/-- C19, amended. For every input of bytes the partition returns blocks that
each leave at least `NUMPASSES` byte values unused, and every block that is
followed by another block and has fewer than 65,535 bytes contains exactly
`256 - NUMPASSES = 224` distinct byte values, so that exactly `NUMPASSES`
values are unused, and contains fewer without its last byte: it ends at the
byte that brings the count to 224.  Extending it by a byte value that does
not occur in it would leave fewer than `NUMPASSES` values unused. -/
theorem blocks_stop_at_224 (X : List Nat) (hX : IsBytes X) :
    ∃ blocks, partition X = .ok blocks ∧ (blocks.map (·.data)).flatten = X ∧
      (∀ blk ∈ blocks, NUMPASSES ≤ blk.unused.length) ∧
      ∀ pre blk post, blocks = pre ++ blk :: post → post ≠ [] → blk.data.length < 65535 →
        blk.data.toFinset.card = 256 - NUMPASSES ∧ blk.unused.length = NUMPASSES ∧
          blk.data.dropLast.toFinset.card < 256 - NUMPASSES ∧
          ∀ b, b ∉ blk.data → 256 - (blk.data ++ [b]).toFinset.card < NUMPASSES := by
  obtain ⟨blocks, hp, hcat⟩ := partition_ok X
  have hinit := partition_mem X hX blocks hp
  refine ⟨blocks, hp, hcat, fun blk hblk => (hinit blk hblk).unused_len, ?_⟩
  intro pre blk post e hpost hlen
  have hmem : blk ∈ blocks := by rw [e]; simp
  obtain ⟨h1, h2⟩ := partitionLoop_followed _ X blocks hp pre blk post e hpost hlen
  have hu := (hinit blk hmem).unused_card (partition_isBytes X hX blocks hp blk hmem)
  refine ⟨h1, ?_, h2, ?_⟩
  · unfold NUMPASSES at h1 ⊢
    omega
  · intro b hb
    rw [card_append_new blk.data b hb, h1]
    decide

set_option maxRecDepth 100000 in
theorem blocks_stop_at_224_witness :
    IsBytes (List.range 224 ++ [0]) ∧
    ∃ blocks, partition (List.range 224 ++ [0]) = .ok blocks ∧
      (blocks.map (·.data)).flatten = List.range 224 ++ [0] ∧
      (∀ blk ∈ blocks, NUMPASSES ≤ blk.unused.length) ∧
      ∀ pre blk post, blocks = pre ++ blk :: post → post ≠ [] → blk.data.length < 65535 →
        blk.data.toFinset.card = 256 - NUMPASSES ∧ blk.unused.length = NUMPASSES ∧
          blk.data.dropLast.toFinset.card < 256 - NUMPASSES ∧
          ∀ b, b ∉ blk.data → 256 - (blk.data ++ [b]).toFinset.card < NUMPASSES :=
  ⟨by decide, blocks_stop_at_224 (List.range 224 ++ [0]) (by decide)⟩

end BPCode
